import Mathlib

/-!
# B-tree of `btree.c`: embedding and properties

The C structures live on a heap of node records: a node pointer is an index
into `BTree.heap`, `none` is `NULL`.  Every node owns two arrays of
`BTREE_MAX_NODES + 1` slots (`values`, `children`).  The two constants of the
absent header are the parameters `M` (`BTREE_MAX_NODES`) and `mn`
(`BTREE_MIN_NODES`) of every function.

Conventions of the embedding:
* an array slot outside the array reads as `NULL`, a write to it is dropped;
* `malloc` returns the next unused index; the contents of the block it
  returns are the parameter `junk` where the code reads a field before
  writing it; it always succeeds, except in the functions named `_alloc`,
  which take the outcome of each `malloc` call from a list;
* `free` and the `destroy` callback do not alter node records, the argument
  of every `destroy` call is appended to `BTree.destroyed`, the argument of
  every `free` to `BTree.freed`;
* an index that `malloc` never returned reads as an empty record and a store
  through it is dropped (no function below creates such an index);
* recursive functions take a `fuel` argument bounding the recursion depth and
  return `none` when it is exhausted or when `NULL` is dereferenced.
-/

namespace BTreeC

/-- The record `BTreeNode`: `values[0..M]`, `children[0..M]`, `size`, `isLeaf`. -/
structure BTreeNode (α : Type) where
  values : List (Option α)
  children : List (Option Nat)
  size : Int
  isLeaf : Bool
  deriving DecidableEq, Repr

/-- An argument of the `destroy` callback, a `void*`: the address of a key
cell or the address of a node. -/
inductive DestroyArg (α : Type) where
  | key (k : α)
  | node (p : Nat)
  deriving DecidableEq, Repr

/-- The record `BTree`, without its two callbacks: the comparator is passed to
the functions that call it, the calls of `destroy` are recorded. -/
structure BTree (α : Type) where
  root : Option Nat
  size : Int
  heap : List (BTreeNode α)
  destroyed : List (DestroyArg α)
  freed : List Nat
  deriving DecidableEq, Repr

/-- A comparator `int (*)(const void*, const void*)`; `none` is `NULL`. -/
abbrev Compare (α : Type) := Option α → Option α → Int

section Arrays

variable {β : Type}

/-- Read of slot `i`: `a[i]`. -/
def rd (a : List (Option β)) (i : Nat) : Option β := a.getD i none

/-- Write of slot `i`: `a[i] = v`. -/
def wr (a : List (Option β)) (i : Nat) (v : Option β) : List (Option β) := a.set i v

/-- First loop of `reorderValues`, `k` iterations left:
`for (i; i <= M; i++) if (values[i] != NULL) values[nonNullIndex++] = values[i];`
returns the array and `nonNullIndex`. -/
def reorderPack : Nat → Nat → Nat → List (Option β) → List (Option β) × Nat
  | 0, _, nn, a => (a, nn)
  | k + 1, i, nn, a =>
    if (rd a i).isSome then reorderPack k (i + 1) (nn + 1) (wr a nn (rd a i))
    else reorderPack k (i + 1) nn a

/-- Second loop of `reorderValues`, `k` iterations left:
`while (nonNullIndex <= nullIndex) values[nonNullIndex++] = NULL;`. -/
def reorderClear : Nat → Nat → List (Option β) → List (Option β)
  | 0, _, a => a
  | k + 1, nn, a => reorderClear k (nn + 1) (wr a nn none)

/-- The function `reorderValues(values, start)`. -/
def reorderValues (M : Nat) (a : List (Option β)) (start : Nat) : List (Option β) :=
  let r := reorderPack (M + 1 - start) start start a
  reorderClear (M + 1 - r.2) r.2 r.1

/-- Loop `for (i = lo; i < lo + k; i++) if (a[i] != NULL) return true;`. -/
def anyFrom (a : List (Option β)) : Nat → Nat → Bool
  | 0, _ => false
  | k + 1, i => if (rd a i).isSome then true else anyFrom a k (i + 1)

/-- Loop `count = 0; for (i = lo; i < lo + k; i++) if (a[i] != NULL) count++;`. -/
def countFrom (a : List (Option β)) : Nat → Nat → Int
  | 0, _ => 0
  | k + 1, i => (if (rd a i).isSome then 1 else 0) + countFrom a k (i + 1)

end Arrays

section Insertion

variable {α : Type}

/-- Dereference of a node pointer. -/
def deref (h : List (BTreeNode α)) (p : Nat) : BTreeNode α := h.getD p ⟨[], [], 0, false⟩

/-- Store through a node pointer. -/
def store (h : List (BTreeNode α)) (p : Nat) (n : BTreeNode α) : List (BTreeNode α) :=
  h.set p n

/-- The function `node_create`: the new node is appended to the heap and its
index returned with the heap. -/
def node_create (M : Nat) (t : BTree α) (child : Option Nat) (value : Option α) :
    List (BTreeNode α) × Nat :=
  let newNode : BTreeNode α :=
    { values := wr (List.replicate (M + 1) none) 1 value
      children := wr (wr (List.replicate (M + 1) none) 0 t.root) 1 child
      size := 1
      isLeaf := false }
  (t.heap ++ [newNode], t.heap.length)

/-- Shifting loop of `node_add`, `k = j - index` iterations left:
`while (j > index) { values[j+1] = values[j]; children[j+1] = children[j]; j--; }`. -/
def node_add_shift : Nat → Nat → List (Option α) → List (Option Nat) →
    List (Option α) × List (Option Nat)
  | 0, _, vs, cs => (vs, cs)
  | k + 1, j, vs, cs =>
    node_add_shift k (j - 1) (wr vs (j + 1) (rd vs j)) (wr cs (j + 1) (rd cs j))

/-- The function `node_add(index, node, child, value)` on the record of `node`. -/
def node_add (M : Nat) (index : Nat) (node : BTreeNode α) (child : Option Nat)
    (value : Option α) : BTreeNode α :=
  let j := node.size.toNat
  let r := node_add_shift (j - index) j node.values node.children
  let vs := wr r.1 (index + 1) value
  let cs := wr r.2 (index + 1) child
  { values := vs
    children := cs
    size := node.size + 1
    isLeaf := !(anyFrom cs (M - 1) 1) }

/-- Moving loop of `node_split`, `k` iterations left, `j` from `median + 1` to `M`:
the upper keys and children go to `newNode`, their slots in `node` are cleared. -/
def node_split_move (median : Nat) : Nat → Nat → BTreeNode α → BTreeNode α →
    BTreeNode α × BTreeNode α
  | 0, _, node, newNode => (node, newNode)
  | k + 1, j, node, newNode =>
    node_split_move median k (j + 1)
      { node with
        values := wr node.values j none
        children := wr node.children j none
        size := node.size - 1 }
      { newNode with
        values := wr newNode.values (j - median) (rd node.values j)
        children := wr newNode.children (j - median) (rd node.children j) }

/-- The function `node_split(index, node, child, &newNode, value, &pValue)` on
the record of `node`; `junk` is the block returned by `malloc`.  Returns the
records of `node` and of `*newNode`, and `*pValue`. -/
def node_split (M mn : Nat) (junk : BTreeNode α) (index : Nat) (node : BTreeNode α)
    (child : Option Nat) (value : Option α) : BTreeNode α × BTreeNode α × Option α :=
  let median := if index > mn then mn + 1 else mn
  let new0 : BTreeNode α :=
    { junk with values := List.replicate (M + 1) none
                children := List.replicate (M + 1) none }
  let r := node_split_move median (M - median) (median + 1) node new0
  let node1 : BTreeNode α :=
    { r.1 with children := reorderValues M r.1.children 0 }
  let node2 : BTreeNode α :=
    { node1 with values := reorderValues M node1.values 1, size := median }
  let new1 : BTreeNode α := { r.2 with size := (M : Int) - median }
  let node3 := if index ≤ mn then node_add M index node2 child value else node2
  let new2 := if index ≤ mn then new1 else node_add M (index - median) new1 child value
  let pValue := rd node3.values node3.size.toNat
  let node4 : BTreeNode α :=
    { node3 with values := wr node3.values node3.size.toNat none, size := node3.size - 1 }
  let new3 : BTreeNode α :=
    { new2 with children := wr new2.children 0 (rd node4.children node4.size.toNat) }
  let node5 : BTreeNode α :=
    { node4 with children := wr node4.children node4.size.toNat none }
  ({ node5 with children := reorderValues M node5.children 0 }, new3, pValue)

/-- Loop of `node_set_value`:
`for (pos = size; compareTo(value, values[pos]) < 0 && pos > 1; pos--);`. -/
def node_set_value_pos (cmp : Compare α) (value : Option α) (vs : List (Option α)) :
    Nat → Nat
  | 0 => 0
  | p + 1 => if cmp value (rd vs (p + 1)) < 0 ∧ p + 1 > 1 then node_set_value_pos cmp value vs p
             else p + 1

/-- Result of `node_set_value`: the returned flag, the tree (heap and node
counter) and the two out-parameters `*child`, `*pValue`. -/
structure SetResult (α : Type) where
  ret : Bool
  tree : BTree α
  child : Option Nat
  pValue : Option α

/-- The function `node_set_value(tree, node, &child, value, &pValue)`. -/
def node_set_value (cmp : Compare α) (M mn : Nat) (junk : BTreeNode α) :
    Nat → BTree α → Option Nat → Option Nat → Option α → Option α → Option (SetResult α)
  | 0, _, _, _, _, _ => none
  | _ + 1, t, none, _, value, _ => some ⟨true, t, none, value⟩
  | fuel + 1, t, some a, child, value, pValue =>
    let node := deref t.heap a
    let pos := if cmp value (rd node.values 1) < 0 then 0
               else node_set_value_pos cmp value node.values node.size.toNat
    if ¬ cmp value (rd node.values 1) < 0 ∧ cmp value (rd node.values pos) = 0 then
      some ⟨false, t, child, pValue⟩
    else
      match node_set_value cmp M mn junk fuel t (rd node.children pos) child value pValue with
      | none => none
      | some r =>
        if r.ret then
          let node1 := deref r.tree.heap a
          if node1.size < M then
            let h1 := store r.tree.heap a (node_add M pos node1 r.child r.pValue)
            some ⟨false, { r.tree with heap := h1 }, r.child, r.pValue⟩
          else
            let s := node_split M mn junk pos node1 r.child r.pValue
            let b := r.tree.heap.length
            let h1 := store r.tree.heap a s.1 ++ [s.2.1]
            some ⟨true, { r.tree with heap := h1, size := r.tree.size + 1 }, some b, s.2.2⟩
        else some ⟨false, r.tree, r.child, r.pValue⟩

/-- The function `btree_create`. -/
def btree_create : BTree α := ⟨none, 0, [], [], []⟩

/-- The function `btree_add(tree, value)`.  The local `child` is read
uninitialised when the key is a duplicate; it is taken to be `NULL`. -/
def btree_add (cmp : Compare α) (M mn : Nat) (junk : BTreeNode α) (fuel : Nat) (t : BTree α)
    (value : α) : Option (BTree α) :=
  match node_set_value cmp M mn junk fuel t t.root none (some value) none with
  | none => none
  | some r =>
    let t1 : BTree α :=
      match r.child with
      | none => r.tree
      | some c =>
        let cn := deref r.tree.heap c
        let cn1 : BTreeNode α := { cn with isLeaf := !(anyFrom cn.children M 1) }
        { r.tree with heap := store r.tree.heap c cn1 }
    if r.ret then
      let n := node_create M t1 r.child r.pValue
      some { t1 with root := some n.2, heap := n.1, size := t1.size + 1 }
    else some t1

end Insertion

section AllocationFailure

variable {α : Type}

/-- One call of `malloc` against the list of the outcomes still to come
(`false`: the call returns `NULL`); past the end of the list every call
succeeds.  Returns the outcome and the rest of the list. -/
def malloc_next : List Bool → Bool × List Bool
  | [] => (true, [])
  | ok :: rest => (ok, rest)

/-- The function `node_create` when its `malloc` has the outcome `ok`: on
failure it returns `NULL` and the heap is as before. -/
def node_create_alloc (M : Nat) (ok : Bool) (t : BTree α) (child : Option Nat)
    (value : Option α) : List (BTreeNode α) × Option Nat :=
  if ok then ((node_create M t child value).1, some (node_create M t child value).2)
  else (t.heap, none)

/-- The function `node_set_value` with the outcomes of the `malloc` calls of
`node_split` taken from a list.  When the call fails `node_split` has stored
`NULL` in `*newNode` (the caller's `*child`) and returned, `*pValue` is as
before; the caller goes on with `tree->size++; return true;`. -/
def node_set_value_alloc (cmp : Compare α) (M mn : Nat) (junk : BTreeNode α) :
    Nat → List Bool → BTree α → Option Nat → Option Nat → Option α → Option α →
      Option (SetResult α × List Bool)
  | 0, _, _, _, _, _, _ => none
  | _ + 1, o, t, none, _, value, _ => some (⟨true, t, none, value⟩, o)
  | fuel + 1, o, t, some a, child, value, pValue =>
    let node := deref t.heap a
    let pos := if cmp value (rd node.values 1) < 0 then 0
               else node_set_value_pos cmp value node.values node.size.toNat
    if ¬ cmp value (rd node.values 1) < 0 ∧ cmp value (rd node.values pos) = 0 then
      some (⟨false, t, child, pValue⟩, o)
    else
      match node_set_value_alloc cmp M mn junk fuel o t (rd node.children pos) child value
          pValue with
      | none => none
      | some (r, o1) =>
        if r.ret then
          let node1 := deref r.tree.heap a
          if node1.size < M then
            let h1 := store r.tree.heap a (node_add M pos node1 r.child r.pValue)
            some (⟨false, { r.tree with heap := h1 }, r.child, r.pValue⟩, o1)
          else
            let m := malloc_next o1
            if m.1 then
              let s := node_split M mn junk pos node1 r.child r.pValue
              let b := r.tree.heap.length
              let h1 := store r.tree.heap a s.1 ++ [s.2.1]
              some (⟨true, { r.tree with heap := h1, size := r.tree.size + 1 }, some b, s.2.2⟩,
                m.2)
            else
              some (⟨true, { r.tree with size := r.tree.size + 1 }, none, r.pValue⟩, m.2)
        else some (⟨false, r.tree, r.child, r.pValue⟩, o1)

/-- The function `btree_add(tree, value)` with the outcomes of its `malloc`
calls taken from a list: the result of `node_create` is stored in
`tree->root` unchecked and `tree->size++` follows. -/
def btree_add_alloc (cmp : Compare α) (M mn : Nat) (junk : BTreeNode α) (fuel : Nat)
    (o : List Bool) (t : BTree α) (value : α) : Option (BTree α × List Bool) :=
  match node_set_value_alloc cmp M mn junk fuel o t t.root none (some value) none with
  | none => none
  | some (r, o1) =>
    let t1 : BTree α :=
      match r.child with
      | none => r.tree
      | some c =>
        let cn := deref r.tree.heap c
        let cn1 : BTreeNode α := { cn with isLeaf := !(anyFrom cn.children M 1) }
        { r.tree with heap := store r.tree.heap c cn1 }
    if r.ret then
      let m := malloc_next o1
      let n := node_create_alloc M m.1 t1 r.child r.pValue
      some ({ t1 with root := n.2, heap := n.1, size := t1.size + 1 }, m.2)
    else some (t1, o1)

end AllocationFailure

section Search

variable {α : Type}

/-- Scan of `containsKey`, `k` iterations left:
`while (position <= size && compareTo(*value, values[position]) < 0) position++;`. -/
def containsKey_scan (cmp : Compare α) (value : Option α) (vs : List (Option α)) (size : Int) :
    Nat → Nat → Nat
  | 0, position => position
  | k + 1, position =>
    if (position : Int) ≤ size ∧ cmp value (rd vs position) < 0 then
      containsKey_scan cmp value vs size k (position + 1)
    else position

/-- Result of `containsKey`: the returned flag and the out-parameters `*pos`
and `*pNode`. -/
structure Found where
  found : Bool
  pos : Nat
  pNode : Option Nat
  deriving DecidableEq, Repr

/-- Loop of `containsKey` over the children, `k` iterations left;
`rec` is the recursive call on a child:
`for (i; i <= M; i++) if (children[i] != NULL) { found = containsKey(..); if (found) break; }`. -/
def containsKey_children (rec : Nat → Nat → Option Nat → Option Found)
    (cs : List (Option Nat)) : Nat → Nat → Found → Option Found
  | 0, _, acc => some acc
  | k + 1, i, acc =>
    match rd cs i with
    | none => containsKey_children rec cs k (i + 1) acc
    | some c =>
      match rec c acc.pos acc.pNode with
      | none => none
      | some r => if r.found then some r else containsKey_children rec cs k (i + 1) r

/-- The function `containsKey(&value, &pos, &node, pNode, compareTo)`; `pos` and
`pNode` are the values of `*pos` and `*pNode` at the call. -/
def containsKey (cmp : Compare α) (M : Nat) (h : List (BTreeNode α)) (value : Option α) :
    Nat → Option Nat → Nat → Option Nat → Option Found
  | 0, _, _, _ => none
  | _ + 1, none, pos, pNode => some ⟨false, pos, pNode⟩
  | fuel + 1, some a, pos, pNode =>
    let node := deref h a
    let position := containsKey_scan cmp value node.values node.size node.size.toNat 1
    if (position : Int) ≤ node.size ∧ cmp value (rd node.values position) = 0 then
      some ⟨true, position, some a⟩
    else
      containsKey_children (fun c ps pn => containsKey cmp M h value fuel (some c) ps pn)
        node.children (M + 1) 0 ⟨false, pos, pNode⟩

/-- The function `btree_containsKey(tree, &pos, &value)`: the returned flag and `*pos`. -/
def btree_containsKey (cmp : Compare α) (M : Nat) (fuel : Nat) (t : BTree α) (pos : Nat)
    (value : α) : Option (Bool × Nat) :=
  match containsKey cmp M t.heap (some value) fuel t.root pos none with
  | none => none
  | some r => some (r.found, r.pos)

/-- The function `height(node)`. -/
def height (h : List (BTreeNode α)) : Nat → Option Nat → Option Int
  | 0, _ => none
  | _ + 1, none => some 0
  | fuel + 1, some a =>
    let node := deref h a
    match height h fuel (rd node.children 0), height h fuel (rd node.children node.size.toNat) with
    | some leftHeight, some rightHeight =>
      some (1 + (if leftHeight > rightHeight then leftHeight else rightHeight))
    | _, _ => none

/-- The function `btree_height(tree)`. -/
def btree_height (fuel : Nat) (t : BTree α) : Option Int := height t.heap fuel t.root

/-- The function `diameter_helper(node, &diameter)`: the returned height and `*diameter`. -/
def diameter_helper (h : List (BTreeNode α)) : Nat → Option Nat → Int → Option (Int × Int)
  | 0, _, _ => none
  | _ + 1, none, diameter => some (0, diameter)
  | fuel + 1, some a, diameter =>
    let node := deref h a
    match height h fuel (rd node.children 0), height h fuel (rd node.children node.size.toNat) with
    | some leftHeight, some rightHeight =>
      match diameter_helper h fuel (rd node.children 0) diameter with
      | none => none
      | some l =>
        match diameter_helper h fuel (rd node.children node.size.toNat) l.2 with
        | none => none
        | some r =>
          let d := if r.2 > leftHeight + rightHeight + 1 then r.2 else leftHeight + rightHeight + 1
          some (1 + (if leftHeight > rightHeight then leftHeight else rightHeight), d)
    | _, _ => none

/-- The function `btree_diameter(tree)`. -/
def btree_diameter (fuel : Nat) (t : BTree α) : Option Int :=
  match t.root with
  | none => some 0
  | some a =>
    match diameter_helper t.heap fuel (some a) 0 with
    | none => none
    | some r => some r.2

end Search

section Deletion

variable {α : Type}

/-- Update of the record behind a node pointer. -/
def modify (t : BTree α) (p : Nat) (f : BTreeNode α → BTreeNode α) : BTree α :=
  { t with heap := store t.heap p (f (deref t.heap p)) }

/-- The assignment `p->values[i] = v`. -/
def setValue (t : BTree α) (p i : Nat) (v : Option α) : BTree α :=
  modify t p (fun n => { n with values := wr n.values i v })

/-- The assignment `p->children[i] = c`. -/
def setChild (t : BTree α) (p i : Nat) (c : Option Nat) : BTree α :=
  modify t p (fun n => { n with children := wr n.children i c })

/-- The assignment `p->size = s`. -/
def setSize (t : BTree α) (p : Nat) (s : Int) : BTree α :=
  modify t p (fun n => { n with size := s })

/-- The assignment `p->isLeaf = b`. -/
def setLeaf (t : BTree α) (p : Nat) (b : Bool) : BTree α :=
  modify t p (fun n => { n with isLeaf := b })

/-- The call `reorderValues(p->values, 1)`. -/
def reorderKeys (M : Nat) (t : BTree α) (p : Nat) : BTree α :=
  modify t p (fun n => { n with values := reorderValues M n.values 1 })

/-- The call `reorderValues((void**) p->children, 0)`. -/
def reorderChildren (M : Nat) (t : BTree α) (p : Nat) : BTree α :=
  modify t p (fun n => { n with children := reorderValues M n.children 0 })

/-- The call `tree->destroy(p)` on a node pointer. -/
def destroyNode (t : BTree α) (p : Nat) : BTree α :=
  { t with destroyed := t.destroyed ++ [DestroyArg.node p] }

/-- Loop of `find_index`, from `index`:
`while (index > 0 && child != node->children[index]) index--;`. -/
def find_index_loop (cs : List (Option Nat)) (child : Option Nat) : Nat → Nat
  | 0 => 0
  | i + 1 => if child ≠ rd cs (i + 1) then find_index_loop cs child i else i + 1

/-- The function `find_index(tree, node, child)`. -/
def find_index (M : Nat) (t : BTree α) (node : Nat) (child : Option Nat) : Nat :=
  find_index_loop (deref t.heap node).children child M

/-- Loop of `find_parent_recursive` over the children of `root`, `k`
iterations left; `rec` is the recursive call on a child. -/
def find_parent_children (rec : Nat → Option (Option Nat)) (root : Nat) (child : Nat)
    (cs : List (Option Nat)) : Nat → Nat → Option (Option Nat)
  | 0, _ => some none
  | k + 1, i =>
    if rd cs i = some child then some (some root)
    else
      match rd cs i with
      | none => find_parent_children rec root child cs k (i + 1)
      | some c =>
        match rec c with
        | none => none
        | some r => if r.isSome then some r
                    else find_parent_children rec root child cs k (i + 1)

/-- The function `find_parent_recursive(tree, root, child, parent)`. -/
def find_parent_recursive (M : Nat) (h : List (BTreeNode α)) :
    Nat → Option Nat → Option Nat → Option (Option Nat)
  | 0, _, _ => none
  | _ + 1, none, _ => some none
  | _ + 1, some _, none => some none
  | fuel + 1, some root, some child =>
    if root = child then some (some root)
    else
      find_parent_children (fun c => find_parent_recursive M h fuel (some c) (some child))
        root child (deref h root).children (M + 1) 0

/-- The function `find_parent(tree, root, child)`. -/
def find_parent (M : Nat) (fuel : Nat) (t : BTree α) (root child : Option Nat) :
    Option (Option Nat) :=
  find_parent_recursive M t.heap fuel root child

/-- Loop of `find_successor`:
`while (!current->isLeaf) { current = current->children[*position]; *position = *position + 1; }`;
returns `current` and `*position`. -/
def find_successor_loop (h : List (BTreeNode α)) : Nat → Option Nat → Nat →
    Option (Option Nat × Nat)
  | 0, _, _ => none
  | _ + 1, none, _ => none
  | fuel + 1, some current, position =>
    if (deref h current).isLeaf then some (some current, position)
    else find_successor_loop h fuel (rd (deref h current).children position) (position + 1)

/-- The function `find_successor(node, &position)`: the returned node and `*position`. -/
def find_successor (fuel : Nat) (t : BTree α) (node : Nat) (position : Nat) :
    Option (Option Nat × Nat) :=
  match rd (deref t.heap node).children position with
  | none => some (none, position)
  | some current => find_successor_loop t.heap fuel (some current) position

/-- First loop of `merge_nodes`, `k` iterations left, `i` from 1 to `M`: the key
`parent->values[1]` goes to the first empty key slot of `node`; returns `added`. -/
def merge_nodes_parent_key (node parent : Nat) : Nat → Nat → BTree α → BTree α × Bool
  | 0, _, t => (t, false)
  | k + 1, i, t =>
    if (rd (deref t.heap node).values i).isNone then
      let t1 := setValue t node i (rd (deref t.heap parent).values 1)
      let t2 := setValue t1 parent 1 none
      let t3 := setSize t2 parent ((deref t2.heap parent).size - 1)
      let t4 := setSize t3 node ((deref t3.heap node).size + 1)
      (t4, true)
    else merge_nodes_parent_key node parent k (i + 1) t

/-- Inner loop of the second loop of `merge_nodes`, `k` iterations left,
`for (j; j <= sibling->size; j++)`: the first key of `sibling` goes to slot
`i` of `node` when that slot is empty. -/
def merge_nodes_key_inner (node sibling i : Nat) : Nat → Nat → BTree α → BTree α
  | 0, _, t => t
  | k + 1, j, t =>
    if (j : Int) ≤ (deref t.heap sibling).size then
      if (rd (deref t.heap node).values i).isNone ∧ (rd (deref t.heap sibling).values j).isSome then
        let t1 := setValue t node i (rd (deref t.heap sibling).values j)
        let t2 := setValue t1 sibling j none
        let t3 := setSize t2 sibling ((deref t2.heap sibling).size - 1)
        setSize t3 node ((deref t3.heap node).size + 1)
      else merge_nodes_key_inner node sibling i k (j + 1) t
    else t

/-- Second loop of `merge_nodes`, `k` iterations left, `i` from 1 to `M`. -/
def merge_nodes_keys (node sibling : Nat) : Nat → Nat → BTree α → BTree α
  | 0, _, t => t
  | k + 1, i, t =>
    merge_nodes_keys node sibling k (i + 1)
      (merge_nodes_key_inner node sibling i (deref t.heap sibling).size.toNat 1 t)

/-- Inner loop of the moves of children, `k` iterations left, `j` from 0 to
`M`: the first child of `src` goes to slot `i` of `dst` when that slot is
empty; returns whether a child moved. -/
def move_child_inner (dst src i : Nat) : Nat → Nat → BTree α → BTree α × Bool
  | 0, _, t => (t, false)
  | k + 1, j, t =>
    if (rd (deref t.heap dst).children i).isNone ∧ (rd (deref t.heap src).children j).isSome then
      let t1 := setChild t dst i (rd (deref t.heap src).children j)
      (setChild t1 src j none, true)
    else move_child_inner dst src i k (j + 1) t

/-- Third loop of `merge_nodes`, `k` iterations left, `i` from 0 to `M`. -/
def merge_nodes_children (M : Nat) (node sibling : Nat) : Nat → Nat → BTree α → BTree α
  | 0, _, t => t
  | k + 1, i, t =>
    merge_nodes_children M node sibling k (i + 1) (move_child_inner node sibling i (M + 1) 0 t).1

/-- Loop of `merge_nodes` that unlinks `sibling` from `parent`, `k` iterations left. -/
def unlink_first (parent : Nat) (sibling : Nat) : Nat → Nat → BTree α → BTree α
  | 0, _, t => t
  | k + 1, i, t =>
    if rd (deref t.heap parent).children i = some sibling then setChild t parent i none
    else unlink_first parent sibling k (i + 1) t

/-- The function `merge_nodes(node, sibling, parent, tree)`. -/
def merge_nodes (M : Nat) (t : BTree α) (node sibling parent : Nat) : BTree α × Bool :=
  let r := merge_nodes_parent_key node parent M 1 t
  if ¬ r.2 then (r.1, false)
  else
    let t1 := merge_nodes_keys node sibling M 1 r.1
    let t2 := if ¬ (deref t1.heap sibling).isLeaf then merge_nodes_children M node sibling (M + 1) 0 t1
              else t1
    let t3 := reorderKeys M t2 node
    let t4 := reorderKeys M t3 sibling
    let t5 := reorderKeys M t4 parent
    if (deref t5.heap sibling).size = 0 then
      let t6 := unlink_first parent sibling (M + 1) 0 t5
      ({ t6 with freed := t6.freed ++ [sibling], size := t6.size - 1 }, true)
    else (reorderChildren M t5 parent, false)

/-- The function `redistribute_keys_right(node, right_sibling, parent_index, tree)`. -/
def redistribute_keys_right (M : Nat) (t : BTree α) (node right_sibling : Nat)
    (parent_index : Nat) : Option (BTree α) :=
  match t.root with
  | none => none
  | some root =>
    let t1 := setValue t node ((deref t.heap node).size + 1).toNat
      (rd (deref t.heap root).values parent_index)
    let t2 := setSize t1 node ((deref t1.heap node).size + 1)
    let t3 := setValue t2 root parent_index
      (rd (deref t2.heap right_sibling).values (deref t2.heap right_sibling).size.toNat)
    let t4 := setValue t3 right_sibling (deref t3.heap right_sibling).size.toNat none
    let t5 := setSize t4 right_sibling ((deref t4.heap right_sibling).size - 1)
    let t6 := setChild t5 node (deref t5.heap node).size.toNat
      (rd (deref t5.heap right_sibling).children (deref t5.heap right_sibling).size.toNat)
    let t7 := setChild t6 right_sibling (deref t6.heap right_sibling).size.toNat none
    let t8 := reorderKeys M t7 right_sibling
    some (reorderChildren M t8 right_sibling)

/-- The function `redistribute_keys_left(node, left_sibling, parent_index, tree)`. -/
def redistribute_keys_left (M : Nat) (t : BTree α) (node left_sibling : Nat)
    (parent_index : Nat) : Option (BTree α) :=
  match t.root with
  | none => none
  | some root =>
    let t1 := setValue t node ((deref t.heap node).size + 1).toNat
      (rd (deref t.heap root).values parent_index)
    let t2 := if (rd (deref t1.heap root).values parent_index).isSome then
                setSize t1 node ((deref t1.heap node).size + 1)
              else t1
    let t3 := setValue t2 root parent_index
      (rd (deref t2.heap left_sibling).values (deref t2.heap left_sibling).size.toNat)
    let t4 := setValue t3 left_sibling (deref t3.heap left_sibling).size.toNat none
    let t5 := setSize t4 left_sibling ((deref t4.heap left_sibling).size - 1)
    let t6 := setChild t5 node (deref t5.heap node).size.toNat
      (rd (deref t5.heap left_sibling).children (deref t5.heap left_sibling).size.toNat)
    let t7 := setChild t6 left_sibling (deref t6.heap left_sibling).size.toNat none
    let t8 := reorderKeys M t7 left_sibling
    some (reorderChildren M t8 left_sibling)

/-- The function `node_remain(obj, &count)`. -/
def node_remain {β : Type} (M : Nat) (obj : List (Option β)) : Int := countFrom obj (M + 1) 0

/-- Outer loop of the moves of `redistribute_children`, `k` iterations left,
`i` from 0 to `M`; returns the tree and `remain`. -/
def redistribute_children_move (M : Nat) (parent child : Nat) : Nat → Nat → BTree α → Int →
    BTree α × Int
  | 0, _, t, remain => (t, remain)
  | k + 1, i, t, remain =>
    let r := move_child_inner child parent i (M + 1) 0 t
    redistribute_children_move M parent child k (i + 1) r.1 (if r.2 then remain - 1 else remain)

/-- The function `redistribute_children(parent, child, tree, childPtr)`;
`childPtr` is the value of `*childPtr`. -/
def redistribute_children (M : Nat) (fuel : Nat) : Nat → BTree α → Option Nat → Option Nat →
    Option Nat → Option (BTree α)
  | 0, _, _, _, _ => none
  | _ + 1, t, none, _, _ => some t
  | _ + 1, t, some _, none, _ => some t
  | g + 1, t, some parent, some child, childPtr =>
    let remain := node_remain M (deref t.heap parent).children
    if remain = 0 then some t
    else
      let t1 := if (deref t.heap child).isLeaf then setLeaf t child false else t
      let r := redistribute_children_move M parent child (M + 1) 0 t1 remain
      let t2 := r.1
      if r.2 > 0 then
        redistribute_children M fuel g t2 (some parent) (rd (deref t2.heap child).children 0) childPtr
      else
        match find_parent M fuel t2 t2.root (some parent) with
        | none => none
        | some grand_parent =>
          let t3 : Option (BTree α) :=
            if grand_parent = some parent then some { t2 with root := childPtr }
            else
              match grand_parent with
              | none => none
              | some gp =>
                let index := find_index M t2 gp (some parent)
                some (reorderChildren M (setChild t2 gp index none) gp)
          match t3 with
          | none => none
          | some t3 =>
            let t4 := destroyNode t3 parent
            let t5 : BTree α := { t4 with size := t4.size - 1 }
            let t6 := setLeaf t5 child true
            if anyFrom (deref t6.heap child).children (M + 1) 0 then some (setLeaf t6 child false)
            else some t6

/-- Sibling search of `node_balance`, `k` iterations left, `i` from 1 to `M`:
returns `position`, `left_sibling` and `right_sibling`. -/
def node_balance_siblings (node : Nat) (pr : BTreeNode α) : Nat → Nat →
    Int × Option Nat × Option Nat
  | 0, _ => (-1, none, none)
  | k + 1, i =>
    if rd pr.children i = some node then
      ((i : Int), (if i > 0 then rd pr.children (i - 1) else none),
        (if (i : Int) < pr.size then rd pr.children (i + 1) else none))
    else node_balance_siblings node pr k (i + 1)

/-- The assignment `p->size = count` of `node_balance`, `count` the number of
non-empty slots among `p->values[1..M]`. -/
def recount (M : Nat) (t : BTree α) (p : Nat) : BTree α :=
  setSize t p (countFrom (deref t.heap p).values M 1)

/-- Choice of `node_balance` between the two redistributions and the two merges. -/
def node_balance_choose (M mn : Nat) (t : BTree α) (node parent : Nat) (position : Int)
    (left_sibling right_sibling : Option Nat) : Option (BTree α) :=
  let viaRight (r : Nat) (otherwise : BTree α) : Option (BTree α) :=
    if (deref t.heap r).size > mn then
      match redistribute_keys_right M t node r position.toNat with
      | none => none
      | some t1 => some (recount M t1 r)
    else some otherwise
  match left_sibling with
  | some l =>
    if (deref t.heap l).size > mn then
      match redistribute_keys_left M t node l position.toNat with
      | none => none
      | some t1 => some (recount M t1 l)
    else
      match right_sibling with
      | some r => viaRight r (merge_nodes M t node l parent).1
      | none => some (merge_nodes M t node l parent).1
  | none =>
    match right_sibling with
    | some r => viaRight r (merge_nodes M t node r parent).1
    | none => some t

/-- The function `node_balance(node, parent, tree)`. -/
def node_balance (M mn : Nat) (fuel : Nat) (t : BTree α) (node parent : Option Nat) :
    Option (BTree α) :=
  match node, parent with
  | none, _ => some t
  | some _, none => some t
  | some node, some parent =>
    if (deref t.heap node).isLeaf then some t
    else
      let t1 := reorderKeys M t node
      let r : Option (BTree α × Option Nat) :=
        if (deref t1.heap node).size < mn then
          let s := node_balance_siblings node (deref t1.heap parent) M 1
          match node_balance_choose M mn t1 node parent s.1 s.2.1 s.2.2 with
          | none => none
          | some t2 =>
            if (deref t2.heap parent).size = 0 then
              let childIndex := find_index M t2 parent (some node)
              let t3 := reorderChildren M (setChild t2 parent childIndex none) parent
              match redistribute_children M fuel fuel t3 (some parent) (some node) (some node) with
              | none => none
              | some t4 => some (t4, none)
            else some (t2, some parent)
        else some (t1, some parent)
      match r with
      | none => none
      | some (t5, parent1) =>
        let t6 := recount M t5 node
        match parent1 with
        | none => some t6
        | some pr => some (recount M t6 pr)

/-- Loop of `remove_helper` that replaces an empty root, `k` iterations left:
`for (i; i < M; i++) if (node->children[i] != NULL) { tree->root = node->children[i]; break; }`. -/
def remove_helper_new_root (cs : List (Option Nat)) : Nat → Nat → BTree α → BTree α
  | 0, _, t => t
  | k + 1, i, t =>
    match rd cs i with
    | some c => { t with root := some c }
    | none => remove_helper_new_root cs k (i + 1) t

/-- Leaf branch of `remove_helper`: the key at `position` of the leaf `pNode`
is cleared; returns the tree and `pNode`. -/
def remove_helper_leaf (M : Nat) (fuel : Nat) (t : BTree α) (pNode position : Nat) :
    Option (BTree α × Option Nat) :=
  let t1 := setValue t pNode position none
  let t2 := setSize t1 pNode ((deref t1.heap pNode).size - 1)
  let t3 := reorderKeys M t2 pNode
  if (deref t3.heap pNode).size = 0 then
    match find_parent M fuel t3 t3.root (some pNode) with
    | none => none
    | some none => some (t3, some pNode)
    | some (some parent) =>
      let pos := find_index M t3 parent (some pNode)
      let t4 := destroyNode t3 pNode
      let t5 := reorderChildren M (setChild t4 parent pos none) parent
      some ({ t5 with size := t5.size - 1 }, none)
  else some (t3, some pNode)

/-- Internal branch of `remove_helper`: the key at `position` of `pNode` is
replaced by the first key of the node returned by `find_successor`. -/
def remove_helper_internal (M mn : Nat) (fuel : Nat) (t : BTree α) (pNode position : Nat) :
    Option (BTree α) :=
  match find_successor fuel t pNode 0 with
  | none => none
  | some (none, _) => some (setValue t pNode position none)
  | some (some successor, successorIndex) =>
    let t1 := setValue t pNode position (rd (deref t.heap successor).values 1)
    let t2 :=
      if (rd (deref t1.heap successor).values 1).isNone then
        reorderKeys M (setSize t1 pNode ((deref t1.heap pNode).size - 1)) pNode
      else
        let u := setValue t1 successor 1 none
        reorderKeys M (setSize u successor ((deref u.heap successor).size - 1)) successor
    if (deref t2.heap successor).size = 0 then
      let t3 := destroyNode t2 successor
      let t4 := reorderChildren M (setChild t3 pNode successorIndex none) pNode
      some { t4 with size := t4.size - 1 }
    else node_balance M mn fuel t2 (some successor) (some pNode)

/-- End of `remove_helper`: `node_balance` on `pNode` and its parent, then the
replacement of an empty root. -/
def remove_helper_finish (M mn : Nat) (fuel : Nat) (t : BTree α) (node : Nat)
    (pNode : Option Nat) : Option (BTree α) :=
  match find_parent M fuel t t.root pNode with
  | none => none
  | some parent =>
    match node_balance M mn fuel t pNode parent with
    | none => none
    | some t1 =>
      if pNode = t1.root then
        match pNode with
        | none => none
        | some pN =>
          if (deref t1.heap pN).size = 0 then
            let t2 := remove_helper_new_root (deref t1.heap node).children M 0 t1
            let t3 := destroyNode t2 pN
            some { t3 with size := t3.size - 1 }
          else some t1
      else some t1

/-- The function `remove_helper(tree, node, value)`; `junk` is the block
returned by its `malloc`. -/
def remove_helper (cmp : Compare α) (M mn : Nat) (junk : BTreeNode α) (fuel : Nat) :
    Nat → BTree α → Option Nat → Option α → Option (BTree α)
  | 0, _, _, _ => none
  | _ + 1, t, none, _ => some t
  | g + 1, t, some node, value =>
    let fresh := t.heap.length
    let t0 : BTree α := { t with heap := t.heap ++ [junk] }
    match containsKey cmp M t0.heap value fuel (some node) 1 (some fresh) with
    | none => none
    | some f =>
      match f.pNode with
      | none => none
      | some pN =>
        let r : Option (BTree α × Option Nat) :=
          if cmp (rd (deref t0.heap pN).values f.pos) value = 0 then
            if (deref t0.heap pN).isLeaf then remove_helper_leaf M fuel t0 pN f.pos
            else
              match remove_helper_internal M mn fuel t0 pN f.pos with
              | none => none
              | some t1 => some (t1, some pN)
          else
            match remove_helper cmp M mn junk fuel g t0 (rd (deref t0.heap pN).children f.pos)
                value with
            | none => none
            | some t1 => some (t1, some pN)
        match r with
        | none => none
        | some (t2, pNode) => remove_helper_finish M mn fuel t2 node pNode

/-- The function `btree_remove(tree, value)`: the tree after the call and the
returned flag; `value = none` is the call with `value == NULL`. -/
def btree_remove (cmp : Compare α) (M mn : Nat) (junk : BTreeNode α) (fuel : Nat) (t : BTree α)
    (value : Option α) : Option (BTree α × Bool) :=
  match t.root with
  | none => some (t, false)
  | some root =>
    let v := match value with
      | none => rd (deref t.heap root).values (deref t.heap root).size.toNat
      | some k => some k
    match remove_helper cmp M mn junk fuel fuel t (some root) v with
    | none => none
    | some t1 =>
      match t1.root with
      | none => some ({ t1 with size := 0 }, true)
      | some _ => some (t1, true)

/-- The function `btree_destroy(tree)`, its loop bounded by `loops` iterations:
`while (tree->size != 0) btree_remove(tree, NULL);` then `memset(tree, 0, ..)`. -/
def btree_destroy (cmp : Compare α) (M mn : Nat) (junk : BTreeNode α) (fuel : Nat) :
    Nat → BTree α → Option (BTree α)
  | 0, _ => none
  | loops + 1, t =>
    if t.size ≠ 0 then
      match btree_remove cmp M mn junk fuel t none with
      | none => none
      | some r => btree_destroy cmp M mn junk fuel loops r.1
    else some { t with root := none, size := 0 }

end Deletion

section Specification

variable {α : Type}

/-- A sequence of `btree_add` calls, left to right. -/
def btree_add_all (cmp : Compare α) (M mn : Nat) (junk : BTreeNode α) (fuel : Nat) :
    BTree α → List α → Option (BTree α)
  | t, [] => some t
  | t, k :: ks =>
    match btree_add cmp M mn junk fuel t k with
    | none => none
    | some t1 => btree_add_all cmp M mn junk fuel t1 ks

/-- Keys and subtrees of a node from slot `i` on, `k` slots left:
`values[i], children[i], values[i+1], children[i+1], ..`. -/
def inorder_slots (rec : Option Nat → List (Option α)) (n : BTreeNode α) :
    Nat → Nat → List (Option α)
  | 0, _ => []
  | k + 1, i => rd n.values i :: (rec (rd n.children i) ++ inorder_slots rec n k (i + 1))

/-- In-order traversal of the subtree behind a pointer: child 0, key 1,
child 1, .., key `size`, child `size`; the traversal stops below depth `fuel`. -/
def inorder (h : List (BTreeNode α)) : Nat → Option Nat → List (Option α)
  | 0, _ => []
  | _ + 1, none => []
  | fuel + 1, some a =>
    inorder h fuel (rd (deref h a).children 0) ++
      inorder_slots (inorder h fuel) (deref h a) (deref h a).size.toNat 1

/-- Nodes reachable from a pointer through the child slots `0..M`. -/
inductive Reach (M : Nat) (h : List (BTreeNode α)) : Option Nat → Nat → Prop where
  | root (a : Nat) : Reach M h (some a) a
  | child {p : Option Nat} {a b i : Nat} : Reach M h p a → i ≤ M →
      rd (deref h a).children i = some b → Reach M h p b

/-- Every path from the pointer through the child slots `0..M` ends at `NULL`
after at most `d` nodes. -/
def DepthLE (M : Nat) (h : List (BTreeNode α)) : Nat → Option Nat → Prop
  | 0, p => p = none
  | d + 1, p => ∀ a, p = some a → ∀ i, i ≤ M → DepthLE M h d (rd (deref h a).children i)

/-- A child array of `M + 1` slots: slots `0..s` satisfy `P`, the others are empty. -/
def Kids (P : Option Nat → Prop) (M s : Nat) (cs : List (Option Nat)) : Prop :=
  cs.length = M + 1 ∧ (∀ i, i ≤ s → P (rd cs i)) ∧ (∀ i, s < i → rd cs i = none)

/-- The subtree behind `p` is balanced of height `d`: its root holds `s` keys
with `b ≤ s`, `1 ≤ s ≤ M`, its children `0..s` are balanced of height `d - 1`
with at least `lo` keys each, its other child slots are empty. -/
def Bal (M lo : Nat) (h : List (BTreeNode α)) : Nat → Nat → Option Nat → Prop
  | _, 0, p => p = none
  | b, d + 1, p => ∃ (a s : Nat), p = some a ∧ a < h.length ∧ (deref h a).size = (s : Int) ∧
      b ≤ s ∧ 1 ≤ s ∧ s ≤ M ∧
      (deref h a).children.length = M + 1 ∧
      (∀ i, i ≤ s → Bal M lo h lo d (rd (deref h a).children i)) ∧
      (∀ i, s < i → rd (deref h a).children i = none)

/-- Every balanced subtree of `h` with root bound at most `lo` is still one in `h'`. -/
def Keeps (M lo : Nat) (h h' : List (BTreeNode α)) : Prop :=
  ∀ b d p, b ≤ lo → Bal M lo h b d p → Bal M lo h' b d p

/-- The records of `h` that are not the root of a balanced subtree of height
at most `d` are the same in `h'`. -/
def Frame (M lo d : Nat) (h h' : List (BTreeNode α)) : Prop :=
  ∀ x, x < h.length → (∀ e b', Bal M lo h b' e (some x) → d < e) → deref h' x = deref h x

/-- Node `a` lies at depth `n` below the pointer (the pointed node has depth 1). -/
inductive AtDepth (M : Nat) (h : List (BTreeNode α)) : Option Nat → Nat → Nat → Prop where
  | root (a : Nat) : AtDepth M h (some a) a 1
  | child {p : Option Nat} {a b i n : Nat} : AtDepth M h p a n → i ≤ M →
      rd (deref h a).children i = some b → AtDepth M h p b (n + 1)

/-- Occupancy of a tree: the root holds between 0 and `M` keys, every other
node reachable from the root between `lo` and `M`. -/
def Occupancy {α : Type} (M lo : Nat) (t : BTree α) : Prop :=
  ∀ a, Reach M t.heap t.root a →
    (some a = t.root → 0 ≤ (deref t.heap a).size ∧ (deref t.heap a).size ≤ (M : Int)) ∧
    (some a ≠ t.root → (lo : Int) ≤ (deref t.heap a).size ∧ (deref t.heap a).size ≤ (M : Int))

/-- Key `k` is held within `d` levels below the pointer: in a slot `1..size`
of a node reached through the child slots `0..size`. -/
def Has (h : List (BTreeNode α)) : Nat → Option Nat → α → Prop
  | 0, _, _ => False
  | d + 1, p, k => ∃ a, p = some a ∧
      ((∃ i : Nat, 1 ≤ i ∧ (i : Int) ≤ (deref h a).size ∧ rd (deref h a).values i = some k) ∨
       (∃ i : Nat, (i : Int) ≤ (deref h a).size ∧ Has h d (rd (deref h a).children i) k))

/-- A key array of `M + 1` slots holding `s` keys: slot 0 and the slots after
`s` are empty, the slots `1..s` are not. -/
def Packed (M s : Nat) (vs : List (Option α)) : Prop :=
  vs.length = M + 1 ∧ rd vs 0 = none ∧ (∀ i, 1 ≤ i → i ≤ s → (rd vs i).isSome = true) ∧
    (∀ i, s < i → rd vs i = none)

/-- Every record of the heap has a packed key array of `size` keys. -/
def Vals (M : Nat) (h : List (BTreeNode α)) : Prop :=
  ∀ x, x < h.length → ∃ s : Nat, (deref h x).size = (s : Int) ∧ Packed M s (deref h x).values

/-- The array `old` with `new` put in after slot `index`. -/
def ins {β : Type} (old : Nat → β) (index : Nat) (new : β) (i : Nat) : β :=
  if i = index + 1 then new else if index + 1 < i then old (i - 1) else old i

/-- Key `k` is handed upwards by a `node_set_value` call on a subtree of
height `d`: the call returned true and `k` is `*pValue` or lies below `*child`. -/
def Pend (r : SetResult α) (d : Nat) (k : α) : Prop :=
  r.ret = true ∧ (r.pValue = some k ∨ Has r.tree.heap d r.child k)

/-- Every key in a slot of a record of the heap satisfies `S`. -/
def KeysFrom (h : List (BTreeNode α)) (S : α → Prop) : Prop :=
  ∀ x i k, x < h.length → rd (deref h x).values i = some k → S k

/-- Node `x` lies within `d` levels below the pointer, reached through the
child slots `0..size`. -/
def In (h : List (BTreeNode α)) : Nat → Option Nat → Nat → Prop
  | 0, _, _ => False
  | d + 1, p, x => ∃ a, p = some a ∧
      (x = a ∨ ∃ i : Nat, (i : Int) ≤ (deref h a).size ∧ In h d (rd (deref h a).children i) x)

/-- Node `x` is handed upwards by a `node_set_value` call on a subtree of
height `d`: the call returned true and `x` lies below `*child`. -/
def PendIn (r : SetResult α) (d : Nat) (x : Nat) : Prop :=
  r.ret = true ∧ In r.tree.heap d r.child x

/-- A full internal node for `M = 3`: keys 1, 2, 3 and children 10, 11, 12, 13. -/
def fullNode : BTreeNode Int :=
  ⟨[none, some 1, some 2, some 3], [some 10, some 11, some 12, some 13], 3, false⟩

/-- The comparator of the integers, `NULL` below every key. -/
def intCompare : Compare Int
  | some a, some b => a - b
  | none, none => 0
  | none, some _ => -1
  | some _, none => 1

/-- A block of zeroed memory. -/
def zeroed : BTreeNode α := ⟨[], [], 0, false⟩

/-- The two paths that `height` follows from the pointer (child 0 and child
`size`) end at `NULL` after at most `d` nodes. -/
def SpineLE {α : Type} (h : List (BTreeNode α)) : Nat → Option Nat → Prop
  | 0, p => p = none
  | d + 1, p => ∀ a, p = some a → SpineLE h d (rd (deref h a).children 0) ∧
      SpineLE h d (rd (deref h a).children (deref h a).size.toNat)

/-- The tree that `btree_add` of 1, 2, 3, 4 builds for `M = 3`, `mn = 1`: the
root (node 2) holds 2 over the leaves 1 and 3, 4. -/
def threeNodes : BTree Int :=
  ⟨some 2, 3,
    [⟨[none, some 1, none, none], [none, none, none, none], 1, true⟩,
      ⟨[none, some 3, some 4, none], [none, none, none, none], 2, true⟩,
      ⟨[none, some 2, none, none], [some 0, some 1, none, none], 1, false⟩], [], []⟩

/-- The tree of Scenario E for `M = 3`: seven nodes of one key each, the root
(node 6) over two subtrees of height 2. -/
def sevenNodes : BTree Int :=
  ⟨some 6, 7,
    [⟨[none, some 1, none, none], [none, none, none, none], 1, true⟩,
      ⟨[none, some 3, none, none], [none, none, none, none], 1, true⟩,
      ⟨[none, some 5, none, none], [none, none, none, none], 1, true⟩,
      ⟨[none, some 7, none, none], [none, none, none, none], 1, true⟩,
      ⟨[none, some 2, none, none], [some 0, some 1, none, none], 1, false⟩,
      ⟨[none, some 6, none, none], [some 2, some 3, none, none], 1, false⟩,
      ⟨[none, some 4, none, none], [some 4, some 5, none, none], 1, false⟩], [], []⟩

/-- The keys of Scenario A, in insertion order. -/
def scenarioA : List Int := [10, 20, 5, 6, 12, 30, 7, 17]

/-- Height and root pointer after each prefix of a sequence of `btree_add` calls
(`none` where a call runs out of fuel). -/
def height_trace (cmp : Compare Int) (M mn : Nat) (fuel : Nat) (keys : List Int) :
    List (Option (Int × Option Nat)) :=
  (List.range (keys.length + 1)).map (fun n =>
    (btree_add_all cmp M mn zeroed fuel btree_create (keys.take n)).bind
      (fun t => (btree_height fuel t).map (fun x => (x, t.root))))

/-- Keys, size and children of the node at index `a`. -/
def node_view {α : Type} (t : BTree α) (a : Nat) : List (Option α) × Int × List (Option Nat) :=
  ((deref t.heap a).values, (deref t.heap a).size, (deref t.heap a).children)

/-- The tree holding the single key 10, as `btree_add` leaves it for `M = 3`. -/
def single10 : BTree Int :=
  ⟨some 0, 1, [⟨[none, some 10, none, none], [none, none, none, none], 1, false⟩], [], []⟩

end Specification

section SearchProofs

variable {α : Type}

theorem Reach.through {M : Nat} {h : List (BTreeNode α)} {a c x i : Nat} (hi : i ≤ M)
    (hc : rd (deref h a).children i = some c) (hx : Reach M h (some c) x) :
    Reach M h (some a) x := by
  generalize hp : some c = p at hx
  induction hx with
  | root b =>
    cases hp
    exact Reach.child (Reach.root a) hi hc
  | child _ hj hb ih => exact Reach.child (ih hp) hj hb

theorem containsKey_scan_ge (cmp : Compare α) (v : Option α) (vs : List (Option α)) (size : Int) :
    ∀ k position, position ≤ containsKey_scan cmp v vs size k position := by
  intro k
  induction k with
  | zero => intro position; simp [containsKey_scan]
  | succ k ih =>
    intro position
    simp only [containsKey_scan]
    split
    · exact Nat.le_trans (Nat.le_succ _) (ih _)
    · exact Nat.le_refl _

theorem containsKey_children_found (rec : Nat → Nat → Option Nat → Option Found)
    (cs : List (Option Nat)) :
    ∀ k i acc r, containsKey_children rec cs k i acc = some r → r.found = true →
      acc.found = false →
      ∃ j c ps pn, i ≤ j ∧ j < i + k ∧ rd cs j = some c ∧ rec c ps pn = some r := by
  intro k
  induction k with
  | zero =>
    intro i acc r h hr hacc
    simp only [containsKey_children, Option.some.injEq] at h
    subst h
    rw [hacc] at hr
    exact absurd hr (by decide)
  | succ k ih =>
    intro i acc r h hr hacc
    simp only [containsKey_children] at h
    cases hci : rd cs i with
    | none =>
      simp only [hci] at h
      obtain ⟨j, c, ps, pn, h1, h2, h3, h4⟩ := ih (i + 1) acc r h hr hacc
      exact ⟨j, c, ps, pn, by omega, by omega, h3, h4⟩
    | some c =>
      simp only [hci] at h
      cases hrec : rec c acc.pos acc.pNode with
      | none => simp only [hrec] at h; exact absurd h (by simp)
      | some r1 =>
        simp only [hrec] at h
        by_cases hf : r1.found = true
        · simp only [hf, if_true, Option.some.injEq] at h
          subst h
          exact ⟨i, c, acc.pos, acc.pNode, Nat.le_refl _, by omega, hci, hrec⟩
        · simp only [hf] at h
          have hf' : r1.found = false := by simpa using hf
          obtain ⟨j, c', ps, pn, h1, h2, h3, h4⟩ := ih (i + 1) r1 r h hr hf'
          exact ⟨j, c', ps, pn, by omega, by omega, h3, h4⟩

theorem containsKey_children_none (rec : Nat → Nat → Option Nat → Option Found)
    (cs : List (Option Nat)) :
    ∀ k i pos pN,
      (∀ j c, i ≤ j → j < i + k → rd cs j = some c →
        ∀ ps pn, rec c ps pn = some ⟨false, ps, pn⟩) →
      containsKey_children rec cs k i ⟨false, pos, pN⟩ = some ⟨false, pos, pN⟩ := by
  intro k
  induction k with
  | zero => intro i pos pN _; rfl
  | succ k ih =>
    intro i pos pN hrec
    simp only [containsKey_children]
    cases hci : rd cs i with
    | none =>
      simp only
      exact ih (i + 1) pos pN (fun j c h1 h2 h3 => hrec j c (by omega) (by omega) h3)
    | some c =>
      simp only [hrec i c (Nat.le_refl _) (by omega) hci pos pN]
      exact ih (i + 1) pos pN (fun j c h1 h2 h3 => hrec j c (by omega) (by omega) h3)

theorem containsKey_sound (cmp : Compare α) (M : Nat) (h : List (BTreeNode α)) (v : Option α) :
    ∀ fuel p pos pN r, containsKey cmp M h v fuel p pos pN = some r → r.found = true →
      ∃ a, Reach M h p a ∧ r.pNode = some a ∧ 1 ≤ r.pos ∧ (r.pos : Int) ≤ (deref h a).size ∧
        cmp v (rd (deref h a).values r.pos) = 0 := by
  intro fuel
  induction fuel with
  | zero => intro p pos pN r h; simp [containsKey] at h
  | succ fuel ih =>
    intro p pos pN r h hr
    cases p with
    | none =>
      simp only [containsKey, Option.some.injEq] at h
      subst h
      simp at hr
    | some a =>
      simp only [containsKey] at h
      split at h
      · rename_i hc
        simp only [Option.some.injEq] at h
        subst h
        exact ⟨a, Reach.root a, rfl, containsKey_scan_ge _ _ _ _ _ _, hc.1, hc.2⟩
      · obtain ⟨j, c, ps, pn, _, hj, hcj, hrec⟩ :=
          containsKey_children_found _ _ _ _ _ _ h hr rfl
        obtain ⟨x, hx, h1, h2, h3, h4⟩ := ih (some c) ps pn r hrec hr
        exact ⟨x, Reach.through (by omega) hcj hx, h1, h2, h3, h4⟩

theorem containsKey_absent (cmp : Compare α) (M : Nat) (h : List (BTreeNode α)) (v : Option α) :
    ∀ d fuel p pos pN, DepthLE M h d p → d < fuel →
      (∀ a (q : Nat), Reach M h p a → 1 ≤ q → (q : Int) ≤ (deref h a).size →
        cmp v (rd (deref h a).values q) ≠ 0) →
      containsKey cmp M h v fuel p pos pN = some ⟨false, pos, pN⟩ := by
  intro d
  induction d with
  | zero =>
    intro fuel p pos pN hd hf _
    simp only [DepthLE] at hd
    subst hd
    obtain ⟨f, rfl⟩ : ∃ f, fuel = f + 1 := ⟨fuel - 1, by omega⟩
    rfl
  | succ d ih =>
    intro fuel p pos pN hd hf habs
    obtain ⟨f, rfl⟩ : ∃ f, fuel = f + 1 := ⟨fuel - 1, by omega⟩
    cases p with
    | none => rfl
    | some a =>
      simp only [containsKey]
      rw [if_neg]
      · apply containsKey_children_none
        intro j c _ hj hcj ps pn
        apply ih f (some c) ps pn
        · have := hd a rfl j (by omega)
          rwa [hcj] at this
        · omega
        · intro x q hx
          exact habs x q (Reach.through (by omega) hcj hx)
      · intro hc
        exact habs a _ (Reach.root a) (containsKey_scan_ge _ _ _ _ _ _) hc.1 hc.2

theorem btree_add_single10 (mn : Nat) (junk : BTreeNode Int) :
    btree_add intCompare 3 mn junk 1 btree_create 10 = some single10 := rfl

theorem btree_add_all_threeNodes :
    btree_add_all intCompare 3 1 zeroed 3 btree_create [1, 2, 3, 4] = some threeNodes := rfl

end SearchProofs

section ArrayLemmas

variable {β : Type}

theorem length_wr (a : List (Option β)) (i : Nat) (v : Option β) : (wr a i v).length = a.length := by
  simp [wr]

theorem rd_wr (a : List (Option β)) (i j : Nat) (v : Option β) :
    rd (wr a i v) j = if i = j ∧ i < a.length then v else rd a j := by
  unfold rd wr
  by_cases hij : i = j
  · subst hij
    by_cases hl : i < a.length
    · simp [hl, List.getD_eq_getElem?_getD, List.getElem?_set]
    · have : a.length ≤ i := Nat.le_of_not_lt hl
      simp [hl, List.getD_eq_getElem?_getD, List.getElem?_set, List.getElem?_eq_none this]
  · simp [hij, List.getD_eq_getElem?_getD, List.getElem?_set]

theorem rd_of_length_le (a : List (Option β)) (i : Nat) (h : a.length ≤ i) : rd a i = none := by
  unfold rd
  simp [List.getD_eq_getElem?_getD, List.getElem?_eq_none h]

theorem rd_replicate (n i : Nat) : rd (List.replicate n (none : Option β)) i = none := by
  unfold rd
  by_cases h : i < n
  · simp [List.getD_eq_getElem?_getD, List.getElem?_replicate, h]
  · simp [List.getD_eq_getElem?_getD, List.getElem?_replicate, h]

theorem ext_rd (a b : List (Option β)) (hl : a.length = b.length)
    (h : ∀ i, i < a.length → rd a i = rd b i) : a = b := by
  apply List.ext_getElem hl
  intro i h1 h2
  have := h i h1
  unfold rd at this
  simpa [List.getD_eq_getElem?_getD, List.getElem?_eq_getElem h1, List.getElem?_eq_getElem h2]
    using this

theorem wr_rd_self (a : List (Option β)) (i : Nat) : wr a i (rd a i) = a := by
  apply ext_rd
  · exact length_wr _ _ _
  · intro j _
    rw [rd_wr]
    split
    · rename_i h; rw [h.1]
    · rfl

theorem wr_none_of_rd_none (a : List (Option β)) (i : Nat) (h : rd a i = none) :
    wr a i none = a := by
  rw [← h]; exact wr_rd_self a i

theorem reorderPack_some (a : List (Option β)) :
    ∀ k i, (∀ x, i ≤ x → x < i + k → (rd a x).isSome) → reorderPack k i i a = (a, i + k) := by
  intro k
  induction k with
  | zero => intro i _; rfl
  | succ k ih =>
    intro i h
    have hi := h i (Nat.le_refl _) (by omega)
    simp only [reorderPack, hi, if_true, wr_rd_self]
    rw [ih (i + 1) (fun x h1 h2 => h x (by omega) (by omega))]
    congr 1
    omega

theorem reorderPack_none (a : List (Option β)) :
    ∀ k i nn, (∀ x, i ≤ x → x < i + k → rd a x = none) → reorderPack k i nn a = (a, nn) := by
  intro k
  induction k with
  | zero => intro i nn _; rfl
  | succ k ih =>
    intro i nn h
    have hi := h i (Nat.le_refl _) (by omega)
    simp only [reorderPack, hi, Option.isSome_none, Bool.false_eq_true, if_false]
    exact ih (i + 1) nn (fun x h1 h2 => h x (by omega) (by omega))

theorem reorderPack_add :
    ∀ k1 k2 i nn (a : List (Option β)),
      reorderPack (k1 + k2) i nn a =
        reorderPack k2 (i + k1) (reorderPack k1 i nn a).2 (reorderPack k1 i nn a).1 := by
  intro k1
  induction k1 with
  | zero => intro k2 i nn a; simp [reorderPack]
  | succ k1 ih =>
    intro k2 i nn a
    have e : k1 + 1 + k2 = (k1 + k2) + 1 := by omega
    rw [e]
    simp only [reorderPack]
    split
    · rw [ih]; congr 1; omega
    · rw [ih]; congr 1; omega

theorem rd_reorderClear :
    ∀ k nn (a : List (Option β)) x,
      rd (reorderClear k nn a) x = if nn ≤ x ∧ x < nn + k then none else rd a x := by
  intro k
  induction k with
  | zero =>
    intro nn a x
    simp only [reorderClear]
    rw [if_neg (by omega)]
  | succ k ih =>
    intro nn a x
    simp only [reorderClear]
    rw [ih, rd_wr]
    split_ifs
    all_goals first
      | rfl
      | (exfalso; omega)
      | exact rd_of_length_le a x (by omega)

theorem length_reorderClear :
    ∀ k nn (a : List (Option β)), (reorderClear k nn a).length = a.length := by
  intro k
  induction k with
  | zero => intro nn a; rfl
  | succ k ih => intro nn a; simp only [reorderClear]; rw [ih, length_wr]

theorem length_reorderPack :
    ∀ k i nn (a : List (Option β)), (reorderPack k i nn a).1.length = a.length := by
  intro k
  induction k with
  | zero => intro i nn a; rfl
  | succ k ih =>
    intro i nn a
    simp only [reorderPack]
    split
    · rw [ih, length_wr]
    · rw [ih]

theorem length_reorderValues (M : Nat) (a : List (Option β)) (start : Nat) :
    (reorderValues M a start).length = a.length := by
  unfold reorderValues
  simp only [length_reorderClear, length_reorderPack]

/-- An array whose non-empty slots from `start` on are already packed is
left alone by `reorderValues`. -/
theorem reorderValues_packed (M : Nat) (a : List (Option β)) (start n : Nat)
    (hs : start ≤ n) (hn : n ≤ M + 1)
    (hsome : ∀ x, start ≤ x → x < n → (rd a x).isSome) (hnone : ∀ x, n ≤ x → rd a x = none) :
    reorderValues M a start = a := by
  unfold reorderValues
  have e : M + 1 - start = (n - start) + (M + 1 - n) := by omega
  have p1 : reorderPack (n - start) start start a = (a, n) := by
    rw [reorderPack_some a (n - start) start (fun x h1 h2 => hsome x h1 (by omega))]
    congr 1; omega
  have p2 : reorderPack (M + 1 - start) start start a = (a, n) := by
    rw [e, reorderPack_add, p1]
    exact reorderPack_none a _ _ _ (fun x h1 _ => hnone x (by omega))
  simp only [p2]
  apply ext_rd
  · exact length_reorderClear _ _ _
  · intro x _
    rw [rd_reorderClear]
    split
    · rename_i h; exact (hnone x h.1).symm
    · rfl

/-- An array packed from slot 0 up to one empty slot `g` followed by one last
entry: `reorderValues` moves that entry into the gap. -/
theorem rd_reorderValues_gap (M : Nat) (a : List (Option β)) (g : Nat) (hl : a.length = M + 1)
    (hg : g + 1 ≤ M) (hsome : ∀ x, x < g → (rd a x).isSome) (hgap : rd a g = none)
    (hlast : (rd a (g + 1)).isSome) (hnone : ∀ x, g + 1 < x → rd a x = none) (x : Nat) :
    rd (reorderValues M a 0) x =
      if x < g then rd a x else if x = g then rd a (g + 1) else none := by
  unfold reorderValues
  have e : M + 1 - 0 = g + (1 + (1 + (M - 1 - g))) := by omega
  have p1 : reorderPack g 0 0 a = (a, g) := by
    rw [reorderPack_some a g 0 (fun x _ h2 => hsome x (by omega))]
    congr 1; omega
  have p2 : reorderPack 1 (0 + g) g a = (a, g) :=
    reorderPack_none a 1 (0 + g) g (fun x h1 h2 => by
      have : x = g := by omega
      rw [this]; exact hgap)
  have p3 : reorderPack 1 (0 + g + 1) g a = (wr a g (rd a (g + 1)), g + 1) := by
    have : 0 + g + 1 = g + 1 := by omega
    rw [this]
    simp only [reorderPack, hlast, if_true]
  have p4 : reorderPack (M - 1 - g) (0 + g + 1 + 1) (g + 1) (wr a g (rd a (g + 1))) =
      (wr a g (rd a (g + 1)), g + 1) :=
    reorderPack_none _ _ _ _ (fun y h1 _ => by
      rw [rd_wr, if_neg (by omega)]
      exact hnone y (by omega))
  have p : reorderPack (M + 1 - 0) 0 0 a = (wr a g (rd a (g + 1)), g + 1) := by
    rw [e, reorderPack_add, p1, reorderPack_add, p2, reorderPack_add, p3, p4]
  simp only [p]
  rw [rd_reorderClear, rd_wr]
  by_cases h1 : x < g
  · rw [if_neg (by omega), if_neg (by omega), if_pos h1]
  · by_cases h2 : x = g
    · subst h2
      rw [if_neg (by omega), if_pos ⟨rfl, by omega⟩, if_neg h1, if_pos rfl]
    · rw [if_neg h1, if_neg h2]
      by_cases h3 : x < M + 1
      · rw [if_pos (by omega)]
      · rw [if_neg (by omega), if_neg (by omega)]
        exact rd_of_length_le a x (by omega)

end ArrayLemmas

section NodeLemmas

variable {α : Type}

theorem length_node_add_shift :
    ∀ k j (vs : List (Option α)) (cs : List (Option Nat)),
      (node_add_shift k j vs cs).2.length = cs.length := by
  intro k
  induction k with
  | zero => intro j vs cs; rfl
  | succ k ih => intro j vs cs; simp only [node_add_shift]; rw [ih, length_wr]

theorem rd_node_add_shift :
    ∀ k j (vs : List (Option α)) (cs : List (Option Nat)) i, k ≤ j → j + 1 < cs.length →
      rd (node_add_shift k j vs cs).2 i =
        if j - k + 1 < i ∧ i ≤ j + 1 then rd cs (i - 1) else rd cs i := by
  intro k
  induction k with
  | zero =>
    intro j vs cs i _ _
    simp only [node_add_shift]
    rw [if_neg (by omega)]
  | succ k ih =>
    intro j vs cs i hk hl
    simp only [node_add_shift]
    rw [ih (j - 1) _ _ i (by omega) (by rw [length_wr]; omega), rd_wr, rd_wr]
    split_ifs
    all_goals first
      | rfl
      | (exfalso; omega)
      | (congr 1; omega)

theorem rd_node_add_children (M index : Nat) (node : BTreeNode α) (child : Option Nat)
    (value : Option α) (s : Nat) (hs : node.size = (s : Int)) (hi : index ≤ s)
    (hl : s + 1 < node.children.length) (i : Nat) :
    rd (node_add M index node child value).children i =
      if i = index + 1 then child
      else if index + 1 < i ∧ i ≤ s + 1 then rd node.children (i - 1) else rd node.children i := by
  have hj : node.size.toNat = s := by rw [hs]; exact Int.toNat_natCast s
  simp only [node_add, hj]
  rw [rd_wr, length_node_add_shift, rd_node_add_shift _ _ _ _ _ (by omega) hl]
  split_ifs
  all_goals first
    | rfl
    | (exfalso; omega)
    | (congr 1; omega)

theorem length_node_add_children (M index : Nat) (node : BTreeNode α) (child : Option Nat)
    (value : Option α) :
    (node_add M index node child value).children.length = node.children.length := by
  simp only [node_add]
  rw [length_wr, length_node_add_shift]

theorem size_node_add (M index : Nat) (node : BTreeNode α) (child : Option Nat)
    (value : Option α) : (node_add M index node child value).size = node.size + 1 := rfl

theorem length_node_split_move (median : Nat) :
    ∀ k j (node newNode : BTreeNode α),
      (node_split_move median k j node newNode).1.children.length = node.children.length ∧
      (node_split_move median k j node newNode).2.children.length = newNode.children.length := by
  intro k
  induction k with
  | zero => intro j node newNode; exact ⟨rfl, rfl⟩
  | succ k ih =>
    intro j node newNode
    simp only [node_split_move]
    have := ih (j + 1)
      { node with values := wr node.values j none, children := wr node.children j none,
                  size := node.size - 1 }
      { newNode with values := wr newNode.values (j - median) (rd node.values j),
                     children := wr newNode.children (j - median) (rd node.children j) }
    simp only [length_wr] at this
    exact this

theorem rd_node_split_move_left (median : Nat) :
    ∀ k j (node newNode : BTreeNode α) i,
      rd (node_split_move median k j node newNode).1.children i =
        if j ≤ i ∧ i < j + k then none else rd node.children i := by
  intro k
  induction k with
  | zero =>
    intro j node newNode i
    simp only [node_split_move]
    rw [if_neg (by omega)]
  | succ k ih =>
    intro j node newNode i
    simp only [node_split_move]
    rw [ih, rd_wr]
    split_ifs
    all_goals first
      | rfl
      | (exfalso; omega)
      | exact rd_of_length_le _ i (by omega)
      | exact (rd_of_length_le _ i (by omega)).symm

theorem rd_node_split_move_right (median : Nat) :
    ∀ k j (node newNode : BTreeNode α) x, median ≤ j →
      j - median + k ≤ newNode.children.length →
      rd (node_split_move median k j node newNode).2.children x =
        if j - median ≤ x ∧ x < j - median + k then rd node.children (x + median)
        else rd newNode.children x := by
  intro k
  induction k with
  | zero =>
    intro j node newNode x _ _
    simp only [node_split_move]
    rw [if_neg (by omega)]
  | succ k ih =>
    intro j node newNode x hj hl
    simp only [node_split_move]
    rw [ih (j + 1) _ _ x (by omega) (by simp only [length_wr]; omega), rd_wr, rd_wr]
    split_ifs
    all_goals first
      | rfl
      | (exfalso; omega)
      | (congr 1; omega)

end NodeLemmas


section SplitLemmas

variable {α : Type}

theorem node_add_kids (P : Option Nat → Prop) (M index s : Nat) (node : BTreeNode α)
    (child : Option Nat) (value : Option α) (hk : Kids P M s node.children)
    (hs : node.size = (s : Int)) (hsM : s < M) (hi : index ≤ s) (hc : P child) :
    Kids P M (s + 1) (node_add M index node child value).children := by
  obtain ⟨hl, hp, hn⟩ := hk
  refine ⟨by rw [length_node_add_children, hl], ?_, ?_⟩
  · intro i hi'
    rw [rd_node_add_children M index node child value s hs hi (by omega)]
    split_ifs with c1 c2
    · exact hc
    · exact hp _ (by omega)
    · exact hp _ (by omega)
  · intro i hi'
    rw [rd_node_add_children M index node child value s hs hi (by omega)]
    rw [if_neg (by omega), if_neg (by omega)]
    exact hn i (by omega)

theorem node_split_tail_kids (P : Option Nat → Prop)
    (hP : (∀ q, P q → q = none) ∨ (∀ q, P q → q.isSome = true)) (M mn : Nat)
    (h2 : mn < M) (cs3 cs2 : List (Option Nat))
    (k3 : Kids P M (mn + 1) cs3) (l2 : cs2.length = M + 1)
    (p2 : ∀ i, 1 ≤ i → i ≤ M - mn → P (rd cs2 i)) (n2 : ∀ i, M - mn < i → rd cs2 i = none) :
    Kids P M mn (reorderValues M (wr cs3 mn none) 0) ∧
      Kids P M (M - mn) (wr cs2 0 (rd cs3 mn)) := by
  obtain ⟨hl, hp, hn⟩ := k3
  constructor
  · rcases hP with hP | hP
    · have hall : ∀ i, rd cs3 i = none := by
        intro i
        by_cases hi : i ≤ mn + 1
        · exact hP _ (hp i hi)
        · exact hn i (by omega)
      rw [wr_none_of_rd_none _ _ (hall mn),
        reorderValues_packed M cs3 0 0 (Nat.le_refl _) (by omega) (fun x _ h => by omega)
          (fun x _ => hall x)]
      exact ⟨hl, fun i hi => hp i (by omega), fun i _ => hall i⟩
    · have hb : (wr cs3 mn none).length = M + 1 := by rw [length_wr, hl]
      have hgap := rd_reorderValues_gap M (wr cs3 mn none) mn hb (by omega)
        (fun x hx => by rw [rd_wr, if_neg (by omega)]; exact hP _ (hp x (by omega)))
        (by rw [rd_wr, if_pos ⟨rfl, by omega⟩])
        (by rw [rd_wr, if_neg (by omega)]; exact hP _ (hp (mn + 1) (Nat.le_refl _)))
        (fun x hx => by rw [rd_wr, if_neg (by omega)]; exact hn x hx)
      refine ⟨by rw [length_reorderValues, hb], ?_, ?_⟩
      · intro i hi
        rw [hgap i]
        split_ifs with c1 c2
        · rw [rd_wr, if_neg (by omega)]; exact hp i (by omega)
        · rw [rd_wr, if_neg (by omega)]; exact hp (mn + 1) (Nat.le_refl _)
        · exact absurd hi (by omega)
      · intro i hi
        rw [hgap i, if_neg (by omega), if_neg (by omega)]
  · refine ⟨by rw [length_wr, l2], ?_, ?_⟩
    · intro i hi
      rw [rd_wr]
      split_ifs with c1
      · exact hp mn (by omega)
      · exact p2 i (by omega) hi
    · intro i hi
      rw [rd_wr, if_neg (by omega)]
      exact n2 i hi

theorem node_split_kids (P : Option Nat → Prop)
    (hP : (∀ q, P q → q = none) ∨ (∀ q, P q → q.isSome = true)) (M mn : Nat)
    (h1 : 1 ≤ mn) (h2 : mn < M) (junk node : BTreeNode α) (index : Nat) (child : Option Nat)
    (value : Option α) (hk : Kids P M M node.children) (hi : index ≤ M) (hc : P child) :
    Kids P M mn (node_split M mn junk index node child value).1.children ∧
    (node_split M mn junk index node child value).1.size = (mn : Int) ∧
    Kids P M (M - mn) (node_split M mn junk index node child value).2.1.children ∧
    (node_split M mn junk index node child value).2.1.size = ((M - mn : Nat) : Int) := by
  obtain ⟨hl, hp, hn⟩ := hk
  have hpacked : ∀ m, m ≤ M → ∀ (a : List (Option Nat)), a.length = M + 1 →
      (∀ i, rd a i = if m + 1 ≤ i ∧ i < m + 1 + (M - m) then none else rd node.children i) →
      reorderValues M a 0 = a ∧ Kids P M m a := by
    intro m hm a hla ha
    have hk : Kids P M m a := ⟨hla, fun i hi => by rw [ha i, if_neg (by omega)]; exact hp i (by omega),
      fun i hi => by
        rw [ha i]
        split_ifs
        · rfl
        · exact rd_of_length_le _ _ (by omega)⟩
    refine ⟨?_, hk⟩
    rcases hP with hP | hP
    · exact reorderValues_packed M a 0 0 (Nat.le_refl _) (by omega) (fun x _ h => by omega)
        (fun x _ => by
          by_cases hx : x ≤ m
          · exact hP _ (hk.2.1 x hx)
          · exact hk.2.2 x (by omega))
    · exact reorderValues_packed M a 0 (m + 1) (by omega) (by omega)
        (fun x _ h => hP _ (hk.2.1 x (by omega))) (fun x h => hk.2.2 x (by omega))
  have hnew0 : ∀ x, rd (List.replicate (M + 1) (none : Option Nat)) x = none := rd_replicate _
  by_cases hcase : index ≤ mn
  · have hm : (if index > mn then mn + 1 else mn) = mn := by rw [if_neg (by omega)]
    simp only [node_split, hm, if_pos hcase]
    have hmove := length_node_split_move (α := α) mn (M - mn) (mn + 1) node
      { junk with values := List.replicate (M + 1) none, children := List.replicate (M + 1) none }
    have hright := rd_node_split_move_right (α := α) mn (M - mn) (mn + 1) node
      { junk with values := List.replicate (M + 1) none, children := List.replicate (M + 1) none }
    obtain ⟨hre, hk1⟩ := hpacked mn (by omega) _ (by rw [hmove.1, hl])
      (fun i => rd_node_split_move_left mn (M - mn) (mn + 1) node _ i)
    rw [hre]
    simp only [size_node_add, Int.add_sub_cancel, Int.toNat_natCast, Int.toNat_ofNat]
    simp only [List.length_replicate] at hmove hright
    generalize node_split_move mn (M - mn) (mn + 1) node
      { junk with values := List.replicate (M + 1) none, children := List.replicate (M + 1) none }
      = mv at hmove hright hk1 ⊢
    have k3 := node_add_kids P M index mn
      { values := reorderValues M mv.1.values 1, children := mv.1.children, size := (mn : Int),
        isLeaf := mv.1.isLeaf } child value hk1 rfl h2 hcase hc
    obtain ⟨t1, t2⟩ := node_split_tail_kids P hP M mn h2 _ mv.2.children k3 hmove.2
      (fun i hi1 hi2 => by
        rw [hright i (by omega) (by omega), if_pos (by omega)]
        exact hp _ (by omega))
      (fun i hi => by
        rw [hright i (by omega) (by omega), if_neg (by omega)]
        exact hnew0 i)
    exact ⟨t1, trivial, t2, by omega⟩
  · have hm : (if index > mn then mn + 1 else mn) = mn + 1 := by rw [if_pos (by omega)]
    simp only [node_split, hm, if_neg hcase]
    have hmove := length_node_split_move (α := α) (mn + 1) (M - (mn + 1)) (mn + 1 + 1) node
      { junk with values := List.replicate (M + 1) none, children := List.replicate (M + 1) none }
    have hright := rd_node_split_move_right (α := α) (mn + 1) (M - (mn + 1)) (mn + 1 + 1) node
      { junk with values := List.replicate (M + 1) none, children := List.replicate (M + 1) none }
    obtain ⟨hre, hk1⟩ := hpacked (mn + 1) (by omega) _ (by rw [hmove.1, hl])
      (fun i => rd_node_split_move_left (mn + 1) (M - (mn + 1)) (mn + 1 + 1) node _ i)
    rw [hre]
    simp only [List.length_replicate] at hmove hright
    generalize node_split_move (mn + 1) (M - (mn + 1)) (mn + 1 + 1) node
      { junk with values := List.replicate (M + 1) none, children := List.replicate (M + 1) none }
      = mv at hmove hright hk1 ⊢
    have hs1 : ((M : Int) - ((mn + 1 : Nat) : Int)) = ((M - mn - 1 : Nat) : Int) := by omega
    have hadd := rd_node_add_children M (index - (mn + 1))
      { values := mv.2.values, children := mv.2.children,
        size := (M : Int) - ((mn + 1 : Nat) : Int), isLeaf := mv.2.isLeaf } child value
      (M - mn - 1) hs1 (by omega) (by rw [hmove.2]; omega)
    have hsz3 : (((mn + 1 : Nat) : Int) - 1).toNat = mn := by omega
    simp only [size_node_add, hsz3]
    obtain ⟨t1, t2⟩ := node_split_tail_kids P hP M mn h2 mv.1.children
      (node_add M (index - (mn + 1))
        { values := mv.2.values, children := mv.2.children,
          size := (M : Int) - ((mn + 1 : Nat) : Int), isLeaf := mv.2.isLeaf } child value).children
      hk1 (by rw [length_node_add_children]; exact hmove.2)
      (fun i hi1 hi2 => by
        rw [hadd i]
        split_ifs with c1 c2
        · exact hc
        · rw [hright _ (by omega) (by omega), if_pos (by omega)]
          exact hp _ (by omega)
        · rw [hright _ (by omega) (by omega), if_pos (by omega)]
          exact hp _ (by omega))
      (fun i hi => by
        rw [hadd i, if_neg (by omega), if_neg (by omega),
          hright _ (by omega) (by omega), if_neg (by omega)]
        exact hnew0 i)
    exact ⟨t1, by omega, t2, by omega⟩

end SplitLemmas


section Balance

variable {α : Type}

theorem Bal.zero_iff (M lo : Nat) (h : List (BTreeNode α)) (b : Nat) (p : Option Nat) :
    Bal M lo h b 0 p ↔ p = none := by simp [Bal]

theorem Bal.isSome {M lo : Nat} {h : List (BTreeNode α)} {b d : Nat} {p : Option Nat}
    (hb : Bal M lo h b (d + 1) p) : p.isSome = true := by
  obtain ⟨a, s, rfl, _⟩ := hb
  rfl

theorem Bal.weaken {M lo : Nat} {h : List (BTreeNode α)} {b b' d : Nat} {p : Option Nat}
    (hbb : b' ≤ b) (hb : Bal M lo h b d p) : Bal M lo h b' d p := by
  cases d with
  | zero => exact hb
  | succ d =>
    obtain ⟨a, s, h1, h2, h3, h4, h5⟩ := hb
    exact ⟨a, s, h1, h2, h3, by omega, h5⟩

theorem Bal.depth_unique {M lo : Nat} {h : List (BTreeNode α)} :
    ∀ {d d' b b' : Nat} {p : Option Nat}, Bal M lo h b d p → Bal M lo h b' d' p → d = d' := by
  intro d
  induction d with
  | zero =>
    intro d' b b' p h1 h2
    cases d' with
    | zero => rfl
    | succ d' =>
      have := h2.isSome
      rw [(Bal.zero_iff ..).1 h1] at this
      simp at this
  | succ d ih =>
    intro d' b b' p h1 h2
    cases d' with
    | zero =>
      have := h1.isSome
      rw [(Bal.zero_iff ..).1 h2] at this
      simp at this
    | succ d' =>
      obtain ⟨a, s, rfl, _, _, _, _, _, _, hk, _⟩ := h1
      obtain ⟨a', s', ha, _, _, _, _, _, _, hk', _⟩ := h2
      cases ha
      have := ih (hk 0 (by omega)) (hk' 0 (by omega))
      omega

/-- A heap that agrees with `h` on the children and sizes of the nodes of
height at most `d` keeps the balanced subtrees of height at most `d`. -/
theorem Bal.congr {M lo : Nat} {h h' : List (BTreeNode α)} (hlen : h.length ≤ h'.length) :
    ∀ {d b : Nat} {p : Option Nat},
      (∀ x e b', x < h.length → e ≤ d → Bal M lo h b' e (some x) →
        (deref h' x).children = (deref h x).children ∧ (deref h' x).size = (deref h x).size) →
      Bal M lo h b d p → Bal M lo h' b d p := by
  intro d
  induction d with
  | zero => intro b p _ hb; exact hb
  | succ d ih =>
    intro b p hag hb
    have hx := hb
    obtain ⟨a, s, rfl, h1, h2, h3, h4, h5, h6, h7, h8⟩ := hb
    obtain ⟨e1, e2⟩ := hag a (d + 1) b h1 (Nat.le_refl _) hx
    refine ⟨a, s, rfl, by omega, by rw [e2]; exact h2, h3, h4, h5, by rw [e1]; exact h6, ?_, ?_⟩
    · intro i hi
      rw [e1]
      exact ih (fun x e b' hx he hb' => hag x e b' hx (by omega) hb') (h7 i hi)
    · intro i hi
      rw [e1]
      exact h8 i hi

theorem deref_append_left (h l : List (BTreeNode α)) (x : Nat) (hx : x < h.length) :
    deref (h ++ l) x = deref h x := by
  unfold deref
  simp [List.getD_eq_getElem?_getD, List.getElem?_append_left hx]

theorem deref_append_length (h : List (BTreeNode α)) (n : BTreeNode α) :
    deref (h ++ [n]) h.length = n := by
  unfold deref
  simp [List.getD_eq_getElem?_getD]

theorem deref_store (h : List (BTreeNode α)) (a x : Nat) (n : BTreeNode α) :
    deref (store h a n) x = if a = x ∧ a < h.length then n else deref h x := by
  unfold deref store
  by_cases hax : a = x
  · subst hax
    by_cases hl : a < h.length
    · simp [hl, List.getD_eq_getElem?_getD, List.getElem?_set]
    · have : h.length ≤ a := Nat.le_of_not_lt hl
      simp [hl, List.getD_eq_getElem?_getD, List.getElem?_set, List.getElem?_eq_none this]
  · simp [hax, List.getD_eq_getElem?_getD, List.getElem?_set]

theorem length_store (h : List (BTreeNode α)) (a : Nat) (n : BTreeNode α) :
    (store h a n).length = h.length := by simp [store]

theorem deref_update_ne (h l : List (BTreeNode α)) (a x : Nat) (n : BTreeNode α)
    (hx : x < h.length) (hne : x ≠ a) : deref (store h a n ++ l) x = deref h x := by
  rw [deref_append_left _ _ _ (by rw [length_store]; exact hx), deref_store,
    if_neg (fun hc => hne hc.1.symm)]

theorem deref_update_eq (h l : List (BTreeNode α)) (a : Nat) (n : BTreeNode α)
    (ha : a < h.length) : deref (store h a n ++ l) a = n := by
  rw [deref_append_left _ _ _ (by rw [length_store]; exact ha), deref_store, if_pos ⟨rfl, ha⟩]

theorem Bal.below_update {M lo : Nat} {h : List (BTreeNode α)} (l : List (BTreeNode α))
    {a da b0 : Nat} (n : BTreeNode α) (ha : Bal M lo h b0 da (some a)) {d b : Nat}
    {p : Option Nat} (hd : d < da) (hb : Bal M lo h b d p) :
    Bal M lo (store h a n ++ l) b d p := by
  refine Bal.congr (by simp [length_store]) ?_ hb
  intro x e b' hx he hxb
  have hne : x ≠ a := by
    intro hxa
    subst hxa
    have := Bal.depth_unique hxb ha
    omega
  rw [deref_update_ne h l a x n hx hne]
  exact ⟨rfl, rfl⟩

theorem Keeps.update {M lo : Nat} {h : List (BTreeNode α)} (l : List (BTreeNode α))
    {a da b0 : Nat} (n : BTreeNode α) (ha : Bal M lo h b0 da (some a))
    (hnew : ∀ b, b ≤ lo → Bal M lo h b da (some a) → Bal M lo (store h a n ++ l) b da (some a)) :
    Keeps M lo h (store h a n ++ l) := by
  intro b d
  induction d generalizing b with
  | zero => intro p _ hb; exact hb
  | succ d ih =>
    intro p hbl hb
    have hx := hb
    obtain ⟨x, s, rfl, h1, h2, h3, h4, h5, h6, h7, h8⟩ := hb
    by_cases hxa : x = a
    · subst hxa
      have := Bal.depth_unique hx ha
      subst this
      exact hnew b hbl hx
    · have e := deref_update_ne h l a x n h1 hxa
      refine ⟨x, s, rfl, by simp [length_store]; omega, by rw [e]; exact h2, h3, h4, h5,
        by rw [e]; exact h6, ?_, ?_⟩
      · intro i hi
        rw [e]
        exact ih lo _ (Nat.le_refl _) (h7 i hi)
      · intro i hi
        rw [e]
        exact h8 i hi

theorem Keeps.refl (M lo : Nat) (h : List (BTreeNode α)) : Keeps M lo h h :=
  fun _ _ _ _ hb => hb

theorem Keeps.trans {M lo : Nat} {h h' h'' : List (BTreeNode α)} (h1 : Keeps M lo h h')
    (h2 : Keeps M lo h' h'') : Keeps M lo h h'' :=
  fun b d p hb hbal => h2 b d p hb (h1 b d p hb hbal)

theorem node_set_value_pos_le (cmp : Compare α) (v : Option α) (vs : List (Option α)) :
    ∀ n, node_set_value_pos cmp v vs n ≤ n := by
  intro n
  induction n with
  | zero => simp [node_set_value_pos]
  | succ n ih =>
    simp only [node_set_value_pos]
    split
    · omega
    · omega

end Balance


section InsertBalance

variable {α : Type}

theorem node_set_value_bal (cmp : Compare α) (M mn lo : Nat) (junk : BTreeNode α)
    (h1 : 1 ≤ mn) (h2 : mn < M) (hlo1 : lo ≤ mn) (hlo2 : lo ≤ M - mn) :
    ∀ d fuel (t : BTree α) p child value pValue b, b ≤ lo → Bal M lo t.heap b d p → d < fuel →
      ∃ r, node_set_value cmp M mn junk fuel t p child value pValue = some r ∧
        r.tree.root = t.root ∧ r.tree.destroyed = t.destroyed ∧ r.tree.freed = t.freed ∧
        t.heap.length ≤ r.tree.heap.length ∧
        Keeps M lo t.heap r.tree.heap ∧ Frame M lo d t.heap r.tree.heap ∧
        (r.ret = true →
          (d = 0 ∧ r.child = none ∧ r.tree = t) ∨
          (0 < d ∧ Bal M lo r.tree.heap lo d p ∧ Bal M lo r.tree.heap lo d r.child)) := by
  intro d
  induction d with
  | zero =>
    intro fuel t p child value pValue b _ hbal hf
    have hp := (Bal.zero_iff ..).1 hbal
    subst hp
    obtain ⟨f, rfl⟩ : ∃ f, fuel = f + 1 := ⟨fuel - 1, by omega⟩
    exact ⟨⟨true, t, none, value⟩, rfl, rfl, rfl, rfl, Nat.le_refl _, Keeps.refl _ _ _,
      fun x _ _ => rfl, fun _ => Or.inl ⟨rfl, rfl, rfl⟩⟩
  | succ d ih =>
    intro fuel t p child value pValue b hb hbal hf
    obtain ⟨f, rfl⟩ : ∃ f, fuel = f + 1 := ⟨fuel - 1, by omega⟩
    have hx := hbal
    obtain ⟨a, s, rfl, ha, hs, hbs, hs1, hsM, hcl, hkid, hnone⟩ := hbal
    have hsn : (deref t.heap a).size.toNat = s := by rw [hs]; exact Int.toNat_natCast s
    obtain ⟨pos, hpos, hposle⟩ : ∃ pos, (if cmp value (rd (deref t.heap a).values 1) < 0 then 0
        else node_set_value_pos cmp value (deref t.heap a).values (deref t.heap a).size.toNat)
          = pos ∧ pos ≤ s := by
      refine ⟨_, rfl, ?_⟩
      split
      · omega
      · rw [hsn]; exact node_set_value_pos_le _ _ _ _
    simp only [node_set_value, hpos]
    split
    · exact ⟨_, rfl, rfl, rfl, rfl, Nat.le_refl _, Keeps.refl _ _ _, fun x _ _ => rfl,
        fun h => by simp at h⟩
    · obtain ⟨r1, hr1, hroot, hdes, hfr, hlen, hkeep, hframe, hret⟩ :=
        ih f t (rd (deref t.heap a).children pos) child value pValue lo (Nat.le_refl _)
          (hkid pos hposle) (by omega)
      simp only [hr1]
      have hnode1 : deref r1.tree.heap a = deref t.heap a :=
        hframe a ha (fun e b' hb' => by have := Bal.depth_unique hb' hx; omega)
      have hx1 : Bal M lo r1.tree.heap b (d + 1) (some a) := hkeep _ _ _ hb hx
      have ha1 : a < r1.tree.heap.length := by omega
      have hframe' : ∀ (n : BTreeNode α) (l : List (BTreeNode α)),
          Frame M lo (d + 1) t.heap (store r1.tree.heap a n ++ l) := by
        intro n l x hxl hno
        have hne : x ≠ a := by
          intro hxa
          subst hxa
          have := hno (d + 1) b hx
          omega
        rw [deref_update_ne _ _ _ _ _ (by omega) hne]
        exact hframe x hxl (fun e b' hb' => by have := hno e b' hb'; omega)
      by_cases hr : r1.ret = true
      · simp only [hr, if_true, hnode1]
        have hPchild : Bal M lo r1.tree.heap lo d r1.child := by
          rcases hret hr with ⟨hd0, hc, _⟩ | ⟨_, _, hc⟩
          · subst hd0; rw [hc]; exact (Bal.zero_iff ..).2 rfl
          · exact hc
        have hkids1 : Kids (Bal M lo r1.tree.heap lo d) M s (deref t.heap a).children :=
          ⟨hcl, fun i hi => hkeep _ _ _ (Nat.le_refl _) (hkid i hi), hnone⟩
        by_cases hlt : (deref t.heap a).size < (M : Int)
        · simp only [hlt, if_true]
          have hsltM : s < M := by rw [hs] at hlt; exact_mod_cast hlt
          have hk2 := node_add_kids _ M pos s (deref t.heap a) r1.child r1.pValue hkids1 hs
            hsltM hposle hPchild
          have e : store r1.tree.heap a (node_add M pos (deref t.heap a) r1.child r1.pValue) =
              store r1.tree.heap a (node_add M pos (deref t.heap a) r1.child r1.pValue) ++ [] :=
            (List.append_nil _).symm
          have hnewbal : ∀ b', b' ≤ lo → Bal M lo r1.tree.heap b' (d + 1) (some a) →
              Bal M lo (store r1.tree.heap a (node_add M pos (deref t.heap a) r1.child r1.pValue)
                ++ []) b' (d + 1) (some a) := by
            intro b' _ hb'
            obtain ⟨a', s', ha', _, hs', hbs', _⟩ := hb'
            cases ha'
            rw [hnode1, hs] at hs'
            have hss : s = s' := by exact_mod_cast hs'
            subst hss
            refine ⟨a, s + 1, rfl, by simp [length_store]; omega, ?_, by omega, by omega, by omega,
              ?_, ?_, ?_⟩
            · rw [deref_update_eq _ _ _ _ ha1, size_node_add, hs]; push_cast; rfl
            · rw [deref_update_eq _ _ _ _ ha1]; exact hk2.1
            · intro i hi
              rw [deref_update_eq _ _ _ _ ha1]
              exact Bal.below_update [] _ hx1 (Nat.lt_succ_self d) (hk2.2.1 i hi)
            · intro i hi
              rw [deref_update_eq _ _ _ _ ha1]
              exact hk2.2.2 i hi
          refine ⟨_, rfl, hroot, hdes, hfr, ?_, ?_, ?_, fun h => by simp at h⟩
          · simp only [length_store]; exact hlen
          · show Keeps M lo t.heap (store r1.tree.heap a _)
            rw [e]
            exact Keeps.trans hkeep (Keeps.update [] _ hx1 hnewbal)
          · show Frame M lo (d + 1) t.heap (store r1.tree.heap a _)
            rw [e]
            exact hframe' _ _
        · simp only [hlt, if_false]
          have hsM' : s = M := by
            rw [hs] at hlt
            have : ¬ s < M := by exact_mod_cast hlt
            omega
          have hkidsM : Kids (Bal M lo r1.tree.heap lo d) M M (deref t.heap a).children :=
            hsM' ▸ hkids1
          have hposM : pos ≤ M := hsM' ▸ hposle
          have hP : (∀ q, Bal M lo r1.tree.heap lo d q → q = none) ∨
              (∀ q, Bal M lo r1.tree.heap lo d q → q.isSome = true) := by
            cases d with
            | zero => exact Or.inl (fun q hq => (Bal.zero_iff ..).1 hq)
            | succ d => exact Or.inr (fun q hq => hq.isSome)
          obtain ⟨kl, sl, kr, sr⟩ := node_split_kids _ hP M mn h1 h2 junk (deref t.heap a) pos
            r1.child r1.pValue hkidsM hposM hPchild
          generalize node_split M mn junk pos (deref t.heap a) r1.child r1.pValue = sp
            at kl sl kr sr ⊢
          have hbl : Bal M lo (store r1.tree.heap a sp.1 ++ [sp.2.1]) lo (d + 1) (some a) := by
            refine ⟨a, mn, rfl, by simp [length_store]; omega, ?_, hlo1, h1, by omega, ?_, ?_, ?_⟩
            · rw [deref_update_eq _ _ _ _ ha1]; exact sl
            · rw [deref_update_eq _ _ _ _ ha1]; exact kl.1
            · intro i hi
              rw [deref_update_eq _ _ _ _ ha1]
              exact Bal.below_update _ _ hx1 (Nat.lt_succ_self d) (kl.2.1 i hi)
            · intro i hi
              rw [deref_update_eq _ _ _ _ ha1]
              exact kl.2.2 i hi
          have hnew : deref (store r1.tree.heap a sp.1 ++ [sp.2.1]) r1.tree.heap.length = sp.2.1 := by
            have := deref_append_length (store r1.tree.heap a sp.1) sp.2.1
            rwa [length_store] at this
          have hbr : Bal M lo (store r1.tree.heap a sp.1 ++ [sp.2.1]) lo (d + 1)
              (some r1.tree.heap.length) := by
            refine ⟨r1.tree.heap.length, M - mn, rfl, by simp [length_store], ?_, hlo2,
              by omega, by omega, ?_, ?_, ?_⟩
            · rw [hnew]; exact sr
            · rw [hnew]; exact kr.1
            · intro i hi
              rw [hnew]
              exact Bal.below_update _ _ hx1 (Nat.lt_succ_self d) (kr.2.1 i hi)
            · intro i hi
              rw [hnew]
              exact kr.2.2 i hi
          refine ⟨_, rfl, hroot, hdes, hfr, ?_, ?_, hframe' _ _,
            fun _ => Or.inr ⟨by omega, hbl, hbr⟩⟩
          · simp only [List.length_append, length_store]; omega
          · exact Keeps.trans hkeep
              (Keeps.update _ _ hx1 (fun b' hb' _ => Bal.weaken hb' hbl))
      · simp only [hr]
        refine ⟨_, rfl, hroot, hdes, hfr, hlen, hkeep, ?_, fun h => by simp at h⟩
        intro x hxl hno
        exact hframe x hxl (fun e b' hb' => by have := hno e b' hb'; omega)

end InsertBalance


section TreeBalance

variable {α : Type}

theorem Bal.of_same_shape {M lo : Nat} {h h' : List (BTreeNode α)} (hlen : h.length ≤ h'.length)
    (hsame : ∀ x, x < h.length →
      (deref h' x).children = (deref h x).children ∧ (deref h' x).size = (deref h x).size)
    {b d : Nat} {p : Option Nat} (hb : Bal M lo h b d p) : Bal M lo h' b d p :=
  Bal.congr hlen (fun x _ _ hx _ _ => hsame x hx) hb

theorem Bal.append {M lo : Nat} {h : List (BTreeNode α)} (l : List (BTreeNode α))
    {b d : Nat} {p : Option Nat} (hb : Bal M lo h b d p) : Bal M lo (h ++ l) b d p :=
  Bal.of_same_shape (by simp) (fun x hx => by rw [deref_append_left _ _ _ hx]; exact ⟨rfl, rfl⟩) hb

theorem Bal.setLeaf {M lo : Nat} {h : List (BTreeNode α)} (c : Nat) (x : Bool)
    {b d : Nat} {p : Option Nat} (hb : Bal M lo h b d p) :
    Bal M lo (store h c { deref h c with isLeaf := x }) b d p := by
  refine Bal.of_same_shape (by simp [length_store]) ?_ hb
  intro y _
  rw [deref_store]
  split
  · rename_i hc; rw [hc.1]; exact ⟨rfl, rfl⟩
  · exact ⟨rfl, rfl⟩

theorem height_of_bal {M lo : Nat} {h : List (BTreeNode α)} :
    ∀ {d b : Nat} {p : Option Nat} {fuel : Nat}, Bal M lo h b d p → d < fuel →
      height h fuel p = some (d : Int) := by
  intro d
  induction d with
  | zero =>
    intro b p fuel hb hf
    obtain ⟨f, rfl⟩ : ∃ f, fuel = f + 1 := ⟨fuel - 1, by omega⟩
    rw [(Bal.zero_iff ..).1 hb]
    rfl
  | succ d ih =>
    intro b p fuel hb hf
    obtain ⟨f, rfl⟩ : ∃ f, fuel = f + 1 := ⟨fuel - 1, by omega⟩
    obtain ⟨a, s, rfl, _, hs, _, _, _, _, hk, _⟩ := hb
    have hsn : (deref h a).size.toNat = s := by rw [hs]; exact Int.toNat_natCast s
    simp only [height, hsn, ih (hk 0 (by omega)) (by omega : d < f),
      ih (hk s (Nat.le_refl _)) (by omega : d < f)]
    simp
    omega

theorem atDepth_bal {M lo : Nat} {h : List (BTreeNode α)} {b D : Nat} {p : Option Nat}
    (hb : Bal M lo h b D p) {a n : Nat} (ha : AtDepth M h p a n) :
    ∃ b', Bal M lo h b' (D + 1 - n) (some a) ∧ n ≤ D := by
  induction ha with
  | root a =>
    cases D with
    | zero => simp [Bal] at hb
    | succ D => exact ⟨b, hb, by omega⟩
  | @child p a' c i n _ hi hc ih =>
    obtain ⟨b', hb', hn⟩ := ih hb
    obtain ⟨e, he⟩ : ∃ e, D + 1 - n = e + 1 := ⟨D - n, by omega⟩
    rw [he] at hb'
    obtain ⟨x, s, hx, _, _, _, _, _, _, hk, hnone⟩ := hb'
    cases hx
    by_cases his : i ≤ s
    · have hci := hk i his
      rw [hc] at hci
      cases e with
      | zero => simp [Bal] at hci
      | succ e => exact ⟨lo, by rw [show D + 1 - (n + 1) = e + 1 by omega]; exact hci, by omega⟩
    · rw [hnone i (by omega)] at hc
      simp at hc

theorem reach_bal {M lo : Nat} {h : List (BTreeNode α)} {b D : Nat} {p : Option Nat}
    (hb : Bal M lo h b D p) {a : Nat} (ha : Reach M h p a) :
    ∃ b' e, Bal M lo h b' (e + 1) (some a) ∧ (some a = p ∨ b' = lo) := by
  induction ha with
  | root a =>
    cases D with
    | zero => simp [Bal] at hb
    | succ D => exact ⟨b, D, hb, Or.inl rfl⟩
  | @child p a' c i _ hi hc ih =>
    obtain ⟨b', e, hb', _⟩ := ih hb
    obtain ⟨x, s, hx, _, _, _, _, _, _, hk, hnone⟩ := hb'
    cases hx
    by_cases his : i ≤ s
    · have hci := hk i his
      rw [hc] at hci
      cases e with
      | zero => simp [Bal] at hci
      | succ e => exact ⟨lo, e, hci, Or.inr rfl⟩
    · rw [hnone i (by omega)] at hc
      simp at hc

theorem btree_add_bal (cmp : Compare α) (M mn lo : Nat) (junk : BTreeNode α)
    (h1 : 1 ≤ mn) (h2 : mn < M) (hlo0 : 1 ≤ lo) (hlo1 : lo ≤ mn) (hlo2 : lo ≤ M - mn)
    (t : BTree α) (d fuel : Nat) (hb : Bal M lo t.heap 1 d t.root) (hf : d < fuel) (k : α) :
    ∃ t' d', btree_add cmp M mn junk fuel t k = some t' ∧ Bal M lo t'.heap 1 d' t'.root ∧
      d ≤ d' ∧ d' ≤ d + 1 := by
  obtain ⟨r, hr, hroot, _, _, hlen, hkeep, _, hret⟩ :=
    node_set_value_bal cmp M mn lo junk h1 h2 hlo1 hlo2 d fuel t t.root none (some k) none 1
      hlo0 hb hf
  have key : ∀ (ch : Option Nat) (t1 : BTree α), r.child = ch → t1.root = t.root →
      (∀ {b e : Nat} {p : Option Nat}, Bal M lo r.tree.heap b e p → Bal M lo t1.heap b e p) →
      ∃ t' d', (if r.ret = true then
          some { t1 with root := some (node_create M t1 ch r.pValue).2,
                         heap := (node_create M t1 ch r.pValue).1, size := t1.size + 1 }
        else some t1) = some t' ∧ Bal M lo t'.heap 1 d' t'.root ∧ d ≤ d' ∧ d' ≤ d + 1 := by
    intro ch t1 hch hfixroot hfix
    by_cases hrt : r.ret = true
    · simp only [hrt, if_true, node_create]
      have hroot' : Bal M lo t1.heap lo d t.root ∧ Bal M lo t1.heap lo d ch := by
        rcases hret hrt with ⟨hd0, hc, _⟩ | ⟨_, hl, hc⟩
        · subst hd0
          rw [← hch, hc, (Bal.zero_iff ..).1 hb]
          exact ⟨(Bal.zero_iff ..).2 rfl, (Bal.zero_iff ..).2 rfl⟩
        · rw [← hch]; exact ⟨hfix hl, hfix hc⟩
      refine ⟨_, d + 1, rfl, ?_, by omega, by omega⟩
      refine ⟨t1.heap.length, 1, rfl, by simp, ?_, Nat.le_refl _, Nat.le_refl _, by omega,
        ?_, ?_, ?_⟩
      · rw [deref_append_length]; rfl
      · rw [deref_append_length]; simp [length_wr]
      · intro i hi
        rw [deref_append_length]
        simp only [rd_wr, length_wr, List.length_replicate, hfixroot]
        split_ifs with c1 c2
        · exact Bal.append _ hroot'.2
        · exact Bal.append _ hroot'.1
        · exfalso; omega
      · intro i hi
        rw [deref_append_length]
        simp only [rd_wr, length_wr, List.length_replicate]
        rw [if_neg (by omega), if_neg (by omega)]
        exact rd_replicate _ _
    · simp only [hrt]
      refine ⟨t1, d, rfl, ?_, by omega, by omega⟩
      rw [hfixroot]
      exact hfix (hkeep _ _ _ hlo0 hb)
  cases hch : r.child with
  | none =>
    simp only [btree_add, hr, hch]
    exact key none r.tree hch hroot (fun hbe => hbe)
  | some c =>
    simp only [btree_add, hr, hch]
    exact key (some c) _ hch hroot (fun hbe => Bal.setLeaf c _ hbe)

theorem btree_add_all_bal (cmp : Compare α) (M mn lo : Nat) (junk : BTreeNode α)
    (h1 : 1 ≤ mn) (h2 : mn < M) (hlo0 : 1 ≤ lo) (hlo1 : lo ≤ mn) (hlo2 : lo ≤ M - mn) (fuel : Nat) :
    ∀ (keys : List α) (t : BTree α) (d : Nat), Bal M lo t.heap 1 d t.root →
      d + keys.length < fuel →
      ∃ t' d', btree_add_all cmp M mn junk fuel t keys = some t' ∧
        Bal M lo t'.heap 1 d' t'.root ∧ d' ≤ d + keys.length := by
  intro keys
  induction keys with
  | nil => intro t d hb _; exact ⟨t, d, rfl, hb, by simp⟩
  | cons k ks ih =>
    intro t d hb hf
    simp only [List.length_cons] at hf
    obtain ⟨t1, d1, e1, hb1, _, hd1⟩ :=
      btree_add_bal cmp M mn lo junk h1 h2 hlo0 hlo1 hlo2 t d fuel hb (by omega) k
    obtain ⟨t2, d2, e2, hb2, hd2⟩ := ih t1 d1 hb1 (by omega)
    refine ⟨t2, d2, ?_, hb2, by simp only [List.length_cons]; omega⟩
    simp only [btree_add_all, e1, e2]

end TreeBalance

section ShapeProofs

variable {α : Type}

theorem height_nonneg (h : List (BTreeNode α)) :
    ∀ fuel p x, height h fuel p = some x → 0 ≤ x := by
  intro fuel
  induction fuel with
  | zero => intro p x hx; simp [height] at hx
  | succ f ih =>
    intro p x hx
    cases p with
    | none => simp only [height, Option.some.injEq] at hx; omega
    | some a =>
      simp only [height] at hx
      cases hl : height h f (rd (deref h a).children 0) with
      | none => simp [hl] at hx
      | some l =>
        cases hr : height h f (rd (deref h a).children (deref h a).size.toNat) with
        | none => simp [hl, hr] at hx
        | some r =>
          simp only [hl, hr, Option.some.injEq] at hx
          have := ih _ _ hl
          have := ih _ _ hr
          split_ifs at hx <;> omega

theorem height_step (h : List (BTreeNode α)) (fuel a : Nat) (l r : Int)
    (hl : height h fuel (rd (deref h a).children 0) = some l)
    (hr : height h fuel (rd (deref h a).children (deref h a).size.toNat) = some r) :
    height h (fuel + 1) (some a) = some (1 + max l r) := by
  simp only [height, hl, hr, Option.some.injEq]
  split_ifs <;> omega

theorem height_total (h : List (BTreeNode α)) :
    ∀ d fuel p, SpineLE h d p → d < fuel → ∃ x, height h fuel p = some x := by
  intro d
  induction d with
  | zero =>
    intro fuel p hs hf
    obtain ⟨f, rfl⟩ : ∃ f, fuel = f + 1 := ⟨fuel - 1, by omega⟩
    simp only [SpineLE] at hs
    subst hs
    exact ⟨0, rfl⟩
  | succ d ih =>
    intro fuel p hs hf
    obtain ⟨f, rfl⟩ : ∃ f, fuel = f + 1 := ⟨fuel - 1, by omega⟩
    cases p with
    | none => exact ⟨0, rfl⟩
    | some a =>
      obtain ⟨l, hl⟩ := ih f _ (hs a rfl).1 (by omega)
      obtain ⟨r, hr⟩ := ih f _ (hs a rfl).2 (by omega)
      exact ⟨_, height_step h f a l r hl hr⟩

theorem diameter_helper_spec (h : List (BTreeNode α)) :
    ∀ fuel p D x D', diameter_helper h fuel p D = some (x, D') →
      height h fuel p = some x ∧ D ≤ D' ∧ D' ≤ max D (2 * x - 1) := by
  intro fuel
  induction fuel with
  | zero => intro p D x D' hd; simp [diameter_helper] at hd
  | succ f ih =>
    intro p D x D' hd
    cases p with
    | none =>
      simp only [diameter_helper, Option.some.injEq, Prod.mk.injEq] at hd
      obtain ⟨rfl, rfl⟩ := hd
      exact ⟨rfl, by omega, by omega⟩
    | some a =>
      simp only [diameter_helper] at hd
      cases hl : height h f (rd (deref h a).children 0) with
      | none => simp [hl] at hd
      | some l =>
        cases hr : height h f (rd (deref h a).children (deref h a).size.toNat) with
        | none => simp [hl, hr] at hd
        | some r =>
          simp only [hl, hr] at hd
          cases h1 : diameter_helper h f (rd (deref h a).children 0) D with
          | none => simp [h1] at hd
          | some r1 =>
            simp only [h1] at hd
            cases h2 : diameter_helper h f (rd (deref h a).children (deref h a).size.toNat)
                r1.2 with
            | none => simp [h2] at hd
            | some r2 =>
              simp only [h2, Option.some.injEq, Prod.mk.injEq] at hd
              obtain ⟨e1, e2, e3⟩ := ih _ _ _ _ (show diameter_helper h f _ D = some (r1.1, r1.2)
                from h1)
              obtain ⟨g1, g2, g3⟩ := ih _ _ _ _ (show diameter_helper h f _ r1.2 =
                some (r2.1, r2.2) from h2)
              rw [hl] at e1
              rw [hr] at g1
              cases e1
              cases g1
              have hl0 := height_nonneg h _ _ _ hl
              have hr0 := height_nonneg h _ _ _ hr
              obtain ⟨hx, hD⟩ := hd
              refine ⟨?_, ?_, ?_⟩
              · rw [height_step h f a _ _ hl hr, ← hx]
                congr 1
                split_ifs <;> omega
              · rw [← hD]; split_ifs <;> omega
              · rw [← hD, ← hx]; split_ifs <;> omega

theorem diameter_helper_total (h : List (BTreeNode α)) :
    ∀ fuel p x, height h fuel p = some x → ∀ D, ∃ D', diameter_helper h fuel p D = some (x, D') := by
  intro fuel
  induction fuel with
  | zero => intro p x hx; simp [height] at hx
  | succ f ih =>
    intro p x hx D
    cases p with
    | none =>
      simp only [height, Option.some.injEq] at hx
      subst hx
      exact ⟨D, rfl⟩
    | some a =>
      have hx' := hx
      simp only [height] at hx
      cases hl : height h f (rd (deref h a).children 0) with
      | none => simp [hl] at hx
      | some l =>
        cases hr : height h f (rd (deref h a).children (deref h a).size.toNat) with
        | none => simp [hl, hr] at hx
        | some r =>
          simp only [hl, hr, Option.some.injEq] at hx
          obtain ⟨D1, h1⟩ := ih _ _ hl D
          obtain ⟨D2, h2⟩ := ih _ _ hr D1
          refine ⟨if D2 > l + r + 1 then D2 else l + r + 1, ?_⟩
          simp only [diameter_helper, hl, hr, h1, h2, Option.some.injEq, Prod.mk.injEq]
          exact ⟨hx, trivial⟩

theorem btree_diameter_eq (t : BTree α) (fuel a : Nat) (hl hr : Int) (ha : t.root = some a)
    (h1 : height t.heap fuel (rd (deref t.heap a).children 0) = some hl)
    (h2 : height t.heap fuel (rd (deref t.heap a).children (deref t.heap a).size.toNat) = some hr)
    (b1 : hl ≤ hr + 2) (b2 : hr ≤ hl + 2) :
    btree_diameter (fuel + 1) t = some (hl + hr + 1) := by
  obtain ⟨D1, d1⟩ := diameter_helper_total t.heap _ _ _ h1 0
  obtain ⟨D2, d2⟩ := diameter_helper_total t.heap _ _ _ h2 D1
  obtain ⟨_, e2, e3⟩ := diameter_helper_spec t.heap _ _ _ _ _ d1
  obtain ⟨_, g2, g3⟩ := diameter_helper_spec t.heap _ _ _ _ _ d2
  have hl0 := height_nonneg _ _ _ _ h1
  have hr0 := height_nonneg _ _ _ _ h2
  simp only [btree_diameter, ha, diameter_helper, h1, h2, d1, d2, Option.some.injEq]
  split_ifs <;> omega

end ShapeProofs

section AllocationProofs

variable {α : Type}

/-- When no `malloc` fails `node_set_value_alloc` is `node_set_value`. -/
theorem node_set_value_alloc_nil (cmp : Compare α) (M mn : Nat) (junk : BTreeNode α) :
    ∀ (fuel : Nat) (t : BTree α) (node child : Option Nat) (value pValue : Option α),
      node_set_value_alloc cmp M mn junk fuel [] t node child value pValue =
        (node_set_value cmp M mn junk fuel t node child value pValue).map (fun r => (r, [])) := by
  intro fuel
  induction fuel with
  | zero => intros; rfl
  | succ fuel ih =>
    intro t node child value pValue
    cases node with
    | none => rfl
    | some a =>
      simp only [node_set_value_alloc, node_set_value, ih]
      generalize (if cmp value (rd (deref t.heap a).values 1) < 0 then 0
        else node_set_value_pos cmp value (deref t.heap a).values
          (deref t.heap a).size.toNat) = pos
      by_cases h1 : ¬ cmp value (rd (deref t.heap a).values 1) < 0 ∧
          cmp value (rd (deref t.heap a).values pos) = 0
      · simp only [if_pos h1, Option.map_some']
      · simp only [if_neg h1]
        cases hr : node_set_value cmp M mn junk fuel t (rd (deref t.heap a).children pos)
            child value pValue with
        | none => rfl
        | some r =>
          simp only [Option.map_some', malloc_next]
          split_ifs <;> simp_all

/-- When no `malloc` fails `btree_add_alloc` is `btree_add`. -/
theorem btree_add_alloc_nil (cmp : Compare α) (M mn : Nat) (junk : BTreeNode α) (fuel : Nat)
    (t : BTree α) (value : α) :
    btree_add_alloc cmp M mn junk fuel [] t value =
      (btree_add cmp M mn junk fuel t value).map (fun r => (r, [])) := by
  simp only [btree_add_alloc, btree_add, node_set_value_alloc_nil]
  cases hr : node_set_value cmp M mn junk fuel t t.root none (some value) none with
  | none => rfl
  | some r =>
    simp only [Option.map_some', malloc_next, node_create_alloc]
    split_ifs <;> simp_all

end AllocationProofs

section ValueLemmas

variable {α : Type}

theorem length_node_add_shift_values :
    ∀ k j (vs : List (Option α)) (cs : List (Option Nat)),
      (node_add_shift k j vs cs).1.length = vs.length := by
  intro k
  induction k with
  | zero => intro j vs cs; rfl
  | succ k ih => intro j vs cs; simp only [node_add_shift]; rw [ih, length_wr]

theorem rd_node_add_shift_values :
    ∀ k j (vs : List (Option α)) (cs : List (Option Nat)) i, k ≤ j → j + 1 < vs.length →
      rd (node_add_shift k j vs cs).1 i =
        if j - k + 1 < i ∧ i ≤ j + 1 then rd vs (i - 1) else rd vs i := by
  intro k
  induction k with
  | zero =>
    intro j vs cs i _ _
    simp only [node_add_shift]
    rw [if_neg (by omega)]
  | succ k ih =>
    intro j vs cs i hk hl
    simp only [node_add_shift]
    rw [ih (j - 1) _ _ i (by omega) (by rw [length_wr]; omega), rd_wr, rd_wr]
    split_ifs
    all_goals first
      | rfl
      | (exfalso; omega)
      | (congr 1; omega)

theorem rd_node_add_values (M index : Nat) (node : BTreeNode α) (child : Option Nat)
    (value : Option α) (s : Nat) (hs : node.size = (s : Int)) (hi : index ≤ s)
    (hl : s + 1 < node.values.length) (i : Nat) :
    rd (node_add M index node child value).values i =
      if i = index + 1 then value
      else if index + 1 < i ∧ i ≤ s + 1 then rd node.values (i - 1) else rd node.values i := by
  have hj : node.size.toNat = s := by rw [hs]; exact Int.toNat_natCast s
  simp only [node_add, hj]
  rw [rd_wr, length_node_add_shift_values, rd_node_add_shift_values _ _ _ _ _ (by omega) hl]
  split_ifs
  all_goals first
    | rfl
    | (exfalso; omega)
    | (congr 1; omega)

theorem length_node_add_values (M index : Nat) (node : BTreeNode α) (child : Option Nat)
    (value : Option α) :
    (node_add M index node child value).values.length = node.values.length := by
  simp only [node_add]
  rw [length_wr, length_node_add_shift_values]

/-- The key array after `node_add` on a packed array with room. -/
theorem node_add_packed (M index s : Nat) (node : BTreeNode α) (child : Option Nat)
    (value : Option α) (hp : Packed M s node.values) (hs : node.size = (s : Int))
    (hsM : s < M) (hi : index ≤ s) (hv : value.isSome = true) :
    Packed M (s + 1) (node_add M index node child value).values ∧
    ∀ i, rd (node_add M index node child value).values i =
      ins (rd node.values) index value i := by
  obtain ⟨hl, h0, hsome, hnone⟩ := hp
  have hf := rd_node_add_values M index node child value s hs hi (by omega)
  have hins : ∀ i, rd (node_add M index node child value).values i =
      ins (rd node.values) index value i := by
    intro i
    rw [hf i]
    unfold ins
    split_ifs
    all_goals first
      | rfl
      | (exfalso; omega)
      | (rw [hnone i (by omega), hnone (i - 1) (by omega)])
  refine ⟨⟨by rw [length_node_add_values, hl], ?_, ?_, ?_⟩, hins⟩
  · rw [hf 0, if_neg (by omega), if_neg (by omega)]; exact h0
  · intro i hi1 hi2
    rw [hf i]
    split_ifs
    · exact hv
    · exact hsome _ (by omega) (by omega)
    · exact hsome _ (by omega) (by omega)
  · intro i hi'
    rw [hf i, if_neg (by omega), if_neg (by omega)]
    exact hnone i (by omega)

theorem length_node_split_move_values (median : Nat) :
    ∀ k j (node newNode : BTreeNode α),
      (node_split_move median k j node newNode).1.values.length = node.values.length ∧
      (node_split_move median k j node newNode).2.values.length = newNode.values.length := by
  intro k
  induction k with
  | zero => intro j node newNode; exact ⟨rfl, rfl⟩
  | succ k ih =>
    intro j node newNode
    simp only [node_split_move]
    have := ih (j + 1)
      { node with values := wr node.values j none, children := wr node.children j none,
                  size := node.size - 1 }
      { newNode with values := wr newNode.values (j - median) (rd node.values j),
                     children := wr newNode.children (j - median) (rd node.children j) }
    simp only [length_wr] at this
    exact this

theorem rd_node_split_move_left_values (median : Nat) :
    ∀ k j (node newNode : BTreeNode α) i,
      rd (node_split_move median k j node newNode).1.values i =
        if j ≤ i ∧ i < j + k then none else rd node.values i := by
  intro k
  induction k with
  | zero =>
    intro j node newNode i
    simp only [node_split_move]
    rw [if_neg (by omega)]
  | succ k ih =>
    intro j node newNode i
    simp only [node_split_move]
    rw [ih, rd_wr]
    split_ifs
    all_goals first
      | rfl
      | (exfalso; omega)
      | exact rd_of_length_le _ i (by omega)
      | exact (rd_of_length_le _ i (by omega)).symm

theorem rd_node_split_move_right_values (median : Nat) :
    ∀ k j (node newNode : BTreeNode α) x, median ≤ j →
      j - median + k ≤ newNode.values.length →
      rd (node_split_move median k j node newNode).2.values x =
        if j - median ≤ x ∧ x < j - median + k then rd node.values (x + median)
        else rd newNode.values x := by
  intro k
  induction k with
  | zero =>
    intro j node newNode x _ _
    simp only [node_split_move]
    rw [if_neg (by omega)]
  | succ k ih =>
    intro j node newNode x hj hl
    simp only [node_split_move]
    rw [ih (j + 1) _ _ x (by omega) (by simp only [length_wr]; omega), rd_wr, rd_wr]
    split_ifs
    all_goals first
      | rfl
      | (exfalso; omega)
      | (congr 1; omega)

theorem node_split_values (M mn : Nat) (h1 : 1 ≤ mn) (h2 : mn < M) (junk node : BTreeNode α)
    (index : Nat) (child : Option Nat) (value : Option α) (hp : Packed M M node.values)
    (hi : index ≤ M) (hv : value.isSome = true) :
    Packed M mn (node_split M mn junk index node child value).1.values ∧
    Packed M (M - mn) (node_split M mn junk index node child value).2.1.values ∧
    (∀ i, 1 ≤ i → i ≤ mn → rd (node_split M mn junk index node child value).1.values i =
      ins (rd node.values) index value i) ∧
    (node_split M mn junk index node child value).2.2 =
      ins (rd node.values) index value (mn + 1) ∧
    (∀ i, 1 ≤ i → i ≤ M - mn → rd (node_split M mn junk index node child value).2.1.values i =
      ins (rd node.values) index value (i + mn + 1)) := by
  obtain ⟨hl, h0, hsome, hnone⟩ := hp
  by_cases hcase : index ≤ mn
  · have hm : (if index > mn then mn + 1 else mn) = mn := by rw [if_neg (by omega)]
    simp only [node_split, hm, if_pos hcase]
    have hmove := length_node_split_move_values (α := α) mn (M - mn) (mn + 1) node
      { junk with values := List.replicate (M + 1) none, children := List.replicate (M + 1) none }
    have hleft := rd_node_split_move_left_values (α := α) mn (M - mn) (mn + 1) node
      { junk with values := List.replicate (M + 1) none, children := List.replicate (M + 1) none }
    have hright := rd_node_split_move_right_values (α := α) mn (M - mn) (mn + 1) node
      { junk with values := List.replicate (M + 1) none, children := List.replicate (M + 1) none }
    simp only [List.length_replicate] at hmove hright
    generalize node_split_move mn (M - mn) (mn + 1) node
      { junk with values := List.replicate (M + 1) none, children := List.replicate (M + 1) none }
      = mv at hmove hleft hright ⊢
    have hnew0 : ∀ x, rd (List.replicate (M + 1) (none : Option α)) x = none := rd_replicate _
    have hre : reorderValues M mv.1.values 1 = mv.1.values :=
      reorderValues_packed M mv.1.values 1 (mn + 1) (by omega) (by omega)
        (fun x hx1 hx2 => by rw [hleft x, if_neg (by omega)]; exact hsome x hx1 (by omega))
        (fun x hx => by
          rw [hleft x]
          split_ifs
          · rfl
          · exact hnone x (by omega))
    rw [hre]
    have hp2 : Packed M mn mv.1.values :=
      ⟨by rw [hmove.1, hl], by rw [hleft 0, if_neg (by omega)]; exact h0,
        fun x hx1 hx2 => by rw [hleft x, if_neg (by omega)]; exact hsome x hx1 (by omega),
        fun x hx => by
          rw [hleft x]
          split_ifs
          · rfl
          · exact hnone x (by omega)⟩
    obtain ⟨hpA, hA⟩ := node_add_packed M index mn
      { values := mv.1.values, children := reorderValues M mv.1.children 0, size := (mn : Int),
        isLeaf := mv.1.isLeaf } child value hp2 rfl h2 hcase hv
    have hsz : (node_add M index
      { values := mv.1.values, children := reorderValues M mv.1.children 0, size := (mn : Int),
        isLeaf := mv.1.isLeaf } child value).size.toNat = mn + 1 := by
      show ((mn : Int) + 1).toNat = mn + 1
      omega
    rw [hsz]
    generalize node_add M index
      { values := mv.1.values, children := reorderValues M mv.1.children 0, size := (mn : Int),
        isLeaf := mv.1.isLeaf } child value = A at hpA hA ⊢
    obtain ⟨hAl, hA0, hAsome, hAnone⟩ := hpA
    have hAins : ∀ i, i ≤ mn + 1 → rd A.values i = ins (rd node.values) index value i := by
      intro i hi'
      rw [hA i]
      unfold ins
      split_ifs
      · rfl
      · rw [hleft (i - 1), if_neg (by omega)]
      · rw [hleft i, if_neg (by omega)]
    refine ⟨⟨by rw [length_wr, hAl], ?_, ?_, ?_⟩, ⟨hmove.2, ?_, ?_, ?_⟩, ?_, hAins _ (Nat.le_refl _),
      ?_⟩
    · rw [rd_wr, if_neg (by omega)]; exact hA0
    · intro i hi1 hi2
      rw [rd_wr, if_neg (by omega)]
      exact hAsome i hi1 (by omega)
    · intro i hi'
      rw [rd_wr]
      split_ifs
      · rfl
      · exact hAnone i (by omega)
    · rw [hright 0 (by omega) (by omega), if_neg (by omega)]; exact hnew0 0
    · intro i hi1 hi2
      rw [hright i (by omega) (by omega), if_pos (by omega)]
      exact hsome _ (by omega) (by omega)
    · intro i hi'
      rw [hright i (by omega) (by omega), if_neg (by omega)]
      exact hnew0 i
    · intro i hi1 hi2
      rw [rd_wr, if_neg (by omega)]
      exact hAins i (by omega)
    · intro i hi1 hi2
      rw [hright i (by omega) (by omega), if_pos (by omega)]
      unfold ins
      rw [if_neg (by omega), if_pos (by omega)]
      congr 1
  · have hm : (if index > mn then mn + 1 else mn) = mn + 1 := by rw [if_pos (by omega)]
    simp only [node_split, hm, if_neg hcase]
    have hmove := length_node_split_move_values (α := α) (mn + 1) (M - (mn + 1)) (mn + 1 + 1) node
      { junk with values := List.replicate (M + 1) none, children := List.replicate (M + 1) none }
    have hleft := rd_node_split_move_left_values (α := α) (mn + 1) (M - (mn + 1)) (mn + 1 + 1)
      node
      { junk with values := List.replicate (M + 1) none, children := List.replicate (M + 1) none }
    have hright := rd_node_split_move_right_values (α := α) (mn + 1) (M - (mn + 1)) (mn + 1 + 1)
      node
      { junk with values := List.replicate (M + 1) none, children := List.replicate (M + 1) none }
    simp only [List.length_replicate] at hmove hright
    generalize node_split_move (mn + 1) (M - (mn + 1)) (mn + 1 + 1) node
      { junk with values := List.replicate (M + 1) none, children := List.replicate (M + 1) none }
      = mv at hmove hleft hright ⊢
    have hnew0 : ∀ x, rd (List.replicate (M + 1) (none : Option α)) x = none := rd_replicate _
    have hre : reorderValues M mv.1.values 1 = mv.1.values :=
      reorderValues_packed M mv.1.values 1 (mn + 2) (by omega) (by omega)
        (fun x hx1 hx2 => by rw [hleft x, if_neg (by omega)]; exact hsome x hx1 (by omega))
        (fun x hx => by
          rw [hleft x]
          split_ifs
          · rfl
          · exact hnone x (by omega))
    rw [hre]
    have hs1 : ((M : Int) - ((mn + 1 : Nat) : Int)) = ((M - mn - 1 : Nat) : Int) := by omega
    have hp2 : Packed M (M - mn - 1) mv.2.values :=
      ⟨hmove.2, by rw [hright 0 (by omega) (by omega), if_neg (by omega)]; exact hnew0 0,
        fun x hx1 hx2 => by
          rw [hright x (by omega) (by omega), if_pos (by omega)]
          exact hsome _ (by omega) (by omega),
        fun x hx => by
          rw [hright x (by omega) (by omega), if_neg (by omega)]
          exact hnew0 x⟩
    obtain ⟨hpA, hA⟩ := node_add_packed M (index - (mn + 1)) (M - mn - 1)
      { values := mv.2.values, children := mv.2.children,
        size := (M : Int) - ((mn + 1 : Nat) : Int), isLeaf := mv.2.isLeaf } child value hp2 hs1
      (by omega) (by omega) hv
    have hsz3 : ((mn + 1 : Nat) : Int).toNat = mn + 1 := by omega
    simp only [hsz3]
    generalize node_add M (index - (mn + 1))
      { values := mv.2.values, children := mv.2.children,
        size := (M : Int) - ((mn + 1 : Nat) : Int), isLeaf := mv.2.isLeaf } child value = A
      at hpA hA ⊢
    have e : M - mn - 1 + 1 = M - mn := by omega
    rw [e] at hpA
    refine ⟨⟨by rw [length_wr, hmove.1, hl], ?_, ?_, ?_⟩, hpA, ?_, ?_, ?_⟩
    · rw [rd_wr, if_neg (by omega), hleft 0, if_neg (by omega)]; exact h0
    · intro i hi1 hi2
      rw [rd_wr, if_neg (by omega), hleft i, if_neg (by omega)]
      exact hsome i hi1 (by omega)
    · intro i hi'
      rw [rd_wr]
      split_ifs
      · rfl
      · rw [hleft i]
        split_ifs
        · rfl
        · exact hnone i (by omega)
    · intro i hi1 hi2
      rw [rd_wr, if_neg (by omega), hleft i, if_neg (by omega)]
      unfold ins
      rw [if_neg (by omega), if_neg (by omega)]
    · rw [hleft (mn + 1), if_neg (by omega)]
      unfold ins
      rw [if_neg (by omega), if_neg (by omega)]
    · intro i hi1 hi2
      rw [hA i]
      unfold ins
      split_ifs
      all_goals first
        | rfl
        | (exfalso; omega)
        | (rw [hright (i - 1) (by omega) (by omega), if_pos (by omega)]; congr 1; omega)
        | (rw [hright i (by omega) (by omega), if_pos (by omega)]; congr 1)

theorem node_split_tail_rd (M mn : Nat) (h2 : mn < M) (cs3 cs2 : List (Option Nat))
    (l3 : cs3.length = M + 1) (s3 : ∀ i, i ≤ mn + 1 → (rd cs3 i).isSome = true)
    (n3 : ∀ i, mn + 1 < i → rd cs3 i = none) (l2 : cs2.length = M + 1) :
    (∀ i, rd (reorderValues M (wr cs3 mn none) 0) i =
      if i < mn then rd cs3 i else if i = mn then rd cs3 (mn + 1) else none) ∧
    (∀ i, rd (wr cs2 0 (rd cs3 mn)) i = if i = 0 then rd cs3 mn else rd cs2 i) := by
  have hb : (wr cs3 mn none).length = M + 1 := by rw [length_wr, l3]
  have hgap := rd_reorderValues_gap M (wr cs3 mn none) mn hb (by omega)
    (fun x hx => by rw [rd_wr, if_neg (by omega)]; exact s3 x (by omega))
    (by rw [rd_wr, if_pos ⟨rfl, by omega⟩])
    (by rw [rd_wr, if_neg (by omega)]; exact s3 (mn + 1) (Nat.le_refl _))
    (fun x hx => by rw [rd_wr, if_neg (by omega)]; exact n3 x hx)
  constructor
  · intro i
    rw [hgap i]
    split_ifs
    · rw [rd_wr, if_neg (by omega)]
    · rw [rd_wr, if_neg (by omega)]
    · rfl
  · intro i
    rw [rd_wr]
    split_ifs with c1 c2 c3
    · rfl
    · exact absurd c1.1.symm c2
    · exfalso; exact c1 ⟨c3.symm, by omega⟩
    · rfl

theorem node_split_children (M mn : Nat) (h1 : 1 ≤ mn) (h2 : mn < M) (junk node : BTreeNode α)
    (index : Nat) (child : Option Nat) (value : Option α) (hl : node.children.length = M + 1)
    (hsome : ∀ i, i ≤ M → (rd node.children i).isSome = true)
    (hi : index ≤ M) (hc : child.isSome = true) :
    (∀ i, i < mn → rd (node_split M mn junk index node child value).1.children i =
      ins (rd node.children) index child i) ∧
    rd (node_split M mn junk index node child value).1.children mn =
      ins (rd node.children) index child (mn + 1) ∧
    rd (node_split M mn junk index node child value).2.1.children 0 =
      ins (rd node.children) index child mn ∧
    (∀ i, 1 ≤ i → i ≤ M - mn → rd (node_split M mn junk index node child value).2.1.children i =
      ins (rd node.children) index child (i + mn + 1)) := by
  have hnone : ∀ i, M < i → rd node.children i = none :=
    fun i hi' => rd_of_length_le _ _ (by omega)
  have hnew0 : ∀ x, rd (List.replicate (M + 1) (none : Option Nat)) x = none := rd_replicate _
  by_cases hcase : index ≤ mn
  · have hm : (if index > mn then mn + 1 else mn) = mn := by rw [if_neg (by omega)]
    simp only [node_split, hm, if_pos hcase]
    have hmove := length_node_split_move (α := α) mn (M - mn) (mn + 1) node
      { junk with values := List.replicate (M + 1) none, children := List.replicate (M + 1) none }
    have hleft := rd_node_split_move_left (α := α) mn (M - mn) (mn + 1) node
      { junk with values := List.replicate (M + 1) none, children := List.replicate (M + 1) none }
    have hright := rd_node_split_move_right (α := α) mn (M - mn) (mn + 1) node
      { junk with values := List.replicate (M + 1) none, children := List.replicate (M + 1) none }
    simp only [List.length_replicate] at hmove hright
    simp only [size_node_add, Int.add_sub_cancel, Int.toNat_natCast, Int.toNat_ofNat]
    generalize node_split_move mn (M - mn) (mn + 1) node
      { junk with values := List.replicate (M + 1) none, children := List.replicate (M + 1) none }
      = mv at hmove hleft hright ⊢
    have hre : reorderValues M mv.1.children 0 = mv.1.children :=
      reorderValues_packed M mv.1.children 0 (mn + 1) (by omega) (by omega)
        (fun x hx1 hx2 => by rw [hleft x, if_neg (by omega)]; exact hsome x (by omega))
        (fun x hx => by
          rw [hleft x]
          split_ifs
          · rfl
          · exact hnone x (by omega))
    rw [hre]
    have hk1 : Kids (fun q => q.isSome = true) M mn mv.1.children :=
      ⟨by rw [hmove.1, hl],
        fun x hx => by rw [hleft x, if_neg (by omega)]; exact hsome x (by omega),
        fun x hx => by
          rw [hleft x]
          split_ifs
          · rfl
          · exact hnone x (by omega)⟩
    have k3 := node_add_kids (fun q => q.isSome = true) M index mn
      { values := reorderValues M mv.1.values 1, children := mv.1.children, size := (mn : Int),
        isLeaf := mv.1.isLeaf } child value hk1 rfl h2 hcase hc
    have hadd := rd_node_add_children M index
      { values := reorderValues M mv.1.values 1, children := mv.1.children, size := (mn : Int),
        isLeaf := mv.1.isLeaf } child value mn rfl hcase (by rw [hmove.1, hl]; omega)
    generalize (node_add M index
      { values := reorderValues M mv.1.values 1, children := mv.1.children, size := (mn : Int),
        isLeaf := mv.1.isLeaf } child value).children = cs3 at k3 hadd ⊢
    obtain ⟨t1, t2⟩ := node_split_tail_rd M mn h2 cs3 mv.2.children k3.1 k3.2.1 k3.2.2 hmove.2
    have hcs3 : ∀ i, i ≤ mn + 1 → rd cs3 i = ins (rd node.children) index child i := by
      intro i hi'
      rw [hadd i]
      unfold ins
      split_ifs
      all_goals first
        | rfl
        | (exfalso; omega)
        | (rw [hleft (i - 1), if_neg (by omega)])
        | (rw [hleft i, if_neg (by omega)])
    refine ⟨?_, ?_, ?_, ?_⟩
    · intro i hi'
      rw [t1 i, if_pos hi']
      exact hcs3 i (by omega)
    · rw [t1 mn, if_neg (by omega), if_pos rfl]
      exact hcs3 _ (Nat.le_refl _)
    · rw [t2 0, if_pos rfl]
      exact hcs3 _ (by omega)
    · intro i hi1 hi2
      rw [t2 i, if_neg (by omega), hright i (by omega) (by omega), if_pos (by omega)]
      unfold ins
      rw [if_neg (by omega), if_pos (by omega)]
      congr 1
  · have hm : (if index > mn then mn + 1 else mn) = mn + 1 := by rw [if_pos (by omega)]
    simp only [node_split, hm, if_neg hcase]
    have hmove := length_node_split_move (α := α) (mn + 1) (M - (mn + 1)) (mn + 1 + 1) node
      { junk with values := List.replicate (M + 1) none, children := List.replicate (M + 1) none }
    have hleft := rd_node_split_move_left (α := α) (mn + 1) (M - (mn + 1)) (mn + 1 + 1) node
      { junk with values := List.replicate (M + 1) none, children := List.replicate (M + 1) none }
    have hright := rd_node_split_move_right (α := α) (mn + 1) (M - (mn + 1)) (mn + 1 + 1) node
      { junk with values := List.replicate (M + 1) none, children := List.replicate (M + 1) none }
    simp only [List.length_replicate] at hmove hright
    generalize node_split_move (mn + 1) (M - (mn + 1)) (mn + 1 + 1) node
      { junk with values := List.replicate (M + 1) none, children := List.replicate (M + 1) none }
      = mv at hmove hleft hright ⊢
    have hre : reorderValues M mv.1.children 0 = mv.1.children :=
      reorderValues_packed M mv.1.children 0 (mn + 2) (by omega) (by omega)
        (fun x hx1 hx2 => by rw [hleft x, if_neg (by omega)]; exact hsome x (by omega))
        (fun x hx => by
          rw [hleft x]
          split_ifs
          · rfl
          · exact hnone x (by omega))
    rw [hre]
    have hs1 : ((M : Int) - ((mn + 1 : Nat) : Int)) = ((M - mn - 1 : Nat) : Int) := by omega
    have hadd := rd_node_add_children M (index - (mn + 1))
      { values := mv.2.values, children := mv.2.children,
        size := (M : Int) - ((mn + 1 : Nat) : Int), isLeaf := mv.2.isLeaf } child value
      (M - mn - 1) hs1 (by omega) (by rw [hmove.2]; omega)
    have hladd := length_node_add_children M (index - (mn + 1))
      { values := mv.2.values, children := mv.2.children,
        size := (M : Int) - ((mn + 1 : Nat) : Int), isLeaf := mv.2.isLeaf } child value
    have hsz3 : (((mn + 1 : Nat) : Int) - 1).toNat = mn := by omega
    simp only [hsz3]
    generalize (node_add M (index - (mn + 1))
      { values := mv.2.values, children := mv.2.children,
        size := (M : Int) - ((mn + 1 : Nat) : Int), isLeaf := mv.2.isLeaf } child value).children
      = cs2 at hadd hladd ⊢
    obtain ⟨t1, t2⟩ := node_split_tail_rd M mn h2 mv.1.children cs2 (by rw [hmove.1, hl])
      (fun x hx => by rw [hleft x, if_neg (by omega)]; exact hsome x (by omega))
      (fun x hx => by
        rw [hleft x]
        split_ifs
        · rfl
        · exact hnone x (by omega))
      (by rw [hladd]; exact hmove.2)
    have hcs3 : ∀ i, i ≤ mn + 1 → rd mv.1.children i = ins (rd node.children) index child i := by
      intro i hi'
      rw [hleft i, if_neg (by omega)]
      unfold ins
      rw [if_neg (by omega), if_neg (by omega)]
    refine ⟨?_, ?_, ?_, ?_⟩
    · intro i hi'
      rw [t1 i, if_pos hi']
      exact hcs3 i (by omega)
    · rw [t1 mn, if_neg (by omega), if_pos rfl]
      exact hcs3 _ (Nat.le_refl _)
    · rw [t2 0, if_pos rfl]
      exact hcs3 _ (by omega)
    · intro i hi1 hi2
      rw [t2 i, if_neg (by omega), hadd i]
      unfold ins
      split_ifs
      all_goals first
        | rfl
        | (exfalso; omega)
        | (rw [hright (i - 1) (by omega) (by omega), if_pos (by omega)]; congr 1; omega)
        | (rw [hright i (by omega) (by omega), if_pos (by omega)]; congr 1)

end ValueLemmas

section HasLemmas

variable {α : Type}

theorem ins_new {β : Type} (old : Nat → β) (index : Nat) (new : β) :
    ins old index new (index + 1) = new := by
  unfold ins
  rw [if_pos rfl]

theorem ins_old {β : Type} (old : Nat → β) (index : Nat) (new : β) (i : Nat) :
    ∃ m, i ≤ m ∧ m ≤ i + 1 ∧ ins old index new m = old i := by
  by_cases hi : i ≤ index
  · refine ⟨i, Nat.le_refl _, by omega, ?_⟩
    unfold ins
    rw [if_neg (by omega), if_neg (by omega)]
  · refine ⟨i + 1, by omega, Nat.le_refl _, ?_⟩
    unfold ins
    rw [if_neg (by omega), if_pos (by omega)]
    rfl

theorem ins_cases {β : Type} (old : Nat → β) (index : Nat) (new : β) (m : Nat) :
    ins old index new m = new ∨ (ins old index new m = old (m - 1) ∧ index + 1 < m) ∨
      (ins old index new m = old m ∧ m ≤ index) := by
  unfold ins
  split_ifs
  · exact Or.inl rfl
  · exact Or.inr (Or.inl ⟨rfl, by omega⟩)
  · exact Or.inr (Or.inr ⟨rfl, by omega⟩)

theorem Bal.isSome_of_pos {M lo : Nat} {h : List (BTreeNode α)} {b d : Nat} {p : Option Nat}
    (hd : 0 < d) (hb : Bal M lo h b d p) : p.isSome = true := by
  obtain ⟨e, rfl⟩ : ∃ e, d = e + 1 := ⟨d - 1, by omega⟩
  exact hb.isSome

theorem Has.pos {h : List (BTreeNode α)} {d : Nat} {p : Option Nat} {k : α}
    (hh : Has h d p k) : 0 < d := by
  cases d with
  | zero => exact hh.elim
  | succ d => omega

theorem node_set_value_pos_ge (cmp : Compare α) (v : Option α) (vs : List (Option α)) :
    ∀ n, 1 ≤ n → 1 ≤ node_set_value_pos cmp v vs n := by
  intro n
  induction n with
  | zero => intro h; omega
  | succ n ih =>
    intro _
    simp only [node_set_value_pos]
    split
    · rename_i hc
      exact ih (by omega)
    · omega

theorem Has.of_slot {h : List (BTreeNode α)} {d a i : Nat} {k : α} (h1 : 1 ≤ i)
    (h2 : (i : Int) ≤ (deref h a).size) (h3 : rd (deref h a).values i = some k) :
    Has h (d + 1) (some a) k :=
  ⟨a, rfl, Or.inl ⟨i, h1, h2, h3⟩⟩

theorem Has.of_child {h : List (BTreeNode α)} {d a i : Nat} {k : α}
    (h2 : (i : Int) ≤ (deref h a).size) (h3 : Has h d (rd (deref h a).children i) k) :
    Has h (d + 1) (some a) k :=
  ⟨a, rfl, Or.inr ⟨i, h2, h3⟩⟩

/-- A heap that agrees with `h` on keys, children and sizes of the nodes of
height at most `d` holds the keys of the balanced subtrees of height at most `d`. -/
theorem Has.congr_heap {M lo : Nat} {h h' : List (BTreeNode α)} {k : α} :
    ∀ {d b : Nat} {p : Option Nat},
      (∀ x e b', x < h.length → e ≤ d → Bal M lo h b' e (some x) →
        (deref h' x).values = (deref h x).values ∧
        (deref h' x).children = (deref h x).children ∧ (deref h' x).size = (deref h x).size) →
      Bal M lo h b d p → Has h d p k → Has h' d p k := by
  intro d
  induction d with
  | zero => intro b p _ _ hh; exact hh
  | succ d ih =>
    intro b p hag hb hh
    have hx := hb
    obtain ⟨a, s, rfl, h1, h2, h3, h4, h5, h6, h7, h8⟩ := hb
    obtain ⟨e1, e2, e3⟩ := hag a (d + 1) b h1 (Nat.le_refl _) hx
    obtain ⟨a', ha', hh⟩ := hh
    cases ha'
    rcases hh with ⟨i, hi1, hi2, hi3⟩ | ⟨i, hi2, hi3⟩
    · exact Has.of_slot hi1 (by rw [e3]; exact hi2) (by rw [e1]; exact hi3)
    · refine Has.of_child (i := i) (by rw [e3]; exact hi2) ?_
      rw [e2]
      have his : i ≤ s := by rw [h2] at hi2; exact_mod_cast hi2
      exact ih (fun x e b' hx he hb' => hag x e b' hx (by omega) hb') (h7 i his) hi3

theorem Has.below_store {M lo : Nat} {h : List (BTreeNode α)} (l : List (BTreeNode α))
    {a da b0 : Nat} (n : BTreeNode α) (ha : Bal M lo h b0 da (some a)) {d b : Nat}
    {p : Option Nat} {k : α} (hd : d < da) (hb : Bal M lo h b d p) (hh : Has h d p k) :
    Has (store h a n ++ l) d p k := by
  refine Has.congr_heap ?_ hb hh
  intro x e b' hx he hxb
  have hne : x ≠ a := by
    intro hxa
    subst hxa
    have := Bal.depth_unique hxb ha
    omega
  rw [deref_update_ne h l a x n hx hne]
  exact ⟨rfl, rfl, rfl⟩

theorem deref_of_length_le (h : List (BTreeNode α)) (x : Nat) (hx : h.length ≤ x) :
    deref h x = ⟨[], [], 0, false⟩ := by
  unfold deref
  simp [List.getD_eq_getElem?_getD, List.getElem?_eq_none hx]

theorem store_deref_self (h : List (BTreeNode α)) (a : Nat) : store h a (deref h a) = h := by
  unfold store deref
  apply List.ext_getElem?
  intro i
  rw [List.getElem?_set]
  split_ifs with h1 h2
  · subst h1
    simp [List.getD_eq_getElem?_getD, List.getElem?_eq_getElem h2]
  · subst h1
    simp [List.getElem?_eq_none (Nat.le_of_not_lt h2)]
  · rfl

theorem deref_update_cases (h l : List (BTreeNode α)) (a x : Nat) (n : BTreeNode α)
    (ha : a < h.length) (hx : x < (store h a n ++ l).length) :
    (x = a ∧ deref (store h a n ++ l) x = n) ∨
    (x < h.length ∧ x ≠ a ∧ deref (store h a n ++ l) x = deref h x) ∨
    deref (store h a n ++ l) x ∈ l := by
  by_cases hxl : x < h.length
  · by_cases hxa : x = a
    · subst hxa
      exact Or.inl ⟨rfl, deref_update_eq h l x n ha⟩
    · exact Or.inr (Or.inl ⟨hxl, hxa, deref_update_ne h l a x n hxl hxa⟩)
  · right; right
    have hl1 : (store h a n).length ≤ x := by rw [length_store]; omega
    have hl2 : x - (store h a n).length < l.length := by
      simp only [List.length_append] at hx
      omega
    unfold deref
    rw [List.getD_eq_getElem?_getD, List.getElem?_append_right hl1,
      List.getElem?_eq_getElem hl2]
    exact List.getElem_mem _

theorem Vals.store_append {M : Nat} {h : List (BTreeNode α)} (l : List (BTreeNode α)) {a : Nat}
    (n : BTreeNode α) (hV : Vals M h) (ha : a < h.length)
    (hn : ∃ s : Nat, n.size = (s : Int) ∧ Packed M s n.values)
    (hl : ∀ y, y ∈ l → ∃ s : Nat, y.size = (s : Int) ∧ Packed M s y.values) :
    Vals M (store h a n ++ l) := by
  intro x hx
  rcases deref_update_cases h l a x n ha hx with ⟨_, e⟩ | ⟨hxl, _, e⟩ | hmem
  · rw [e]; exact hn
  · rw [e]; exact hV x hxl
  · exact hl _ hmem

theorem KeysFrom.store_keys {h : List (BTreeNode α)} (l : List (BTreeNode α)) {a : Nat}
    (n : BTreeNode α) {S : α → Prop} (hK : KeysFrom h S) (ha : a < h.length)
    (hn : ∀ i k, rd n.values i = some k → S k)
    (hl : ∀ y, y ∈ l → ∀ i k, rd y.values i = some k → S k) :
    KeysFrom (store h a n ++ l) S := by
  intro x i k hx hk
  rcases deref_update_cases h l a x n ha hx with ⟨_, e⟩ | ⟨hxl, _, e⟩ | hmem
  · rw [e] at hk; exact hn i k hk
  · rw [e] at hk; exact hK x i k hxl hk
  · exact hl _ hmem i k hk

end HasLemmas

section InsertKeys

variable {α : Type}

theorem node_set_value_keys (cmp : Compare α) (M mn lo : Nat) (junk : BTreeNode α)
    (h1 : 1 ≤ mn) (h2 : mn < M) (hlo1 : lo ≤ mn) (hlo2 : lo ≤ M - mn) :
    ∀ d fuel (t : BTree α) p child (v : α) pValue b r, b ≤ lo → Bal M lo t.heap b d p →
      d < fuel → Vals M t.heap →
      node_set_value cmp M mn junk fuel t p child (some v) pValue = some r →
      Vals M r.tree.heap ∧
      (r.ret = true → r.pValue.isSome = true) ∧
      (∀ S : α → Prop, KeysFrom t.heap S → S v →
        KeysFrom r.tree.heap S ∧ (r.ret = true → ∀ k, r.pValue = some k → S k)) ∧
      (∃ k', (k' = v ∨ cmp (some v) (some k') = 0) ∧ (Has r.tree.heap d p k' ∨ Pend r d k')) ∧
      (∀ q k, Bal M lo t.heap 0 d q → Has t.heap d q k →
        Has r.tree.heap d q k ∨ Has r.tree.heap d p k ∨ Pend r d k) := by
  intro d
  induction d with
  | zero =>
    intro fuel t p child v pValue b r _ hbal hf hvals hn
    have hp := (Bal.zero_iff ..).1 hbal
    subst hp
    obtain ⟨f, rfl⟩ : ∃ f, fuel = f + 1 := ⟨fuel - 1, by omega⟩
    simp only [node_set_value, Option.some.injEq] at hn
    subst hn
    refine ⟨hvals, fun _ => rfl, fun S hS hv => ⟨hS, fun _ k hk => ?_⟩,
      ⟨v, Or.inl rfl, Or.inr ⟨rfl, Or.inl rfl⟩⟩, fun q k _ hh => hh.elim⟩
    cases hk
    exact hv
  | succ d ih =>
    intro fuel t p child v pValue b r hb hbal hf hvals hn
    obtain ⟨f, rfl⟩ : ∃ f, fuel = f + 1 := ⟨fuel - 1, by omega⟩
    have hx := hbal
    obtain ⟨a, s, rfl, ha, hs, hbs, hs1, hsM, hcl, hkid, hnone⟩ := hbal
    have hsn : (deref t.heap a).size.toNat = s := by rw [hs]; exact Int.toNat_natCast s
    obtain ⟨s', hs', hpk⟩ := hvals a ha
    have hss : s' = s := by rw [hs] at hs'; exact_mod_cast hs'.symm
    subst hss
    obtain ⟨pos, hpos, hposle, hpos1⟩ : ∃ pos,
        (if cmp (some v) (rd (deref t.heap a).values 1) < 0 then 0
          else node_set_value_pos cmp (some v) (deref t.heap a).values
            (deref t.heap a).size.toNat) = pos ∧ pos ≤ s' ∧
        (¬ cmp (some v) (rd (deref t.heap a).values 1) < 0 → 1 ≤ pos) := by
      refine ⟨_, rfl, ?_, ?_⟩
      · split
        · omega
        · rw [hsn]; exact node_set_value_pos_le _ _ _ _
      · intro hc
        rw [if_neg hc, hsn]
        exact node_set_value_pos_ge _ _ _ _ hs1
    simp only [node_set_value, hpos] at hn
    split at hn
    · rename_i hdup
      simp only [Option.some.injEq] at hn
      subst hn
      obtain ⟨k', hk'⟩ := Option.isSome_iff_exists.1 (hpk.2.2.1 pos (hpos1 hdup.1) hposle)
      refine ⟨hvals, fun h => by simp at h, fun S hS _ => ⟨hS, fun h => by simp at h⟩,
        ⟨k', Or.inr (by rw [← hk']; exact hdup.2),
          Or.inl (Has.of_slot (hpos1 hdup.1) (by rw [hs]; exact_mod_cast hposle) hk')⟩,
        fun q k _ hh => Or.inl hh⟩
    · obtain ⟨r1, hr1, hroot, hdes, hfr, hlen, hkeep, hframe, hret⟩ :=
        node_set_value_bal cmp M mn lo junk h1 h2 hlo1 hlo2 d f t
          (rd (deref t.heap a).children pos) child (some v) pValue lo (Nat.le_refl _)
          (hkid pos hposle) (by omega)
      obtain ⟨V1, P1, U1, E1, J1⟩ := ih f t _ child v pValue lo r1 (Nat.le_refl _)
        (hkid pos hposle) (by omega) hvals hr1
      simp only [hr1] at hn
      have hnode1 : deref r1.tree.heap a = deref t.heap a :=
        hframe a ha (fun e b' hb' => by have := Bal.depth_unique hb' hx; omega)
      have hx1 : Bal M lo r1.tree.heap b (d + 1) (some a) := hkeep _ _ _ hb hx
      have ha1 : a < r1.tree.heap.length := by omega
      have jgen : ∀ (H2 : List (BTreeNode α)) (G : α → Prop),
          (∀ x, x < t.heap.length → x ≠ a → Bal M lo t.heap 0 (d + 1) (some x) →
            deref H2 x = deref t.heap x) →
          (∀ c k, Bal M lo r1.tree.heap lo d c → Has r1.tree.heap d c k → Has H2 d c k) →
          (∀ i k, 1 ≤ i → i ≤ s' → rd (deref t.heap a).values i = some k → G k) →
          (∀ j k, j ≤ s' → Has r1.tree.heap d (rd (deref t.heap a).children j) k → G k) →
          (∀ k, Pend r1 d k → G k) →
          (∃ k', (k' = v ∨ cmp (some v) (some k') = 0) ∧ G k') ∧
          (∀ q k, Bal M lo t.heap 0 (d + 1) q → Has t.heap (d + 1) q k →
            Has H2 (d + 1) q k ∨ G k) := by
        intro H2 G fr lift ab1 ab2 ab3
        constructor
        · obtain ⟨k', hk1, hk2⟩ := E1
          refine ⟨k', hk1, ?_⟩
          rcases hk2 with hk2 | hk2
          · exact ab2 pos k' hposle hk2
          · exact ab3 k' hk2
        · intro q k hq hh
          have hqx := hq
          obtain ⟨x, sx, rfl, hxl, hsx, _, _, _, _, hkx, _⟩ := hq
          obtain ⟨x', hx', hh⟩ := hh
          cases hx'
          have hj : ∀ j, j ≤ sx → Has t.heap d (rd (deref t.heap x).children j) k →
              Has r1.tree.heap d (rd (deref t.heap x).children j) k ∨ G k := by
            intro j hj hhj
            rcases J1 _ k (Bal.weaken (Nat.zero_le _) (hkx j hj)) hhj with h3 | h3 | h3
            · exact Or.inl h3
            · exact Or.inr (ab2 pos k hposle h3)
            · exact Or.inr (ab3 k h3)
          by_cases hxa : x = a
          · subst hxa
            have hsxs : sx = s' := by rw [hs] at hsx; exact_mod_cast hsx.symm
            subst hsxs
            right
            rcases hh with ⟨i, hi1, hi2, hi3⟩ | ⟨j, hj2, hj3⟩
            · exact ab1 i k hi1 (by rw [hs] at hi2; exact_mod_cast hi2) hi3
            · have hjs : j ≤ sx := by rw [hs] at hj2; exact_mod_cast hj2
              rcases hj j hjs hj3 with h3 | h3
              · exact ab2 j k hjs h3
              · exact h3
          · have e := fr x hxl hxa hqx
            rcases hh with ⟨i, hi1, hi2, hi3⟩ | ⟨j, hj2, hj3⟩
            · exact Or.inl (Has.of_slot hi1 (by rw [e]; exact hi2) (by rw [e]; exact hi3))
            · have hjs : j ≤ sx := by rw [hsx] at hj2; exact_mod_cast hj2
              rcases hj j hjs hj3 with h3 | h3
              · refine Or.inl (Has.of_child (i := j) (by rw [e]; exact hj2) ?_)
                rw [e]
                exact lift _ k (hkeep _ _ _ (Nat.le_refl _) (hkx j hjs)) h3
              · exact Or.inr h3
      have hfr2 : ∀ (n : BTreeNode α) (l : List (BTreeNode α)) x, x < t.heap.length → x ≠ a →
          Bal M lo t.heap 0 (d + 1) (some x) →
          deref (store r1.tree.heap a n ++ l) x = deref t.heap x := by
        intro n l x hxl hxa hqx
        rw [deref_update_ne _ _ _ _ _ (by omega) hxa]
        exact hframe x hxl (fun e b' hb' => by have := Bal.depth_unique hb' hqx; omega)
      have hlift2 : ∀ (n : BTreeNode α) (l : List (BTreeNode α)) c k,
          Bal M lo r1.tree.heap lo d c → Has r1.tree.heap d c k →
          Has (store r1.tree.heap a n ++ l) d c k :=
        fun n l c k hc hh => Has.below_store l n hx1 (Nat.lt_succ_self d) hc hh
      by_cases hr : r1.ret = true
      · simp only [hr, if_true, hnode1] at hn
        have hPchild : Bal M lo r1.tree.heap lo d r1.child := by
          rcases hret hr with ⟨hd0, hc, _⟩ | ⟨_, _, hc⟩
          · subst hd0; rw [hc]; exact (Bal.zero_iff ..).2 rfl
          · exact hc
        have hpv := P1 hr
        have hBalIns : ∀ m, m ≤ s' + 1 → Bal M lo r1.tree.heap lo d
            (ins (rd (deref t.heap a).children) pos r1.child m) := by
          intro m hm
          rcases ins_cases (rd (deref t.heap a).children) pos r1.child m with e | ⟨e, he⟩ | ⟨e, he⟩
          · rw [e]; exact hPchild
          · rw [e]; exact hkeep _ _ _ (Nat.le_refl _) (hkid (m - 1) (by omega))
          · rw [e]; exact hkeep _ _ _ (Nat.le_refl _) (hkid m (by omega))
        have jins : ∀ (H2 : List (BTreeNode α)) (G : α → Prop),
            (∀ x, x < t.heap.length → x ≠ a → Bal M lo t.heap 0 (d + 1) (some x) →
              deref H2 x = deref t.heap x) →
            (∀ c k, Bal M lo r1.tree.heap lo d c → Has r1.tree.heap d c k → Has H2 d c k) →
            (∀ m k, 1 ≤ m → m ≤ s' + 1 →
              ins (rd (deref t.heap a).values) pos r1.pValue m = some k → G k) →
            (∀ m k, m ≤ s' + 1 →
              Has H2 d (ins (rd (deref t.heap a).children) pos r1.child m) k → G k) →
            (∃ k', (k' = v ∨ cmp (some v) (some k') = 0) ∧ G k') ∧
            (∀ q k, Bal M lo t.heap 0 (d + 1) q → Has t.heap (d + 1) q k →
              Has H2 (d + 1) q k ∨ G k) := by
          intro H2 G fr lift covV covC
          refine jgen H2 G fr lift ?_ ?_ ?_
          · intro i k hi1 hi2 hi3
            obtain ⟨m, hm1, hm2, hm⟩ := ins_old (rd (deref t.heap a).values) pos r1.pValue i
            exact covV m k (by omega) (by omega) (by rw [hm]; exact hi3)
          · intro j k hj hh
            obtain ⟨m, hm1, hm2, hm⟩ := ins_old (rd (deref t.heap a).children) pos r1.child j
            refine covC m k (by omega) ?_
            rw [hm]
            exact lift _ k (hkeep _ _ _ (Nat.le_refl _) (hkid j hj)) hh
          · intro k hk
            rcases hk.2 with hk | hk
            · exact covV (pos + 1) k (by omega) (by omega) (by rw [ins_new]; exact hk)
            · refine covC (pos + 1) k (by omega) ?_
              rw [ins_new]
              exact lift _ k hPchild hk
        have hUv : ∀ S : α → Prop, KeysFrom t.heap S → S v → ∀ m k,
            ins (rd (deref t.heap a).values) pos r1.pValue m = some k → S k := by
          intro S hS hv m k hk
          rcases ins_cases (rd (deref t.heap a).values) pos r1.pValue m with e | ⟨e, _⟩ | ⟨e, _⟩
          · rw [e] at hk; exact (U1 S hS hv).2 hr k hk
          · rw [e] at hk; exact hS a _ k ha hk
          · rw [e] at hk; exact hS a _ k ha hk
        by_cases hlt : (deref t.heap a).size < (M : Int)
        · simp only [hlt, if_true, Option.some.injEq] at hn
          subst hn
          have hsltM : s' < M := by rw [hs] at hlt; exact_mod_cast hlt
          obtain ⟨hAp, hAv⟩ := node_add_packed M pos s' (deref t.heap a) r1.child r1.pValue hpk hs
            hsltM hposle hpv
          have hAc := rd_node_add_children M pos (deref t.heap a) r1.child r1.pValue s' hs hposle
            (by omega)
          have hAcins : ∀ i, i ≤ s' + 1 →
              rd (node_add M pos (deref t.heap a) r1.child r1.pValue).children i =
                ins (rd (deref t.heap a).children) pos r1.child i := by
            intro i hi
            rw [hAc i]
            unfold ins
            split_ifs
            all_goals first
              | rfl
              | (exfalso; omega)
          have hAsz : (node_add M pos (deref t.heap a) r1.child r1.pValue).size =
              ((s' + 1 : Nat) : Int) := by
            rw [size_node_add, hs]; push_cast; rfl
          generalize node_add M pos (deref t.heap a) r1.child r1.pValue = A
            at hAp hAv hAc hAcins hAsz ⊢
          have e : store r1.tree.heap a A = store r1.tree.heap a A ++ [] :=
            (List.append_nil _).symm
          have hda : deref (store r1.tree.heap a A ++ []) a = A := deref_update_eq _ _ _ _ ha1
          dsimp only
          rw [e]
          obtain ⟨hE, hJ⟩ := jins (store r1.tree.heap a A ++ [])
            (fun k => Has (store r1.tree.heap a A ++ []) (d + 1) (some a) k ∨
              Pend ⟨false, { r1.tree with heap := store r1.tree.heap a A ++ [] }, r1.child,
                r1.pValue⟩ (d + 1) k)
            (hfr2 A []) (hlift2 A [])
            (fun m k hm1 hm2 hk => Or.inl (Has.of_slot hm1
              (by rw [hda, hAsz]; exact_mod_cast hm2) (by rw [hda, hAv m]; exact hk)))
            (fun m k hm hh => Or.inl (Has.of_child (i := m)
              (by rw [hda, hAsz]; exact_mod_cast hm) (by rw [hda, hAcins m hm]; exact hh)))
          refine ⟨Vals.store_append [] A V1 ha1 ⟨s' + 1, hAsz, hAp⟩ (by simp), fun h => by simp at h,
            fun S hS hv => ⟨KeysFrom.store_keys [] A (U1 S hS hv).1 ha1
              (fun i k hk => hUv S hS hv i k (by rw [← hAv i]; exact hk)) (by simp),
              fun h => by simp at h⟩, hE, hJ⟩
        · simp only [hlt, if_false, Option.some.injEq] at hn
          subst hn
          have hsM' : s' = M := by
            rw [hs] at hlt
            have : ¬ s' < M := by exact_mod_cast hlt
            omega
          have hposM : pos ≤ M := by omega
          have hkids1 : Kids (Bal M lo r1.tree.heap lo d) M s' (deref t.heap a).children :=
            ⟨hcl, fun i hi => hkeep _ _ _ (Nat.le_refl _) (hkid i hi), hnone⟩
          have hkidsM : Kids (Bal M lo r1.tree.heap lo d) M M (deref t.heap a).children :=
            hsM' ▸ hkids1
          have hpkM : Packed M M (deref t.heap a).values := by
            have := hpk
            rwa [hsM'] at this
          have hP : (∀ q, Bal M lo r1.tree.heap lo d q → q = none) ∨
              (∀ q, Bal M lo r1.tree.heap lo d q → q.isSome = true) := by
            cases d with
            | zero => exact Or.inl (fun q hq => (Bal.zero_iff ..).1 hq)
            | succ d => exact Or.inr (fun q hq => hq.isSome)
          obtain ⟨_, sl, _, sr⟩ := node_split_kids _ hP M mn h1 h2 junk (deref t.heap a) pos
            r1.child r1.pValue hkidsM hposM hPchild
          obtain ⟨hp1, hp2, hv1, hpvv, hv2⟩ := node_split_values M mn h1 h2 junk (deref t.heap a)
            pos r1.child r1.pValue hpkM hposM hpv
          have hch := fun (hd : 0 < d) => node_split_children M mn h1 h2 junk (deref t.heap a) pos
            r1.child r1.pValue hcl
            (fun i hi => Bal.isSome_of_pos hd (hkid i (by omega))) hposM
            (Bal.isSome_of_pos hd hPchild)
          generalize node_split M mn junk pos (deref t.heap a) r1.child r1.pValue = sp
            at sl sr hp1 hp2 hv1 hpvv hv2 hch ⊢
          have hda : deref (store r1.tree.heap a sp.1 ++ [sp.2.1]) a = sp.1 :=
            deref_update_eq _ _ _ _ ha1
          have hnew : deref (store r1.tree.heap a sp.1 ++ [sp.2.1]) r1.tree.heap.length
              = sp.2.1 := by
            have := deref_append_length (store r1.tree.heap a sp.1) sp.2.1
            rwa [length_store] at this
          dsimp only
          obtain ⟨hE, hJ⟩ := jins (store r1.tree.heap a sp.1 ++ [sp.2.1])
            (fun k => Has (store r1.tree.heap a sp.1 ++ [sp.2.1]) (d + 1) (some a) k ∨
              Pend ⟨true, { r1.tree with heap := store r1.tree.heap a sp.1 ++ [sp.2.1],
                                         size := r1.tree.size + 1 },
                some r1.tree.heap.length, sp.2.2⟩ (d + 1) k)
            (hfr2 sp.1 [sp.2.1]) (hlift2 sp.1 [sp.2.1])
            (by
              intro m k hm1 hm2 hk
              by_cases c1 : m ≤ mn
              · exact Or.inl (Has.of_slot hm1 (by rw [hda, sl]; exact_mod_cast c1)
                  (by rw [hda, hv1 m hm1 c1]; exact hk))
              · by_cases c2 : m = mn + 1
                · subst c2
                  exact Or.inr ⟨rfl, Or.inl (by rw [← hk]; exact hpvv)⟩
                · have e1 : m - mn - 1 + mn + 1 = m := by omega
                  have := hv2 (m - mn - 1) (by omega) (by omega)
                  rw [e1, hk] at this
                  exact Or.inr ⟨rfl, Or.inr (Has.of_slot (i := m - mn - 1) (by omega)
                    (by rw [hnew, sr]; exact_mod_cast (by omega : m - mn - 1 ≤ M - mn))
                    (by rw [hnew]; exact this))⟩)
            (by
              intro m k hm hh
              obtain ⟨c1, c2, c3, c4⟩ := hch hh.pos
              by_cases d1 : m < mn
              · exact Or.inl (Has.of_child (i := m) (by rw [hda, sl]; exact_mod_cast (by omega : m ≤ mn))
                  (by rw [hda, c1 m d1]; exact hh))
              · by_cases d2 : m = mn
                · subst d2
                  exact Or.inr ⟨rfl, Or.inr (Has.of_child (i := 0)
                    (by rw [hnew, sr]; exact_mod_cast (Nat.zero_le _))
                    (by rw [hnew, c3]; exact hh))⟩
                · by_cases d3 : m = mn + 1
                  · subst d3
                    exact Or.inl (Has.of_child (i := mn) (by rw [hda, sl])
                      (by rw [hda, c2]; exact hh))
                  · have e1 : m - mn - 1 + mn + 1 = m := by omega
                    have := c4 (m - mn - 1) (by omega) (by omega)
                    rw [e1] at this
                    exact Or.inr ⟨rfl, Or.inr (Has.of_child (i := m - mn - 1)
                      (by rw [hnew, sr]; exact_mod_cast (by omega : m - mn - 1 ≤ M - mn))
                      (by rw [hnew, this]; exact hh))⟩)
          have hKl : ∀ S : α → Prop, KeysFrom t.heap S → S v →
              ∀ i k, rd sp.1.values i = some k → S k := by
            intro S hS hv i k hk
            by_cases c : 1 ≤ i ∧ i ≤ mn
            · rw [hv1 i c.1 c.2] at hk
              exact hUv S hS hv _ k hk
            · exfalso
              by_cases c0 : i = 0
              · rw [c0, hp1.2.1] at hk; simp at hk
              · rw [hp1.2.2.2 i (by omega)] at hk; simp at hk
          have hKr : ∀ S : α → Prop, KeysFrom t.heap S → S v →
              ∀ i k, rd sp.2.1.values i = some k → S k := by
            intro S hS hv i k hk
            by_cases c : 1 ≤ i ∧ i ≤ M - mn
            · rw [hv2 i c.1 c.2] at hk
              exact hUv S hS hv _ k hk
            · exfalso
              by_cases c0 : i = 0
              · rw [c0, hp2.2.1] at hk; simp at hk
              · rw [hp2.2.2.2 i (by omega)] at hk; simp at hk
          refine ⟨Vals.store_append [sp.2.1] sp.1 V1 ha1 ⟨mn, sl, hp1⟩ ?_, fun _ => ?_,
            fun S hS hv => ⟨KeysFrom.store_keys [sp.2.1] sp.1 (U1 S hS hv).1 ha1 (hKl S hS hv) ?_,
              fun _ k hk => hUv S hS hv (mn + 1) k (by rw [← hpvv]; exact hk)⟩, hE, hJ⟩
          · intro y hy
            simp only [List.mem_singleton] at hy
            subst hy
            exact ⟨M - mn, sr, hp2⟩
          · show sp.2.2.isSome = true
            rw [hpvv]
            rcases ins_cases (rd (deref t.heap a).values) pos r1.pValue (mn + 1)
              with e | ⟨e, _⟩ | ⟨e, _⟩
            · rw [e]; exact hpv
            · rw [e]; exact hpk.2.2.1 _ (by omega) (by omega)
            · rw [e]; exact hpk.2.2.1 _ (by omega) (by omega)
          · intro y hy
            simp only [List.mem_singleton] at hy
            subst hy
            exact hKr S hS hv
      · simp only [hr, Bool.false_eq_true, if_false, Option.some.injEq] at hn
        subst hn
        dsimp only
        obtain ⟨hE, hJ⟩ := jgen r1.tree.heap
          (fun k => Has r1.tree.heap (d + 1) (some a) k ∨
            Pend ⟨false, r1.tree, r1.child, r1.pValue⟩ (d + 1) k)
          (fun x hxl hxa hqx => hframe x hxl
            (fun e b' hb' => by have := Bal.depth_unique hb' hqx; omega))
          (fun c k _ hh => hh)
          (fun i k hi1 hi2 hi3 => Or.inl (Has.of_slot hi1
            (by rw [hnode1, hs]; exact_mod_cast hi2) (by rw [hnode1]; exact hi3)))
          (fun j k hj hh => Or.inl (Has.of_child (i := j)
            (by rw [hnode1, hs]; exact_mod_cast hj) (by rw [hnode1]; exact hh)))
          (fun k hk => absurd hk.1 hr)
        exact ⟨V1, fun h => by simp at h, fun S hS hv => ⟨(U1 S hS hv).1, fun h => by simp at h⟩,
          hE, hJ⟩

end InsertKeys

section TreeKeys

variable {α : Type}

theorem Has.to_bal_depth {M lo : Nat} {h : List (BTreeNode α)} {k : α} :
    ∀ {d D b : Nat} {p : Option Nat}, Bal M lo h b D p → Has h d p k → Has h D p k := by
  intro d
  induction d with
  | zero => intro D b p _ hh; exact hh.elim
  | succ d ih =>
    intro D b p hb hh
    obtain ⟨a, rfl, hh⟩ := hh
    cases D with
    | zero => simp [Bal] at hb
    | succ D =>
      obtain ⟨a', s, ha', _, hs, _, _, _, _, hk, _⟩ := hb
      cases ha'
      rcases hh with ⟨i, hi1, hi2, hi3⟩ | ⟨i, hi2, hi3⟩
      · exact Has.of_slot hi1 hi2 hi3
      · have his : i ≤ s := by rw [hs] at hi2; exact_mod_cast hi2
        exact Has.of_child hi2 (ih (hk i his) hi3)

theorem Has.reach {M lo : Nat} {h : List (BTreeNode α)} {k : α} :
    ∀ {d D b : Nat} {p : Option Nat}, Bal M lo h b D p → Has h d p k →
      ∃ (a i : Nat), Reach M h p a ∧ 1 ≤ i ∧ (i : Int) ≤ (deref h a).size ∧
        rd (deref h a).values i = some k := by
  intro d
  induction d with
  | zero => intro D b p _ hh; exact hh.elim
  | succ d ih =>
    intro D b p hb hh
    obtain ⟨a, rfl, hh⟩ := hh
    cases D with
    | zero => simp [Bal] at hb
    | succ D =>
      obtain ⟨a', s, ha', _, hs, _, _, hsM, _, hk, _⟩ := hb
      cases ha'
      rcases hh with ⟨i, hi1, hi2, hi3⟩ | ⟨i, hi2, hi3⟩
      · exact ⟨a, i, Reach.root a, hi1, hi2, hi3⟩
      · have his : i ≤ s := by rw [hs] at hi2; exact_mod_cast hi2
        obtain ⟨x, j, hx, hj⟩ := ih (hk i his) hi3
        obtain ⟨c, hc⟩ : ∃ c, rd (deref h a).children i = some c := by
          cases d with
          | zero => exact hi3.elim
          | succ d =>
            obtain ⟨c, hc, _⟩ := hi3
            exact ⟨c, hc⟩
        rw [hc] at hx
        exact ⟨x, j, Reach.through (by omega : i ≤ M) hc hx, hj⟩

theorem Vals.of_same_fields {M : Nat} {h h' : List (BTreeNode α)} (hlen : h'.length = h.length)
    (hag : ∀ x, x < h.length → (deref h' x).values = (deref h x).values ∧
      (deref h' x).children = (deref h x).children ∧ (deref h' x).size = (deref h x).size)
    (hV : Vals M h) : Vals M h' := by
  intro x hx
  obtain ⟨e1, _, e3⟩ := hag x (by omega)
  rw [e1, e3]
  exact hV x (by omega)

theorem KeysFrom.of_equal_fields {h h' : List (BTreeNode α)} {S : α → Prop}
    (hlen : h'.length = h.length)
    (hag : ∀ x, x < h.length → (deref h' x).values = (deref h x).values ∧
      (deref h' x).children = (deref h x).children ∧ (deref h' x).size = (deref h x).size)
    (hK : KeysFrom h S) : KeysFrom h' S := by
  intro x i k hx hk
  rw [(hag x (by omega)).1] at hk
  exact hK x i k (by omega) hk

theorem KeysFrom.mono {h : List (BTreeNode α)} {S S' : α → Prop} (hS : ∀ k, S k → S' k)
    (hK : KeysFrom h S) : KeysFrom h S' :=
  fun x i k hx hk => hS k (hK x i k hx hk)

theorem Vals.append_node {M : Nat} {h : List (BTreeNode α)} (n : BTreeNode α) (hV : Vals M h)
    (hn : ∃ s : Nat, n.size = (s : Int) ∧ Packed M s n.values) : Vals M (h ++ [n]) := by
  intro x hx
  by_cases hxl : x < h.length
  · rw [deref_append_left _ _ _ hxl]; exact hV x hxl
  · have : x = h.length := by
      simp only [List.length_append, List.length_singleton] at hx
      omega
    rw [this, deref_append_length]
    exact hn

theorem KeysFrom.append_record {h : List (BTreeNode α)} (n : BTreeNode α) {S : α → Prop}
    (hK : KeysFrom h S) (hn : ∀ i k, rd n.values i = some k → S k) :
    KeysFrom (h ++ [n]) S := by
  intro x i k hx hk
  by_cases hxl : x < h.length
  · rw [deref_append_left _ _ _ hxl] at hk; exact hK x i k hxl hk
  · have : x = h.length := by
      simp only [List.length_append, List.length_singleton] at hx
      omega
    rw [this, deref_append_length] at hk
    exact hn i k hk

theorem btree_add_keys (cmp : Compare α) (M mn lo : Nat) (junk : BTreeNode α)
    (h1 : 1 ≤ mn) (h2 : mn < M) (hlo0 : 1 ≤ lo) (hlo1 : lo ≤ mn) (hlo2 : lo ≤ M - mn)
    (S : α → Prop) (t : BTree α) (d fuel : Nat) (hb : Bal M lo t.heap 1 d t.root)
    (hf : d < fuel) (hV : Vals M t.heap) (hK : KeysFrom t.heap S)
    (hH : ∀ x, S x → ∃ k', (k' = x ∨ cmp (some x) (some k') = 0) ∧
      ∃ e, Has t.heap e t.root k')
    (k : α) (t' : BTree α) (ht : btree_add cmp M mn junk fuel t k = some t') :
    Vals M t'.heap ∧ KeysFrom t'.heap (fun x => x = k ∨ S x) ∧
    ∀ x, (x = k ∨ S x) → ∃ k', (k' = x ∨ cmp (some x) (some k') = 0) ∧
      ∃ e, Has t'.heap e t'.root k' := by
  obtain ⟨r, hr, hroot, _, _, hlen, hkeep, _, hret⟩ :=
    node_set_value_bal cmp M mn lo junk h1 h2 hlo1 hlo2 d fuel t t.root none (some k) none 1
      hlo0 hb hf
  obtain ⟨V, P, U, E, J⟩ := node_set_value_keys cmp M mn lo junk h1 h2 hlo1 hlo2 d fuel t t.root
    none k none 1 r hlo0 hb hf hV hr
  obtain ⟨UK, UP⟩ := U (fun x => x = k ∨ S x) (KeysFrom.mono (fun _ h => Or.inr h) hK)
    (Or.inl rfl)
  have hpres : ∀ x, (x = k ∨ S x) → ∃ k', (k' = x ∨ cmp (some x) (some k') = 0) ∧
      (Has r.tree.heap d t.root k' ∨ Pend r d k') := by
    intro x hx
    rcases hx with rfl | hx
    · exact E
    · obtain ⟨k', hk1, e, hk2⟩ := hH x hx
      have h3 := Has.to_bal_depth hb hk2
      rcases J t.root k' (Bal.weaken (Nat.zero_le _) hb) h3 with h | h | h
      · exact ⟨k', hk1, Or.inl h⟩
      · exact ⟨k', hk1, Or.inl h⟩
      · exact ⟨k', hk1, Or.inr h⟩
  have hbr : Bal M lo r.tree.heap 1 d t.root := hkeep _ _ _ hlo0 hb
  have key : ∀ (ch : Option Nat) (t1 : BTree α), r.child = ch → t1.root = t.root →
      t1.heap.length = r.tree.heap.length →
      (∀ x, x < r.tree.heap.length → (deref t1.heap x).values = (deref r.tree.heap x).values ∧
        (deref t1.heap x).children = (deref r.tree.heap x).children ∧
        (deref t1.heap x).size = (deref r.tree.heap x).size) →
      (if r.ret = true then
          some { t1 with root := some (node_create M t1 ch r.pValue).2,
                         heap := (node_create M t1 ch r.pValue).1, size := t1.size + 1 }
        else some t1) = some t' →
      Vals M t'.heap ∧ KeysFrom t'.heap (fun x => x = k ∨ S x) ∧
      ∀ x, (x = k ∨ S x) → ∃ k', (k' = x ∨ cmp (some x) (some k') = 0) ∧
        ∃ e, Has t'.heap e t'.root k' := by
    intro ch t1 hch hroot1 hlen1 hag ht1
    subst hch
    by_cases hrt : r.ret = true
    · simp only [hrt, if_true, node_create, Option.some.injEq] at ht1
      subst ht1
      dsimp only
      have hag2 : ∀ (n : BTreeNode α) x, x < r.tree.heap.length →
          (deref (t1.heap ++ [n]) x).values = (deref r.tree.heap x).values ∧
          (deref (t1.heap ++ [n]) x).children = (deref r.tree.heap x).children ∧
          (deref (t1.heap ++ [n]) x).size = (deref r.tree.heap x).size := by
        intro n x hx
        rw [deref_append_left _ _ _ (by omega)]
        exact hag x hx
      have hrdv : ∀ i, rd (wr (List.replicate (M + 1) (none : Option α)) 1 r.pValue) i =
          if i = 1 then r.pValue else none := by
        intro i
        rw [rd_wr, List.length_replicate, rd_replicate]
        split_ifs
        all_goals first
          | rfl
          | (exfalso; omega)
      have hrdc : ∀ i, rd (wr (wr (List.replicate (M + 1) (none : Option Nat)) 0 t1.root) 1
          r.child) i = if i = 1 then r.child else if i = 0 then t1.root else none := by
        intro i
        rw [rd_wr, rd_wr, length_wr, List.length_replicate, rd_replicate]
        split_ifs
        all_goals first
          | rfl
          | (exfalso; omega)
      have hsz0 : ((0 : Nat) : Int) ≤ (1 : Int) := by decide
      have hsz1 : ((1 : Nat) : Int) ≤ (1 : Int) := by decide
      refine ⟨Vals.append_node _ (Vals.of_same_fields hlen1 hag V) ⟨1, rfl, ?_, ?_, ?_, ?_⟩,
        KeysFrom.append_record _ (KeysFrom.of_equal_fields hlen1 hag UK) ?_, ?_⟩
      · simp [length_wr]
      · rw [hrdv 0, if_neg (by omega)]
      · intro i hi1 hi2
        have : i = 1 := by omega
        rw [hrdv i, if_pos this]
        exact P hrt
      · intro i hi
        rw [hrdv i, if_neg (by omega)]
      · intro i x hx
        rw [hrdv i] at hx
        split_ifs at hx
        exact UP hrt x hx
      · intro x hx
        obtain ⟨k', hk1, hk2⟩ := hpres x hx
        refine ⟨k', hk1, d + 1, ?_⟩
        rcases hk2 with hk2 | ⟨_, hk2 | hk2⟩
        · refine Has.of_child (i := 0) ?_ ?_
          · rw [deref_append_length]; exact hsz0
          · rw [deref_append_length, hrdc 0, if_neg (by omega), if_pos rfl, hroot1]
            exact Has.congr_heap (fun y e b' hy _ _ => hag2 _ y hy) hbr hk2
        · refine Has.of_slot (i := 1) (Nat.le_refl _) ?_ ?_
          · rw [deref_append_length]; exact hsz1
          · rw [deref_append_length, hrdv 1, if_pos rfl]
            exact hk2
        · refine Has.of_child (i := 1) ?_ ?_
          · rw [deref_append_length]; exact hsz1
          · rw [deref_append_length, hrdc 1, if_pos rfl]
            rcases hret hrt with ⟨hd0, _, _⟩ | ⟨_, _, hc⟩
            · subst hd0; exact hk2.elim
            · exact Has.congr_heap (fun y e b' hy _ _ => hag2 _ y hy) hc hk2
    · simp only [hrt, Bool.false_eq_true, if_false, Option.some.injEq] at ht1
      subst ht1
      refine ⟨Vals.of_same_fields hlen1 hag V, KeysFrom.of_equal_fields hlen1 hag UK, ?_⟩
      intro x hx
      obtain ⟨k', hk1, hk2⟩ := hpres x hx
      refine ⟨k', hk1, d, ?_⟩
      rcases hk2 with hk2 | hk2
      · rw [hroot1]
        exact Has.congr_heap (fun y e b' hy _ _ => hag y hy) hbr hk2
      · exact absurd hk2.1 hrt
  simp only [btree_add, hr] at ht
  cases hch : r.child with
  | none =>
    simp only [hch] at ht
    exact key none r.tree hch hroot rfl (fun x _ => ⟨rfl, rfl, rfl⟩) ht
  | some c =>
    simp only [hch] at ht
    refine key (some c)
      ⟨r.tree.root, r.tree.size, store r.tree.heap c
        ⟨(deref r.tree.heap c).values, (deref r.tree.heap c).children, (deref r.tree.heap c).size,
          !(anyFrom (deref r.tree.heap c).children M 1)⟩, r.tree.destroyed, r.tree.freed⟩
      hch hroot (length_store _ _ _) ?_ ht
    intro x _
    dsimp only
    rw [deref_store]
    split_ifs with hc
    · rw [← hc.1]; exact ⟨rfl, rfl, rfl⟩
    · exact ⟨rfl, rfl, rfl⟩

theorem btree_add_all_keys (cmp : Compare α) (M mn lo : Nat) (junk : BTreeNode α)
    (h1 : 1 ≤ mn) (h2 : mn < M) (hlo0 : 1 ≤ lo) (hlo1 : lo ≤ mn) (hlo2 : lo ≤ M - mn)
    (fuel : Nat) :
    ∀ (keys : List α) (S : α → Prop) (t : BTree α) (d : Nat), Bal M lo t.heap 1 d t.root →
      d + keys.length < fuel → Vals M t.heap → KeysFrom t.heap S →
      (∀ x, S x → ∃ k', (k' = x ∨ cmp (some x) (some k') = 0) ∧
        ∃ e, Has t.heap e t.root k') →
      ∃ t' d', btree_add_all cmp M mn junk fuel t keys = some t' ∧
        Bal M lo t'.heap 1 d' t'.root ∧ Vals M t'.heap ∧
        KeysFrom t'.heap (fun x => x ∈ keys ∨ S x) ∧
        ∀ x, (x ∈ keys ∨ S x) → ∃ k', (k' = x ∨ cmp (some x) (some k') = 0) ∧
          ∃ e, Has t'.heap e t'.root k' := by
  intro keys
  induction keys with
  | nil =>
    intro S t d hb _ hV hK hH
    refine ⟨t, d, rfl, hb, hV, KeysFrom.mono (fun _ h => Or.inr h) hK, ?_⟩
    intro x hx
    rcases hx with hx | hx
    · simp at hx
    · exact hH x hx
  | cons k ks ih =>
    intro S t d hb hf hV hK hH
    simp only [List.length_cons] at hf
    obtain ⟨t1, d1, e1, hb1, _, hd1⟩ :=
      btree_add_bal cmp M mn lo junk h1 h2 hlo0 hlo1 hlo2 t d fuel hb (by omega) k
    obtain ⟨V1, K1, H1⟩ := btree_add_keys cmp M mn lo junk h1 h2 hlo0 hlo1 hlo2 S t d fuel hb
      (by omega) hV hK hH k t1 e1
    obtain ⟨t2, d2, e2, hb2, V2, K2, H2⟩ := ih (fun x => x = k ∨ S x) t1 d1 hb1 (by omega) V1 K1 H1
    refine ⟨t2, d2, ?_, hb2, V2, KeysFrom.mono ?_ K2, ?_⟩
    · simp only [btree_add_all, e1, e2]
    · intro x hx
      rcases hx with hx | hx | hx
      · exact Or.inl (List.mem_cons_of_mem _ hx)
      · exact Or.inl (by rw [hx]; exact List.mem_cons_self _ _)
      · exact Or.inr hx
    · intro x hx
      apply H2 x
      rcases hx with hx | hx
      · rcases List.mem_cons.1 hx with hx | hx
        · exact Or.inr (Or.inl hx)
        · exact Or.inl hx
      · exact Or.inr (Or.inr hx)

end TreeKeys

section Compaction

variable {β : Type}

theorem take_set_succ (a : List (Option β)) (n : Nat) (v : Option β) (h : n < a.length) :
    (a.set n v).take (n + 1) = a.take n ++ [v] := by
  rw [List.set_eq_take_append_cons_drop, if_pos h]
  have e : a.take n ++ v :: a.drop (n + 1) = (a.take n ++ [v]) ++ a.drop (n + 1) := by simp
  rw [e]
  exact List.take_left' (by simp; omega)

theorem reorderPack_filter :
    ∀ k i nn (a : List (Option β)), nn ≤ i → i + k = a.length →
      (reorderPack k i nn a).2 = nn + ((a.drop i).filter Option.isSome).length ∧
      (reorderPack k i nn a).1.length = a.length ∧
      (reorderPack k i nn a).1.take (reorderPack k i nn a).2 =
        a.take nn ++ (a.drop i).filter Option.isSome := by
  intro k
  induction k with
  | zero =>
    intro i nn a _ hk
    have hd : a.drop i = [] := List.drop_eq_nil_of_le (by omega)
    simp [reorderPack, hd]
  | succ k ih =>
    intro i nn a hn hk
    have hi : i < a.length := by omega
    have hrd : rd a i = a[i] := by
      unfold rd
      exact List.getD_eq_getElem _ _ hi
    have hdrop : a.drop i = a[i] :: a.drop (i + 1) := List.drop_eq_getElem_cons hi
    simp only [reorderPack, hrd]
    by_cases hsome : (a[i]).isSome = true
    · rw [if_pos hsome]
      obtain ⟨e1, e2, e3⟩ := ih (i + 1) (nn + 1) (wr a nn a[i]) (by omega)
        (by rw [length_wr]; omega)
      have hd2 : (wr a nn a[i]).drop (i + 1) = a.drop (i + 1) := by
        unfold wr
        exact List.drop_set_of_lt _ _ (by omega)
      have ht2 : (wr a nn a[i]).take (nn + 1) = a.take nn ++ [a[i]] := by
        unfold wr
        exact take_set_succ a nn _ (by omega)
      rw [hd2] at e1 e3
      rw [ht2] at e3
      rw [length_wr] at e2
      refine ⟨?_, e2, ?_⟩
      · rw [e1, hdrop, List.filter_cons_of_pos hsome, List.length_cons]
        omega
      · rw [e3, hdrop, List.filter_cons_of_pos hsome]
        simp
    · rw [if_neg hsome]
      obtain ⟨e1, e2, e3⟩ := ih (i + 1) nn a (by omega) (by omega)
      refine ⟨?_, e2, ?_⟩
      · rw [e1, hdrop, List.filter_cons_of_neg hsome]
      · rw [e3, hdrop, List.filter_cons_of_neg hsome]

theorem reorderClear_eq :
    ∀ k nn (a : List (Option β)), nn + k = a.length →
      reorderClear k nn a = a.take nn ++ List.replicate k none := by
  intro k
  induction k with
  | zero =>
    intro nn a hk
    simp only [reorderClear, List.replicate_zero, List.append_nil]
    exact (List.take_of_length_le (by omega)).symm
  | succ k ih =>
    intro nn a hk
    simp only [reorderClear]
    rw [ih (nn + 1) (wr a nn none) (by rw [length_wr]; omega)]
    unfold wr
    rw [take_set_succ a nn none (by omega), List.replicate_succ]
    simp

/-- The array that `reorderValues` builds, in list terms. -/
theorem reorderValues_eq (M : Nat) (a : List (Option β)) (start : Nat)
    (hl : a.length = M + 1) (hs : start ≤ M + 1) :
    reorderValues M a start =
      a.take start ++ ((a.drop start).filter Option.isSome ++
        List.replicate (M + 1 - start - ((a.drop start).filter Option.isSome).length)
          none) := by
  unfold reorderValues
  obtain ⟨e1, e2, e3⟩ := reorderPack_filter (M + 1 - start) start start a (Nat.le_refl _)
    (by omega)
  have hF : ((a.drop start).filter Option.isSome).length ≤ M + 1 - start := by
    have := List.length_filter_le (Option.isSome : Option β → Bool) (a.drop start)
    rw [List.length_drop] at this
    omega
  simp only
  rw [reorderClear_eq _ _ _ (by rw [e2, e1]; omega), e3, e1, List.append_assoc]
  congr 3
  omega

end Compaction

section HeightStep

variable {α : Type}

/-- In a balanced subtree of height `D` every node without children lies at depth `D`. -/
theorem leaf_depth_of_bal {M lo : Nat} {h : List (BTreeNode α)} {b D : Nat} {p : Option Nat}
    (hb : Bal M lo h b D p) {a n : Nat} (ha : AtDepth M h p a n)
    (hleaf : ∀ i, i ≤ M → rd (deref h a).children i = none) : n = D := by
  obtain ⟨b', hb', hn⟩ := atDepth_bal hb ha
  obtain ⟨e, he⟩ : ∃ e, D + 1 - n = e + 1 := ⟨D - n, by omega⟩
  rw [he] at hb'
  obtain ⟨x, s, hx, _, _, _, _, _, _, hk, _⟩ := hb'
  cases hx
  have h0 := hk 0 (by omega)
  rw [hleaf 0 (by omega)] at h0
  cases e with
  | zero => omega
  | succ e => simp [Bal] at h0

/-- One `btree_add` on a balanced tree: the tree grows by one level exactly
when `node_set_value` returns true at the root, and then the root is the
node just allocated. -/
theorem btree_add_bal_ret (cmp : Compare α) (M mn lo : Nat) (junk : BTreeNode α)
    (h1 : 1 ≤ mn) (h2 : mn < M) (hlo0 : 1 ≤ lo) (hlo1 : lo ≤ mn) (hlo2 : lo ≤ M - mn)
    (t : BTree α) (d fuel : Nat) (hb : Bal M lo t.heap 1 d t.root) (hf : d < fuel) (k : α) :
    ∃ r t', node_set_value cmp M mn junk fuel t t.root none (some k) none = some r ∧
      btree_add cmp M mn junk fuel t k = some t' ∧
      t.heap.length ≤ r.tree.heap.length ∧
      (r.ret = true → t'.root = some r.tree.heap.length ∧
        t'.heap.length = r.tree.heap.length + 1 ∧ Bal M lo t'.heap 1 (d + 1) t'.root) ∧
      (r.ret = false → t'.root = t.root ∧ t'.heap.length = r.tree.heap.length ∧
        Bal M lo t'.heap 1 d t'.root) := by
  obtain ⟨r, hr, hroot, _, _, hlen, hkeep, _, hret⟩ :=
    node_set_value_bal cmp M mn lo junk h1 h2 hlo1 hlo2 d fuel t t.root none (some k) none 1
      hlo0 hb hf
  have key : ∀ (ch : Option Nat) (t1 : BTree α), r.child = ch → t1.root = t.root →
      t1.heap.length = r.tree.heap.length →
      (∀ {b e : Nat} {p : Option Nat}, Bal M lo r.tree.heap b e p → Bal M lo t1.heap b e p) →
      ∃ t', (if r.ret = true then
          some { t1 with root := some (node_create M t1 ch r.pValue).2,
                         heap := (node_create M t1 ch r.pValue).1, size := t1.size + 1 }
        else some t1) = some t' ∧
        (r.ret = true → t'.root = some r.tree.heap.length ∧
          t'.heap.length = r.tree.heap.length + 1 ∧ Bal M lo t'.heap 1 (d + 1) t'.root) ∧
        (r.ret = false → t'.root = t.root ∧ t'.heap.length = r.tree.heap.length ∧
          Bal M lo t'.heap 1 d t'.root) := by
    intro ch t1 hch hfixroot hlen1 hfix
    by_cases hrt : r.ret = true
    · simp only [hrt, if_true, node_create]
      have hroot' : Bal M lo t1.heap lo d t.root ∧ Bal M lo t1.heap lo d ch := by
        rcases hret hrt with ⟨hd0, hc, _⟩ | ⟨_, hl, hc⟩
        · subst hd0
          rw [← hch, hc, (Bal.zero_iff ..).1 hb]
          exact ⟨(Bal.zero_iff ..).2 rfl, (Bal.zero_iff ..).2 rfl⟩
        · rw [← hch]; exact ⟨hfix hl, hfix hc⟩
      refine ⟨_, rfl, fun _ => ⟨by rw [← hlen1], by simp [hlen1], ?_⟩, fun h => by simp at h⟩
      refine ⟨t1.heap.length, 1, rfl, by simp, ?_, Nat.le_refl _, Nat.le_refl _, by omega,
        ?_, ?_, ?_⟩
      · rw [deref_append_length]; rfl
      · rw [deref_append_length]; simp [length_wr]
      · intro i hi
        rw [deref_append_length]
        simp only [rd_wr, length_wr, List.length_replicate, hfixroot]
        split_ifs with c1 c2
        · exact Bal.append _ hroot'.2
        · exact Bal.append _ hroot'.1
        · exfalso; omega
      · intro i hi
        rw [deref_append_length]
        simp only [rd_wr, length_wr, List.length_replicate]
        rw [if_neg (by omega), if_neg (by omega)]
        exact rd_replicate _ _
    · simp only [hrt]
      refine ⟨t1, rfl, fun h => by simp at h, fun _ => ⟨hfixroot, hlen1, ?_⟩⟩
      rw [hfixroot]
      exact hfix (hkeep _ _ _ hlo0 hb)
  cases hch : r.child with
  | none =>
    obtain ⟨t', e1, e2, e3⟩ := key none r.tree hch hroot rfl (fun hbe => hbe)
    refine ⟨r, t', hr, ?_, hlen, e2, e3⟩
    simp only [btree_add, hr, hch]
    exact e1
  | some c =>
    obtain ⟨t', e1, e2, e3⟩ := key (some c)
      ⟨r.tree.root, r.tree.size, store r.tree.heap c
        ⟨(deref r.tree.heap c).values, (deref r.tree.heap c).children, (deref r.tree.heap c).size,
          !(anyFrom (deref r.tree.heap c).children M 1)⟩, r.tree.destroyed, r.tree.freed⟩
      hch hroot (length_store _ _ _) (fun hbe => Bal.setLeaf c _ hbe)
    refine ⟨r, t', hr, ?_, hlen, e2, e3⟩
    simp only [btree_add, hr, hch]
    exact e1

end HeightStep

section NodeLemmasIn

variable {α : Type}

theorem In.self {h : List (BTreeNode α)} {d a : Nat} : In h (d + 1) (some a) a :=
  ⟨a, rfl, Or.inl rfl⟩

theorem In.of_kid {h : List (BTreeNode α)} {d a i x : Nat}
    (h2 : (i : Int) ≤ (deref h a).size) (h3 : In h d (rd (deref h a).children i) x) :
    In h (d + 1) (some a) x :=
  ⟨a, rfl, Or.inr ⟨i, h2, h3⟩⟩

theorem In.pos_depth {h : List (BTreeNode α)} {d : Nat} {p : Option Nat} {x : Nat}
    (hh : In h d p x) : 0 < d := by
  cases d with
  | zero => exact hh.elim
  | succ d => omega

/-- A heap that agrees with `h` on children and sizes of the nodes of height
at most `d` has the nodes of the balanced subtrees of height at most `d`. -/
theorem In.congr_nodes {M lo : Nat} {h h' : List (BTreeNode α)} {y : Nat} :
    ∀ {d b : Nat} {p : Option Nat},
      (∀ x e b', x < h.length → e ≤ d → Bal M lo h b' e (some x) →
        (deref h' x).children = (deref h x).children ∧ (deref h' x).size = (deref h x).size) →
      Bal M lo h b d p → In h d p y → In h' d p y := by
  intro d
  induction d with
  | zero => intro b p _ _ hh; exact hh
  | succ d ih =>
    intro b p hag hb hh
    have hx := hb
    obtain ⟨a, s, rfl, h1, h2, h3, h4, h5, h6, h7, h8⟩ := hb
    obtain ⟨e2, e3⟩ := hag a (d + 1) b h1 (Nat.le_refl _) hx
    obtain ⟨a', ha', hh⟩ := hh
    cases ha'
    rcases hh with hi | ⟨i, hi2, hi3⟩
    · rw [hi]; exact In.self
    · refine In.of_kid (i := i) (by rw [e3]; exact hi2) ?_
      rw [e2]
      have his : i ≤ s := by rw [h2] at hi2; exact_mod_cast hi2
      exact ih (fun x e b' hx he hb' => hag x e b' hx (by omega) hb') (h7 i his) hi3

theorem In.below_node_store {M lo : Nat} {h : List (BTreeNode α)} (l : List (BTreeNode α))
    {a da b0 : Nat} (n : BTreeNode α) (ha : Bal M lo h b0 da (some a)) {d b : Nat}
    {p : Option Nat} {y : Nat} (hd : d < da) (hb : Bal M lo h b d p) (hh : In h d p y) :
    In (store h a n ++ l) d p y := by
  refine In.congr_nodes ?_ hb hh
  intro x e b' hx he hxb
  have hne : x ≠ a := by
    intro hxa
    subst hxa
    have := Bal.depth_unique hxb ha
    omega
  rw [deref_update_ne h l a x n hx hne]
  exact ⟨rfl, rfl⟩

theorem In.to_depth {M lo : Nat} {h : List (BTreeNode α)} {y : Nat} :
    ∀ {d D b : Nat} {p : Option Nat}, Bal M lo h b D p → In h d p y → In h D p y := by
  intro d
  induction d with
  | zero => intro D b p _ hh; exact hh.elim
  | succ d ih =>
    intro D b p hb hh
    obtain ⟨a, rfl, hh⟩ := hh
    cases D with
    | zero => simp [Bal] at hb
    | succ D =>
      obtain ⟨a', s, ha', _, hs, _, _, _, _, hk, _⟩ := hb
      cases ha'
      rcases hh with hi | ⟨i, hi2, hi3⟩
      · rw [hi]; exact In.self
      · have his : i ≤ s := by rw [hs] at hi2; exact_mod_cast hi2
        exact In.of_kid hi2 (ih (hk i his) hi3)

theorem In.reach_node {M lo : Nat} {h : List (BTreeNode α)} {y : Nat} :
    ∀ {d D b : Nat} {p : Option Nat}, Bal M lo h b D p → In h d p y → Reach M h p y := by
  intro d
  induction d with
  | zero => intro D b p _ hh; exact hh.elim
  | succ d ih =>
    intro D b p hb hh
    obtain ⟨a, rfl, hh⟩ := hh
    cases D with
    | zero => simp [Bal] at hb
    | succ D =>
      obtain ⟨a', s, ha', _, hs, _, _, hsM, _, hk, _⟩ := hb
      cases ha'
      rcases hh with hi | ⟨i, hi2, hi3⟩
      · rw [hi]; exact Reach.root a
      · have his : i ≤ s := by rw [hs] at hi2; exact_mod_cast hi2
        have hx := ih (hk i his) hi3
        obtain ⟨c, hc⟩ : ∃ c, rd (deref h a).children i = some c := by
          cases d with
          | zero => exact hi3.elim
          | succ d =>
            obtain ⟨c, hc, _⟩ := hi3
            exact ⟨c, hc⟩
        rw [hc] at hx
        exact Reach.through (by omega : i ≤ M) hc hx

end NodeLemmasIn

section InsertNodes

variable {α : Type}

theorem node_set_value_nodes (cmp : Compare α) (M mn lo : Nat) (junk : BTreeNode α)
    (h1 : 1 ≤ mn) (h2 : mn < M) (hlo1 : lo ≤ mn) (hlo2 : lo ≤ M - mn) :
    ∀ d fuel (t : BTree α) p child value pValue b r, b ≤ lo → Bal M lo t.heap b d p →
      d < fuel →
      node_set_value cmp M mn junk fuel t p child value pValue = some r →
      r.tree.size - t.size = (r.tree.heap.length : Int) - (t.heap.length : Int) ∧
      (∀ x, t.heap.length ≤ x → x < r.tree.heap.length →
        In r.tree.heap d p x ∨ PendIn r d x) ∧
      (∀ q x, Bal M lo t.heap 0 d q → In t.heap d q x →
        In r.tree.heap d q x ∨ In r.tree.heap d p x ∨ PendIn r d x) := by
  intro d
  induction d with
  | zero =>
    intro fuel t p child value pValue b r _ hbal hf hn
    have hp := (Bal.zero_iff ..).1 hbal
    subst hp
    obtain ⟨f, rfl⟩ : ∃ f, fuel = f + 1 := ⟨fuel - 1, by omega⟩
    simp only [node_set_value, Option.some.injEq] at hn
    subst hn
    exact ⟨by simp, fun x hx1 hx2 => by dsimp only at hx2; omega, fun q x _ hh => hh.elim⟩
  | succ d ih =>
    intro fuel t p child value pValue b r hb hbal hf hn
    obtain ⟨f, rfl⟩ : ∃ f, fuel = f + 1 := ⟨fuel - 1, by omega⟩
    have hx := hbal
    obtain ⟨a, s', rfl, ha, hs, hbs, hs1, hsM, hcl, hkid, hnone⟩ := hbal
    have hsn : (deref t.heap a).size.toNat = s' := by rw [hs]; exact Int.toNat_natCast s'
    obtain ⟨pos, hpos, hposle⟩ : ∃ pos,
        (if cmp value (rd (deref t.heap a).values 1) < 0 then 0
          else node_set_value_pos cmp value (deref t.heap a).values
            (deref t.heap a).size.toNat) = pos ∧ pos ≤ s' := by
      refine ⟨_, rfl, ?_⟩
      split
      · omega
      · rw [hsn]; exact node_set_value_pos_le _ _ _ _
    simp only [node_set_value, hpos] at hn
    split at hn
    · simp only [Option.some.injEq] at hn
      subst hn
      exact ⟨by simp, fun x hx1 hx2 => by dsimp only at hx2; omega, fun q x _ hh => Or.inl hh⟩
    · obtain ⟨r1, hr1, hroot, hdes, hfr, hlen, hkeep, hframe, hret⟩ :=
        node_set_value_bal cmp M mn lo junk h1 h2 hlo1 hlo2 d f t
          (rd (deref t.heap a).children pos) child value pValue lo (Nat.le_refl _)
          (hkid pos hposle) (by omega)
      obtain ⟨Z1, N1, J1⟩ := ih f t _ child value pValue lo r1 (Nat.le_refl _)
        (hkid pos hposle) (by omega) hr1
      simp only [hr1] at hn
      have hnode1 : deref r1.tree.heap a = deref t.heap a :=
        hframe a ha (fun e b' hb' => by have := Bal.depth_unique hb' hx; omega)
      have hx1 : Bal M lo r1.tree.heap b (d + 1) (some a) := hkeep _ _ _ hb hx
      have ha1 : a < r1.tree.heap.length := by omega
      have jgen : ∀ (H2 : List (BTreeNode α)) (G : Nat → Prop),
          (∀ x, x < t.heap.length → x ≠ a → Bal M lo t.heap 0 (d + 1) (some x) →
            deref H2 x = deref t.heap x) →
          (∀ c x, Bal M lo r1.tree.heap lo d c → In r1.tree.heap d c x → In H2 d c x) →
          G a →
          (∀ j x, j ≤ s' → In r1.tree.heap d (rd (deref t.heap a).children j) x → G x) →
          (∀ x, PendIn r1 d x → G x) →
          (∀ x, t.heap.length ≤ x → x < r1.tree.heap.length → G x) ∧
          (∀ q x, Bal M lo t.heap 0 (d + 1) q → In t.heap (d + 1) q x →
            In H2 (d + 1) q x ∨ G x) := by
        intro H2 G fr lift ab1 ab2 ab3
        constructor
        · intro x hx1' hx2'
          rcases N1 x hx1' hx2' with h3 | h3
          · exact ab2 pos x hposle h3
          · exact ab3 x h3
        · intro q y hq hh
          have hqx := hq
          obtain ⟨x, sx, rfl, hxl, hsx, _, _, _, _, hkx, _⟩ := hq
          obtain ⟨x', hx', hh⟩ := hh
          cases hx'
          have hj : ∀ j, j ≤ sx → In t.heap d (rd (deref t.heap x).children j) y →
              In r1.tree.heap d (rd (deref t.heap x).children j) y ∨ G y := by
            intro j hj hhj
            rcases J1 _ y (Bal.weaken (Nat.zero_le _) (hkx j hj)) hhj with h3 | h3 | h3
            · exact Or.inl h3
            · exact Or.inr (ab2 pos y hposle h3)
            · exact Or.inr (ab3 y h3)
          by_cases hxa : x = a
          · subst hxa
            have hsxs : sx = s' := by rw [hs] at hsx; exact_mod_cast hsx.symm
            subst hsxs
            right
            rcases hh with hi | ⟨j, hj2, hj3⟩
            · rw [hi]; exact ab1
            · have hjs : j ≤ sx := by rw [hs] at hj2; exact_mod_cast hj2
              rcases hj j hjs hj3 with h3 | h3
              · exact ab2 j y hjs h3
              · exact h3
          · have e := fr x hxl hxa hqx
            rcases hh with hi | ⟨j, hj2, hj3⟩
            · rw [hi]; exact Or.inl In.self
            · have hjs : j ≤ sx := by rw [hsx] at hj2; exact_mod_cast hj2
              rcases hj j hjs hj3 with h3 | h3
              · refine Or.inl (In.of_kid (i := j) (by rw [e]; exact hj2) ?_)
                rw [e]
                exact lift _ y (hkeep _ _ _ (Nat.le_refl _) (hkx j hjs)) h3
              · exact Or.inr h3
      have hfr2 : ∀ (n : BTreeNode α) (l : List (BTreeNode α)) x, x < t.heap.length → x ≠ a →
          Bal M lo t.heap 0 (d + 1) (some x) →
          deref (store r1.tree.heap a n ++ l) x = deref t.heap x := by
        intro n l x hxl hxa hqx
        rw [deref_update_ne _ _ _ _ _ (by omega) hxa]
        exact hframe x hxl (fun e b' hb' => by have := Bal.depth_unique hb' hqx; omega)
      have hlift2 : ∀ (n : BTreeNode α) (l : List (BTreeNode α)) c x,
          Bal M lo r1.tree.heap lo d c → In r1.tree.heap d c x →
          In (store r1.tree.heap a n ++ l) d c x :=
        fun n l c x hc hh => In.below_node_store l n hx1 (Nat.lt_succ_self d) hc hh
      by_cases hr : r1.ret = true
      · simp only [hr, if_true, hnode1] at hn
        have hPchild : Bal M lo r1.tree.heap lo d r1.child := by
          rcases hret hr with ⟨hd0, hc, _⟩ | ⟨_, _, hc⟩
          · subst hd0; rw [hc]; exact (Bal.zero_iff ..).2 rfl
          · exact hc
        have jins : ∀ (H2 : List (BTreeNode α)) (G : Nat → Prop),
            (∀ x, x < t.heap.length → x ≠ a → Bal M lo t.heap 0 (d + 1) (some x) →
              deref H2 x = deref t.heap x) →
            (∀ c x, Bal M lo r1.tree.heap lo d c → In r1.tree.heap d c x → In H2 d c x) →
            G a →
            (∀ m x, m ≤ s' + 1 →
              In H2 d (ins (rd (deref t.heap a).children) pos r1.child m) x → G x) →
            (∀ x, t.heap.length ≤ x → x < r1.tree.heap.length → G x) ∧
            (∀ q x, Bal M lo t.heap 0 (d + 1) q → In t.heap (d + 1) q x →
              In H2 (d + 1) q x ∨ G x) := by
          intro H2 G fr lift ab1 covC
          refine jgen H2 G fr lift ab1 ?_ ?_
          · intro j x hj hh
            obtain ⟨m, hm1, hm2, hm⟩ := ins_old (rd (deref t.heap a).children) pos r1.child j
            refine covC m x (by omega) ?_
            rw [hm]
            exact lift _ x (hkeep _ _ _ (Nat.le_refl _) (hkid j hj)) hh
          · intro x hk
            refine covC (pos + 1) x (by omega) ?_
            rw [ins_new]
            exact lift _ x hPchild hk.2
        by_cases hlt : (deref t.heap a).size < (M : Int)
        · simp only [hlt, if_true, Option.some.injEq] at hn
          subst hn
          have hsltM : s' < M := by rw [hs] at hlt; exact_mod_cast hlt
          have hAc := rd_node_add_children M pos (deref t.heap a) r1.child r1.pValue s' hs hposle
            (by omega)
          have hAcins : ∀ i, i ≤ s' + 1 →
              rd (node_add M pos (deref t.heap a) r1.child r1.pValue).children i =
                ins (rd (deref t.heap a).children) pos r1.child i := by
            intro i hi
            rw [hAc i]
            unfold ins
            split_ifs
            all_goals first
              | rfl
              | (exfalso; omega)
          have hAsz : (node_add M pos (deref t.heap a) r1.child r1.pValue).size =
              ((s' + 1 : Nat) : Int) := by
            rw [size_node_add, hs]; push_cast; rfl
          generalize node_add M pos (deref t.heap a) r1.child r1.pValue = A
            at hAc hAcins hAsz ⊢
          have e : store r1.tree.heap a A = store r1.tree.heap a A ++ [] :=
            (List.append_nil _).symm
          have hda : deref (store r1.tree.heap a A ++ []) a = A := deref_update_eq _ _ _ _ ha1
          dsimp only
          rw [e]
          obtain ⟨hN, hJ⟩ := jins (store r1.tree.heap a A ++ [])
            (fun x => In (store r1.tree.heap a A ++ []) (d + 1) (some a) x ∨
              PendIn ⟨false, { r1.tree with heap := store r1.tree.heap a A ++ [] }, r1.child,
                r1.pValue⟩ (d + 1) x)
            (hfr2 A []) (hlift2 A []) (Or.inl In.self)
            (fun m x hm hh => Or.inl (In.of_kid (i := m)
              (by rw [hda, hAsz]; exact_mod_cast hm) (by rw [hda, hAcins m hm]; exact hh)))
          refine ⟨?_, ?_, hJ⟩
          · simp only [List.append_nil, length_store]
            exact Z1
          · intro x hx1' hx2'
            simp only [List.append_nil, length_store] at hx2'
            exact hN x hx1' hx2'
        · simp only [hlt, if_false, Option.some.injEq] at hn
          subst hn
          have hsM' : s' = M := by
            rw [hs] at hlt
            have : ¬ s' < M := by exact_mod_cast hlt
            omega
          have hposM : pos ≤ M := by omega
          have hkids1 : Kids (Bal M lo r1.tree.heap lo d) M s' (deref t.heap a).children :=
            ⟨hcl, fun i hi => hkeep _ _ _ (Nat.le_refl _) (hkid i hi), hnone⟩
          have hkidsM : Kids (Bal M lo r1.tree.heap lo d) M M (deref t.heap a).children :=
            hsM' ▸ hkids1
          have hP : (∀ q, Bal M lo r1.tree.heap lo d q → q = none) ∨
              (∀ q, Bal M lo r1.tree.heap lo d q → q.isSome = true) := by
            cases d with
            | zero => exact Or.inl (fun q hq => (Bal.zero_iff ..).1 hq)
            | succ d => exact Or.inr (fun q hq => hq.isSome)
          obtain ⟨_, sl, _, sr⟩ := node_split_kids _ hP M mn h1 h2 junk (deref t.heap a) pos
            r1.child r1.pValue hkidsM hposM hPchild
          have hch := fun (hd : 0 < d) => node_split_children M mn h1 h2 junk (deref t.heap a) pos
            r1.child r1.pValue hcl
            (fun i hi => Bal.isSome_of_pos hd (hkid i (by omega))) hposM
            (Bal.isSome_of_pos hd hPchild)
          generalize node_split M mn junk pos (deref t.heap a) r1.child r1.pValue = sp
            at sl sr hch ⊢
          have hda : deref (store r1.tree.heap a sp.1 ++ [sp.2.1]) a = sp.1 :=
            deref_update_eq _ _ _ _ ha1
          have hnew : deref (store r1.tree.heap a sp.1 ++ [sp.2.1]) r1.tree.heap.length
              = sp.2.1 := by
            have := deref_append_length (store r1.tree.heap a sp.1) sp.2.1
            rwa [length_store] at this
          dsimp only
          obtain ⟨hN, hJ⟩ := jins (store r1.tree.heap a sp.1 ++ [sp.2.1])
            (fun x => In (store r1.tree.heap a sp.1 ++ [sp.2.1]) (d + 1) (some a) x ∨
              PendIn ⟨true, { r1.tree with heap := store r1.tree.heap a sp.1 ++ [sp.2.1],
                                           size := r1.tree.size + 1 },
                some r1.tree.heap.length, sp.2.2⟩ (d + 1) x)
            (hfr2 sp.1 [sp.2.1]) (hlift2 sp.1 [sp.2.1]) (Or.inl In.self)
            (by
              intro m x hm hh
              obtain ⟨c1, c2, c3, c4⟩ := hch hh.pos_depth
              by_cases d1 : m < mn
              · exact Or.inl (In.of_kid (i := m) (by rw [hda, sl]; exact_mod_cast (by omega : m ≤ mn))
                  (by rw [hda, c1 m d1]; exact hh))
              · by_cases d2 : m = mn
                · subst d2
                  exact Or.inr ⟨rfl, In.of_kid (i := 0)
                    (by rw [hnew, sr]; exact_mod_cast (Nat.zero_le _))
                    (by rw [hnew, c3]; exact hh)⟩
                · by_cases d3 : m = mn + 1
                  · subst d3
                    exact Or.inl (In.of_kid (i := mn) (by rw [hda, sl])
                      (by rw [hda, c2]; exact hh))
                  · have e1 : m - mn - 1 + mn + 1 = m := by omega
                    have := c4 (m - mn - 1) (by omega) (by omega)
                    rw [e1] at this
                    exact Or.inr ⟨rfl, In.of_kid (i := m - mn - 1)
                      (by rw [hnew, sr]; exact_mod_cast (by omega : m - mn - 1 ≤ M - mn))
                      (by rw [hnew, this]; exact hh)⟩)
          refine ⟨?_, ?_, hJ⟩
          · simp only [List.length_append, length_store, List.length_singleton]
            push_cast
            omega
          · intro x hx1' hx2'
            simp only [List.length_append, length_store, List.length_singleton] at hx2'
            by_cases hxn : x < r1.tree.heap.length
            · exact hN x hx1' hxn
            · have : x = r1.tree.heap.length := by omega
              rw [this]
              exact Or.inr ⟨rfl, In.self⟩
      · simp only [hr, Bool.false_eq_true, if_false, Option.some.injEq] at hn
        subst hn
        dsimp only
        obtain ⟨hN, hJ⟩ := jgen r1.tree.heap
          (fun x => In r1.tree.heap (d + 1) (some a) x ∨
            PendIn ⟨false, r1.tree, r1.child, r1.pValue⟩ (d + 1) x)
          (fun x hxl hxa hqx => hframe x hxl
            (fun e b' hb' => by have := Bal.depth_unique hb' hqx; omega))
          (fun c x _ hh => hh)
          (Or.inl In.self)
          (fun j x hj hh => Or.inl (In.of_kid (i := j)
            (by rw [hnode1, hs]; exact_mod_cast hj) (by rw [hnode1]; exact hh)))
          (fun x hk => absurd hk.1 hr)
        exact ⟨Z1, hN, hJ⟩

end InsertNodes

section TreeNodes

variable {α : Type}

theorem btree_add_nodes (cmp : Compare α) (M mn lo : Nat) (junk : BTreeNode α)
    (h1 : 1 ≤ mn) (h2 : mn < M) (hlo0 : 1 ≤ lo) (hlo1 : lo ≤ mn) (hlo2 : lo ≤ M - mn)
    (t : BTree α) (d fuel : Nat) (hb : Bal M lo t.heap 1 d t.root)
    (hf : d < fuel) (hsz : t.size = (t.heap.length : Int))
    (hall : ∀ x, x < t.heap.length → ∃ e, In t.heap e t.root x)
    (k : α) (t' : BTree α) (ht : btree_add cmp M mn junk fuel t k = some t') :
    t'.size = (t'.heap.length : Int) ∧
    ∀ x, x < t'.heap.length → ∃ e, In t'.heap e t'.root x := by
  obtain ⟨r, hr, hroot, _, _, hlen, hkeep, _, hret⟩ :=
    node_set_value_bal cmp M mn lo junk h1 h2 hlo1 hlo2 d fuel t t.root none (some k) none 1
      hlo0 hb hf
  obtain ⟨Z, N, J⟩ := node_set_value_nodes cmp M mn lo junk h1 h2 hlo1 hlo2 d fuel t t.root
    none (some k) none 1 r hlo0 hb hf hr
  have hrsz : r.tree.size = (r.tree.heap.length : Int) := by omega
  have hpres : ∀ x, x < r.tree.heap.length → In r.tree.heap d t.root x ∨ PendIn r d x := by
    intro x hx
    by_cases hxl : x < t.heap.length
    · obtain ⟨e, he⟩ := hall x hxl
      have h3 := In.to_depth hb he
      rcases J t.root x (Bal.weaken (Nat.zero_le _) hb) h3 with h | h | h
      · exact Or.inl h
      · exact Or.inl h
      · exact Or.inr h
    · exact N x (by omega) hx
  have hbr : Bal M lo r.tree.heap 1 d t.root := hkeep _ _ _ hlo0 hb
  have key : ∀ (ch : Option Nat) (t1 : BTree α), r.child = ch → t1.root = t.root →
      t1.size = r.tree.size → t1.heap.length = r.tree.heap.length →
      (∀ x, x < r.tree.heap.length →
        (deref t1.heap x).children = (deref r.tree.heap x).children ∧
        (deref t1.heap x).size = (deref r.tree.heap x).size) →
      (if r.ret = true then
          some { t1 with root := some (node_create M t1 ch r.pValue).2,
                         heap := (node_create M t1 ch r.pValue).1, size := t1.size + 1 }
        else some t1) = some t' →
      t'.size = (t'.heap.length : Int) ∧
      ∀ x, x < t'.heap.length → ∃ e, In t'.heap e t'.root x := by
    intro ch t1 hch hroot1 hsz1 hlen1 hag ht1
    subst hch
    by_cases hrt : r.ret = true
    · simp only [hrt, if_true, node_create, Option.some.injEq] at ht1
      subst ht1
      dsimp only
      have hag2 : ∀ (n : BTreeNode α) x, x < r.tree.heap.length →
          (deref (t1.heap ++ [n]) x).children = (deref r.tree.heap x).children ∧
          (deref (t1.heap ++ [n]) x).size = (deref r.tree.heap x).size := by
        intro n x hx
        rw [deref_append_left _ _ _ (by omega)]
        exact hag x hx
      have hrdc : ∀ i, rd (wr (wr (List.replicate (M + 1) (none : Option Nat)) 0 t1.root) 1
          r.child) i = if i = 1 then r.child else if i = 0 then t1.root else none := by
        intro i
        rw [rd_wr, rd_wr, length_wr, List.length_replicate, rd_replicate]
        split_ifs
        all_goals first
          | rfl
          | (exfalso; omega)
      have hsz0 : ((0 : Nat) : Int) ≤ (1 : Int) := by decide
      have hsz1' : ((1 : Nat) : Int) ≤ (1 : Int) := by decide
      constructor
      · simp only [List.length_append, List.length_singleton]
        push_cast
        omega
      · intro x hx
        simp only [List.length_append, List.length_singleton] at hx
        refine ⟨d + 1, ?_⟩
        by_cases hxn : x < r.tree.heap.length
        · rcases hpres x hxn with hk2 | ⟨_, hk2⟩
          · refine In.of_kid (i := 0) ?_ ?_
            · rw [deref_append_length]; exact hsz0
            · rw [deref_append_length, hrdc 0, if_neg (by omega), if_pos rfl, hroot1]
              exact In.congr_nodes (fun y e b' hy _ _ => hag2 _ y hy) hbr hk2
          · refine In.of_kid (i := 1) ?_ ?_
            · rw [deref_append_length]; exact hsz1'
            · rw [deref_append_length, hrdc 1, if_pos rfl]
              rcases hret hrt with ⟨hd0, _, _⟩ | ⟨_, _, hc⟩
              · subst hd0; exact hk2.elim
              · exact In.congr_nodes (fun y e b' hy _ _ => hag2 _ y hy) hc hk2
        · have : x = t1.heap.length := by omega
          rw [this]
          exact In.self
    · simp only [hrt, Bool.false_eq_true, if_false, Option.some.injEq] at ht1
      subst ht1
      refine ⟨by rw [hsz1, hlen1]; exact hrsz, ?_⟩
      intro x hx
      rcases hpres x (by omega) with hk2 | hk2
      · refine ⟨d, ?_⟩
        rw [hroot1]
        exact In.congr_nodes (fun y e b' hy _ _ => hag y hy) hbr hk2
      · exact absurd hk2.1 hrt
  simp only [btree_add, hr] at ht
  cases hch : r.child with
  | none =>
    simp only [hch] at ht
    exact key none r.tree hch hroot rfl rfl (fun x _ => ⟨rfl, rfl⟩) ht
  | some c =>
    simp only [hch] at ht
    refine key (some c)
      ⟨r.tree.root, r.tree.size, store r.tree.heap c
        ⟨(deref r.tree.heap c).values, (deref r.tree.heap c).children, (deref r.tree.heap c).size,
          !(anyFrom (deref r.tree.heap c).children M 1)⟩, r.tree.destroyed, r.tree.freed⟩
      hch hroot rfl (length_store _ _ _) ?_ ht
    intro x _
    dsimp only
    rw [deref_store]
    split_ifs with hc
    · rw [← hc.1]; exact ⟨rfl, rfl⟩
    · exact ⟨rfl, rfl⟩

theorem btree_add_all_nodes (cmp : Compare α) (M mn lo : Nat) (junk : BTreeNode α)
    (h1 : 1 ≤ mn) (h2 : mn < M) (hlo0 : 1 ≤ lo) (hlo1 : lo ≤ mn) (hlo2 : lo ≤ M - mn)
    (fuel : Nat) :
    ∀ (keys : List α) (t : BTree α) (d : Nat), Bal M lo t.heap 1 d t.root →
      d + keys.length < fuel → t.size = (t.heap.length : Int) →
      (∀ x, x < t.heap.length → ∃ e, In t.heap e t.root x) →
      ∃ t' d', btree_add_all cmp M mn junk fuel t keys = some t' ∧
        Bal M lo t'.heap 1 d' t'.root ∧ t'.size = (t'.heap.length : Int) ∧
        ∀ x, x < t'.heap.length → ∃ e, In t'.heap e t'.root x := by
  intro keys
  induction keys with
  | nil =>
    intro t d hb _ hsz hall
    exact ⟨t, d, rfl, hb, hsz, hall⟩
  | cons k ks ih =>
    intro t d hb hf hsz hall
    simp only [List.length_cons] at hf
    obtain ⟨t1, d1, e1, hb1, _, hd1⟩ :=
      btree_add_bal cmp M mn lo junk h1 h2 hlo0 hlo1 hlo2 t d fuel hb (by omega) k
    obtain ⟨Z1, A1⟩ := btree_add_nodes cmp M mn lo junk h1 h2 hlo0 hlo1 hlo2 t d fuel hb
      (by omega) hsz hall k t1 e1
    obtain ⟨t2, d2, e2, hb2, Z2, A2⟩ := ih t1 d1 hb1 (by omega) Z1 A1
    refine ⟨t2, d2, ?_, hb2, Z2, A2⟩
    simp only [btree_add_all, e1, e2]

end TreeNodes

section Claims

/-- C1 (fails on the code): with `M = 3` and any `mn`, after `btree_add` of 10
and then 20 into the empty tree, `btree_containsKey` of 20 returns false: the
scan of `containsKey` stops at the first key that is not greater than the
searched one, here 10, and the root has no child. -/
theorem C1_contains_after_add_fails (mn : Nat) (junk : BTreeNode Int) :
    (btree_add_all intCompare 3 mn junk 2 btree_create [10, 20]).bind
      (fun t => btree_containsKey intCompare 3 2 t 0 20) = some (false, 0) := rfl

/-- C2 (fails on the code): with `M = 3` the in-order traversal after ten
insertions is not ascending, for `mn = 1` (keys 0..9 ascending) and for
`mn = 2` (keys 9..0 descending): the split of an internal node hands the
wrong child to the new sibling. -/
theorem C2_inorder_not_ascending :
    ((btree_add_all intCompare 3 1 zeroed 4 btree_create [0, 1, 2, 3, 4, 5, 6, 7, 8, 9]).map
        (fun t => inorder t.heap 4 t.root)
      = some [some 0, some 1, some 4, some 3, some 2, some 5, some 6, some 7, some 8, some 9]) ∧
    ((btree_add_all intCompare 3 2 zeroed 4 btree_create [9, 8, 7, 6, 5, 4, 3, 2, 1, 0]).map
        (fun t => inorder t.heap 4 t.root)
      = some [some 0, some 1, some 2, some 3, some 4, some 7, some 6, some 5, some 8, some 9]) := by
  constructor <;> rfl

/-- C5 (fails on the code): with `M = 3`, a second `btree_add` of a stored key
changes the tree once an internal node has been split: after 0..9 (`mn = 1`)
the key 2 is stored and `btree_add` of 2 stores it again; after 9..0 (`mn = 2`)
the same happens with the key 7.  The traversals before and after are listed. -/
theorem C5_duplicate_add_changes_tree :
    ((btree_add_all intCompare 3 1 zeroed 4 btree_create [0, 1, 2, 3, 4, 5, 6, 7, 8, 9]).bind
        (fun t => (btree_add intCompare 3 1 zeroed 4 t 2).map
          (fun u => (inorder t.heap 4 t.root, inorder u.heap 4 u.root, decide (u = t))))
      = some ([some 0, some 1, some 4, some 3, some 2, some 5, some 6, some 7, some 8, some 9],
          [some 0, some 1, some 2, some 4, some 3, some 2, some 5, some 6, some 7, some 8, some 9],
          false)) ∧
    ((btree_add_all intCompare 3 2 zeroed 4 btree_create [9, 8, 7, 6, 5, 4, 3, 2, 1, 0]).bind
        (fun t => (btree_add intCompare 3 2 zeroed 4 t 7).map
          (fun u => (inorder t.heap 4 t.root, inorder u.heap 4 u.root, decide (u = t))))
      = some ([some 0, some 1, some 2, some 3, some 4, some 7, some 6, some 5, some 8, some 9],
          [some 0, some 1, some 2, some 3, some 4, some 7, some 6, some 5, some 7, some 8, some 9],
          false)) := by
  constructor <;> rfl

/-- C7 (fails on the code): with `M = 3` and any `mn`, on the tree holding 20
the calls `btree_add` of 10 and `btree_remove` of 10 return true and leave 20
alone stored, but `destroy` is not called at all: the list of its arguments
is empty. -/
theorem C7_remove_after_add_no_destroy (mn : Nat) (junk : BTreeNode Int) :
    (btree_add_all intCompare 3 mn junk 2 btree_create [20, 10]).bind
      (fun t => (btree_remove intCompare 3 mn junk 2 t (some 10)).map
        (fun r => (r.2, inorder r.1.heap 2 r.1.root, r.1.destroyed)))
      = some (true, [some 20], []) := rfl

/-- C8 (fails on the code): with `M = 3` and any `mn`, `btree_remove` of the
absent key 20 on the tree holding 10 returns true; the block of `malloc` is
zeroed here, `remove_helper` reads its key slot 1 as the found key. -/
theorem C8_remove_absent_returns_true (mn : Nat) :
    (btree_add_all intCompare 3 mn zeroed 2 btree_create [10]).bind
      (fun t => (btree_remove intCompare 3 mn zeroed 2 t (some 20)).map
        (fun r => (r.2, inorder r.1.heap 2 r.1.root, r.1.size, r.1.destroyed)))
      = some (true, [some 10], 1, []) := rfl

/-- C9 (fails on the code): with `M = 3`, `btree_remove` of the only key 10
calls `destroy` once, with the root node (index 0 of the heap) as argument and
not with the key; `mn = 1` and `mn = 2`. -/
theorem C9_destroy_called_on_node :
    ((btree_add_all intCompare 3 1 zeroed 2 btree_create [10]).bind
        (fun t => (btree_remove intCompare 3 1 zeroed 2 t (some 10)).map (fun r => r.1.destroyed))
      = some [DestroyArg.node 0]) ∧
    ((btree_add_all intCompare 3 2 zeroed 2 btree_create [10]).bind
        (fun t => (btree_remove intCompare 3 2 zeroed 2 t (some 10)).map (fun r => r.1.destroyed))
      = some [DestroyArg.node 0]) := by
  constructor <;> rfl

/-- C10 (fails on the code): with `M = 3`, `btree_destroy` of the tree built by
`btree_add` of 1, 2, 3, 4 ends with node counter 0 after three calls of
`destroy`, one per node and none per key, for four stored keys; `mn = 1` and
`mn = 2`. -/
theorem C10_destroy_counts_nodes :
    ((btree_add_all intCompare 3 1 zeroed 3 btree_create [1, 2, 3, 4]).bind
        (fun t => (btree_destroy intCompare 3 1 zeroed 3 5 t).map
          (fun u => (inorder t.heap 3 t.root, u.size, u.destroyed)))
      = some ([some 1, some 2, some 3, some 4], 0,
          [DestroyArg.node 0, DestroyArg.node 1, DestroyArg.node 2])) ∧
    ((btree_add_all intCompare 3 2 zeroed 3 btree_create [1, 2, 3, 4]).bind
        (fun t => (btree_destroy intCompare 3 2 zeroed 3 5 t).map
          (fun u => (inorder t.heap 3 t.root, u.size, u.destroyed)))
      = some ([some 1, some 2, some 3, some 4], 0,
          [DestroyArg.node 0, DestroyArg.node 1, DestroyArg.node 2])) := by
  constructor <;> rfl

/-- C6: `btree_containsKey` is sound and reports an absent key.  When it
returns true with position `p`, a node reachable from the root has
`1 ≤ p ≤ size` and a key at slot `p` comparing equal to `k`; on a tree of
depth at most `d` searched with more fuel than `d`, when no slot `1..size`
of a reachable node compares equal to `k`, it returns false and leaves
`*pos` alone. -/
theorem C6_search_sound_and_absent {α : Type} (cmp : Compare α) (M fuel : Nat) (t : BTree α)
    (pos : Nat) (k : α) :
    (∀ p, btree_containsKey cmp M fuel t pos k = some (true, p) →
      ∃ a, Reach M t.heap t.root a ∧ 1 ≤ p ∧ (p : Int) ≤ (deref t.heap a).size ∧
        cmp (some k) (rd (deref t.heap a).values p) = 0) ∧
    (∀ d, DepthLE M t.heap d t.root → d < fuel →
      (∀ a (q : Nat), Reach M t.heap t.root a → 1 ≤ q → (q : Int) ≤ (deref t.heap a).size →
        cmp (some k) (rd (deref t.heap a).values q) ≠ 0) →
      btree_containsKey cmp M fuel t pos k = some (false, pos)) := by
  constructor
  · intro p hp
    unfold btree_containsKey at hp
    cases hc : containsKey cmp M t.heap (some k) fuel t.root pos none with
    | none => simp [hc] at hp
    | some r =>
      simp only [hc, Option.some.injEq, Prod.mk.injEq] at hp
      obtain ⟨a, ha, _, h2, h3, h4⟩ := containsKey_sound cmp M t.heap (some k) fuel t.root pos none r hc hp.1
      rw [hp.2] at h2 h3 h4
      exact ⟨a, ha, h2, h3, h4⟩
  · intro d hd hf habs
    unfold btree_containsKey
    rw [containsKey_absent cmp M t.heap (some k) d fuel t.root pos none hd hf habs]

/-- Witness of C6 on the tree holding 10: the search of 10 is sound, the
search of the absent 20 returns false. -/
theorem C6_search_witness :
    (∃ a, Reach 3 single10.heap single10.root a ∧ 1 ≤ 1 ∧
        ((1 : Nat) : Int) ≤ (deref single10.heap a).size ∧
        intCompare (some 10) (rd (deref single10.heap a).values 1) = 0) ∧
    btree_containsKey intCompare 3 2 single10 0 20 = some (false, 0) := by
  have hreach : ∀ a, Reach 3 single10.heap single10.root a → a = 0 := by
    intro a ha
    generalize hp : single10.root = p at ha
    induction ha with
    | root b => cases hp; rfl
    | @child _ a b i _ hi hb ih =>
      have := ih hp
      subst this
      interval_cases i <;> simp [single10, deref, rd] at hb
  refine ⟨(C6_search_sound_and_absent intCompare 3 2 single10 0 10).1 1 rfl,
    (C6_search_sound_and_absent intCompare 3 2 single10 0 20).2 1 ?_ (by decide) ?_⟩
  · intro a ha i hi
    cases ha
    interval_cases i <;> rfl
  · intro a q ha h1 h2
    have := hreach a ha
    subst this
    have hq : q = 1 := by
      have : (deref single10.heap 0).size = 1 := rfl
      rw [this] at h2
      omega
    subst hq
    decide

/-- C3: for `1 ≤ mn < M`, every sequence of `btree_add` calls from the empty
tree succeeds (with more fuel than keys) and ends in a tree all of whose
childless nodes lie at one depth `d`, the value returned by `btree_height`
(0 for the empty sequence). -/
theorem C3_balance_after_adds {α : Type} (cmp : Compare α) (M mn : Nat) (junk : BTreeNode α)
    (h1 : 1 ≤ mn) (h2 : mn < M) (keys : List α) (fuel : Nat) (hf : keys.length < fuel) :
    ∃ t d, btree_add_all cmp M mn junk fuel btree_create keys = some t ∧
      btree_height fuel t = some (d : Int) ∧
      ∀ a n, AtDepth M t.heap t.root a n →
        (∀ i, i ≤ M → rd (deref t.heap a).children i = none) → n = d := by
  obtain ⟨t, d, ht, hb, hd⟩ := btree_add_all_bal cmp M mn (min mn (M - mn)) junk h1 h2
    (by omega) (by omega) (by omega) fuel keys btree_create 0 ((Bal.zero_iff ..).2 rfl)
    (by omega)
  refine ⟨t, d, ht, height_of_bal hb (by omega), ?_⟩
  intro a n ha hleaf
  obtain ⟨b', hb', hn⟩ := atDepth_bal hb ha
  obtain ⟨e, he⟩ : ∃ e, d + 1 - n = e + 1 := ⟨d - n, by omega⟩
  rw [he] at hb'
  obtain ⟨x, s, hx, _, _, _, _, _, _, hk, _⟩ := hb'
  cases hx
  have h0 := hk 0 (by omega)
  rw [hleaf 0 (by omega)] at h0
  cases e with
  | zero => omega
  | succ e => simp [Bal] at h0

/-- Witness of C3: `M = 3`, `mn = 1`, the keys 1, 2, 3, 4. -/
theorem C3_balance_witness :
    1 ≤ 1 ∧ 1 < 3 ∧ [(1 : Int), 2, 3, 4].length < 5 ∧
    ∃ t d, btree_add_all intCompare 3 1 zeroed 5 btree_create [1, 2, 3, 4] = some t ∧
      btree_height 5 t = some (d : Int) ∧
      ∀ a n, AtDepth 3 t.heap t.root a n →
        (∀ i, i ≤ 3 → rd (deref t.heap a).children i = none) → n = d :=
  ⟨by decide, by decide, by decide,
    C3_balance_after_adds intCompare 3 1 zeroed (by decide) (by decide) [1, 2, 3, 4] 5
      (by decide)⟩

/-- C4 (fails as stated): with `M = 3` and `mn = 2`, after `btree_add` of 1, 2,
3, 4 the right child of the root (node 1) holds one key; with `M = 3` and
`mn = 1`, after `btree_add` of 1..10 and `btree_remove` of 4 the node 0, child 0
of child 0 of the root, holds no key. -/
theorem C4_occupancy_fails :
    (∃ t, btree_add_all intCompare 3 2 zeroed 3 btree_create [1, 2, 3, 4] = some t ∧
      ¬ Occupancy 3 2 t) ∧
    (∃ t u, btree_add_all intCompare 3 1 zeroed 4 btree_create
        [1, 2, 3, 4, 5, 6, 7, 8, 9, 10] = some t ∧
      btree_remove intCompare 3 1 zeroed 4 t (some 4) = some (u, true) ∧ ¬ Occupancy 3 1 u) := by
  constructor
  · refine ⟨(btree_add_all intCompare 3 2 zeroed 3 btree_create [1, 2, 3, 4]).get rfl,
      by simp, ?_⟩
    intro h
    have h1 := (h 1 (Reach.child (i := 1) (Reach.root 2) (by decide) rfl)).2 (by decide)
    exact absurd h1.1 (by decide)
  · refine ⟨(btree_add_all intCompare 3 1 zeroed 4 btree_create
        [1, 2, 3, 4, 5, 6, 7, 8, 9, 10]).get rfl,
      ((btree_remove intCompare 3 1 zeroed 4 ((btree_add_all intCompare 3 1 zeroed 4 btree_create
        [1, 2, 3, 4, 5, 6, 7, 8, 9, 10]).get rfl) (some 4)).get rfl).1, by simp, rfl, ?_⟩
    intro h
    have h1 := (h 0 (Reach.child (i := 0) (Reach.child (i := 0) (Reach.root 7) (by decide) rfl)
      (by decide) rfl)).2 (by decide)
    exact absurd h1.1 (by decide)

/-- C4 (amended): for `1 ≤ mn < M`, after every sequence of `btree_add` calls
from the empty tree the root holds between 0 and `M` keys and every other
reachable node between `min mn (M - mn)` and `M`. -/
theorem C4_occupancy_after_adds {α : Type} (cmp : Compare α) (M mn : Nat) (junk : BTreeNode α)
    (h1 : 1 ≤ mn) (h2 : mn < M) (keys : List α) (fuel : Nat) (hf : keys.length < fuel) :
    ∃ t, btree_add_all cmp M mn junk fuel btree_create keys = some t ∧
      Occupancy M (min mn (M - mn)) t := by
  obtain ⟨t, d, ht, hb, _⟩ := btree_add_all_bal cmp M mn (min mn (M - mn)) junk h1 h2
    (by omega) (by omega) (by omega) fuel keys btree_create 0 ((Bal.zero_iff ..).2 rfl)
    (by omega)
  refine ⟨t, ht, ?_⟩
  intro a ha
  obtain ⟨b', e, hb', hor⟩ := reach_bal hb ha
  obtain ⟨x, s, hx, _, hs, hbs, hs1, hsM, _⟩ := hb'
  cases hx
  rw [hs]
  constructor
  · intro _
    exact ⟨by omega, by exact_mod_cast hsM⟩
  · intro hne
    rcases hor with h | h
    · exact absurd h hne
    · subst h
      exact ⟨by exact_mod_cast hbs, by exact_mod_cast hsM⟩

/-- Witness of the amended C4: `M = 3`, `mn = 2`, the keys 1, 2, 3, 4. -/
theorem C4_occupancy_witness :
    1 ≤ 2 ∧ 2 < 3 ∧ [(1 : Int), 2, 3, 4].length < 5 ∧
    ∃ t, btree_add_all intCompare 3 2 zeroed 5 btree_create [1, 2, 3, 4] = some t ∧
      Occupancy 3 (min 2 (3 - 2)) t :=
  ⟨by decide, by decide, by decide,
    C4_occupancy_after_adds intCompare 3 2 zeroed (by decide) (by decide) [1, 2, 3, 4] 5
      (by decide)⟩

/-- C11 (Scenario A): with `M = 3`, for `mn = 1` and for `mn = 2`, the heights
after 0..8 insertions of 10, 20, 5, 6, 12, 30, 7, 17 are 0, 1, 1, 1, 2, 2, 2,
2, 2 and the root pointer changes by a split only at the fourth insertion
(node 2 becomes the root, the first insertion creates node 0); after the
fourth insertion the root holds the promoted key between the keys of its left
child (node 0) and of its right child (node 1). -/
theorem C11_scenario_A :
    (height_trace intCompare 3 1 3 scenarioA =
        [some (0, none), some (1, some 0), some (1, some 0), some (1, some 0), some (2, some 2),
          some (2, some 2), some (2, some 2), some (2, some 2), some (2, some 2)] ∧
      (btree_add_all intCompare 3 1 zeroed 3 btree_create (scenarioA.take 4)).map
          (fun t => (node_view t 2, node_view t 0, node_view t 1)) =
        some (([none, some 6, none, none], 1, [some 0, some 1, none, none]),
          ([none, some 5, none, none], 1, [none, none, none, none]),
          ([none, some 10, some 20, none], 2, [none, none, none, none]))) ∧
    (height_trace intCompare 3 2 3 scenarioA =
        [some (0, none), some (1, some 0), some (1, some 0), some (1, some 0), some (2, some 2),
          some (2, some 2), some (2, some 2), some (2, some 2), some (2, some 2)] ∧
      (btree_add_all intCompare 3 2 zeroed 3 btree_create (scenarioA.take 4)).map
          (fun t => (node_view t 2, node_view t 0, node_view t 1)) =
        some (([none, some 10, none, none], 1, [some 0, some 1, none, none]),
          ([none, some 5, some 6, none], 2, [none, none, none, none]),
          ([none, some 20, none, none], 1, [none, none, none, none]))) := by
  refine ⟨⟨?_, ?_⟩, ⟨?_, ?_⟩⟩ <;> rfl

/-- C15 (fails on the code): no right-borrow happens.  `M = 3`, `mn = 2`: after
`btree_add` of 1..6 the leaf 0 holds 1, 2, its right sibling 1 holds 4, 5, 6
under the parent key 3; `btree_remove` of 1 leaves the leaf with the single
key 2, the sibling and the parent as they were.  `M = 3`, `mn = 1`: after
`btree_add` of 1..4 the leaf 0 holds 1 and its right sibling 3, 4;
`btree_remove` of 1 passes the leaf to `destroy`, unlinks it and lowers the node
counter from 3 to 2. -/
theorem C15_no_right_borrow :
    ((btree_add_all intCompare 3 2 zeroed 3 btree_create [1, 2, 3, 4, 5, 6]).bind
        (fun t => (btree_remove intCompare 3 2 zeroed 3 t (some 1)).map
          (fun r => (node_view t 0, node_view t 1, node_view t 2, t.size,
            node_view r.1 0, node_view r.1 1, node_view r.1 2, r.1.size, r.1.destroyed)))
      = some (([none, some 1, some 2, none], 2, [none, none, none, none]),
          ([none, some 4, some 5, some 6], 3, [none, none, none, none]),
          ([none, some 3, none, none], 1, [some 0, some 1, none, none]), 3,
          ([none, some 2, none, none], 1, [none, none, none, none]),
          ([none, some 4, some 5, some 6], 3, [none, none, none, none]),
          ([none, some 3, none, none], 1, [some 0, some 1, none, none]), 3, [])) ∧
    ((btree_add_all intCompare 3 1 zeroed 3 btree_create [1, 2, 3, 4]).bind
        (fun t => (btree_remove intCompare 3 1 zeroed 3 t (some 1)).map
          (fun r => (node_view t 0, node_view t 1, node_view t 2, t.size,
            node_view r.1 1, node_view r.1 2, r.1.size, r.1.destroyed)))
      = some (([none, some 1, none, none], 1, [none, none, none, none]),
          ([none, some 3, some 4, none], 2, [none, none, none, none]),
          ([none, some 2, none, none], 1, [some 0, some 1, none, none]), 3,
          ([none, some 3, some 4, none], 2, [none, none, none, none]),
          ([none, some 2, none, none], 1, [some 1, none, none, none]), 2,
          [DestroyArg.node 0])) := by
  constructor <;> rfl

/-- C16 (fails on the code): with `M = 3` and any `mn`, on the leaf root
holding 10, 20, 30 the call `btree_remove` of 20 returns true and removes
nothing: `containsKey` does not find a key stored at position 2 (see C1) and
`remove_helper` goes on with the block of its `malloc` (zeroed here).  The
same on a leaf below the root: `M = 3`, `mn = 1`, after `btree_add` of 1..4
the leaf 1 holds 3, 4 and `btree_remove` of 4 leaves the traversal 1, 2, 3, 4. -/
theorem C16_leaf_delete_misses_key (mn : Nat) :
    ((btree_add_all intCompare 3 mn zeroed 2 btree_create [10, 20, 30]).bind
        (fun t => (btree_remove intCompare 3 mn zeroed 2 t (some 20)).map
          (fun r => (r.2, node_view t 0, (deref t.heap 0).isLeaf, node_view r.1 0)))
      = some (true, ([none, some 10, some 20, some 30], 3, [none, none, none, none]), true,
          ([none, some 10, some 20, some 30], 3, [none, none, none, none]))) ∧
    ((btree_add_all intCompare 3 1 zeroed 3 btree_create [1, 2, 3, 4]).bind
        (fun t => (btree_remove intCompare 3 1 zeroed 3 t (some 4)).map
          (fun r => (r.2, node_view t 1, (deref t.heap 1).isLeaf, node_view r.1 1,
            inorder r.1.heap 3 r.1.root)))
      = some (true, ([none, some 3, some 4, none], 2, [none, none, none, none]), true,
          ([none, some 3, some 4, none], 2, [none, none, none, none]),
          [some 1, some 2, some 3, some 4])) := by
  constructor <;> rfl

/-- C19 (fails on the code): the key of an internal node is replaced by the
first key of its leftmost leaf, not by its successor.  `M = 3`, `mn = 1`: after
1..4 the root holds 2 over the leaves 1 and 3, 4; `btree_remove` of 2 puts 1
into the root (the successor is 3) and the traversal becomes 3, 4, 1.
`M = 3`, `mn = 2`: the root holds 3 over 1, 2 and 4; `btree_remove` of 3 puts 1
into the root (the successor is 4) and the traversal becomes 2, 1, 4. -/
theorem C19_internal_delete_takes_leftmost :
    ((btree_add_all intCompare 3 1 zeroed 3 btree_create [1, 2, 3, 4]).bind
        (fun t => (btree_remove intCompare 3 1 zeroed 3 t (some 2)).map
          (fun r => (inorder t.heap 3 t.root, (node_view r.1 2).1, inorder r.1.heap 3 r.1.root)))
      = some ([some 1, some 2, some 3, some 4], [none, some 1, none, none],
          [some 3, some 4, some 1])) ∧
    ((btree_add_all intCompare 3 2 zeroed 3 btree_create [1, 2, 3, 4]).bind
        (fun t => (btree_remove intCompare 3 2 zeroed 3 t (some 3)).map
          (fun r => (inorder t.heap 3 t.root, (node_view r.1 2).1, inorder r.1.heap 3 r.1.root)))
      = some ([some 1, some 2, some 3, some 4], [none, some 1, none, none],
          [some 2, some 1, some 4])) := by
  constructor <;> rfl

/-- C20 (fails on the code): with `M = 3`, after `btree_add` of 1..4 and
`btree_remove` of the only key of a leaf (1 for `mn = 1`, 4 for `mn = 2`) the
root (node 2) holds one key and has one child. -/
theorem C20_shape_broken_after_remove :
    ((btree_add_all intCompare 3 1 zeroed 3 btree_create [1, 2, 3, 4]).bind
        (fun t => (btree_remove intCompare 3 1 zeroed 3 t (some 1)).map
          (fun r => (r.1.root, node_view r.1 2)))
      = some (some 2, ([none, some 2, none, none], 1, [some 1, none, none, none]))) ∧
    ((btree_add_all intCompare 3 2 zeroed 3 btree_create [1, 2, 3, 4]).bind
        (fun t => (btree_remove intCompare 3 2 zeroed 3 t (some 4)).map
          (fun r => (r.1.root, node_view r.1 2)))
      = some (some 2, ([none, some 3, none, none], 1, [some 0, none, none, none]))) := by
  constructor <;> rfl

/-- C12: on a tree whose root is not `NULL` and holds the key `v` in its slot
`size`, `btree_remove(tree, NULL)` returns the same flag and the same tree
as `btree_remove(tree, &v)`. -/
theorem C12_default_removal_target {α : Type} (cmp : Compare α) (M mn : Nat)
    (junk : BTreeNode α) (fuel : Nat) (t : BTree α) (root : Nat) (v : α)
    (hroot : t.root = some root)
    (hv : rd (deref t.heap root).values (deref t.heap root).size.toNat = some v) :
    btree_remove cmp M mn junk fuel t none = btree_remove cmp M mn junk fuel t (some v) := by
  simp only [btree_remove, hroot, hv]

/-- Witness of C12 on the tree holding 10. -/
theorem C12_default_removal_witness :
    single10.root = some 0 ∧
    rd (deref single10.heap 0).values (deref single10.heap 0).size.toNat = some 10 ∧
    btree_remove intCompare 3 1 zeroed 2 single10 none =
      btree_remove intCompare 3 1 zeroed 2 single10 (some 10) ∧
    (btree_remove intCompare 3 1 zeroed 2 single10 none).isSome = true :=
  ⟨rfl, rfl, C12_default_removal_target intCompare 3 1 zeroed 2 single10 0 10 rfl rfl, rfl⟩

/-- C13: `btree_height` is 0 on the tree of `btree_create`; on a root `a` it is
one more than the larger of the heights of `children[0]` and
`children[size]`; it is never negative; it returns on every tree whose two
spines are finite, given more fuel than their length.  Its only result is
the integer: the tree is an argument that it cannot change. -/
theorem C13_height_definition {α : Type} :
    (∀ fuel, btree_height (fuel + 1) (btree_create : BTree α) = some 0) ∧
    (∀ (t : BTree α) (a fuel : Nat) (l r : Int), t.root = some a →
      height t.heap fuel (rd (deref t.heap a).children 0) = some l →
      height t.heap fuel (rd (deref t.heap a).children (deref t.heap a).size.toNat) = some r →
      btree_height (fuel + 1) t = some (1 + max l r)) ∧
    (∀ (t : BTree α) (fuel : Nat) (x : Int), btree_height fuel t = some x → 0 ≤ x) ∧
    (∀ (t : BTree α) (d fuel : Nat), SpineLE t.heap d t.root → d < fuel →
      ∃ x, btree_height fuel t = some x) := by
  refine ⟨fun _ => rfl, ?_, ?_, ?_⟩
  · intro t a fuel l r ha hl hr
    unfold btree_height
    rw [ha]
    exact height_step t.heap fuel a l r hl hr
  · intro t fuel x hx
    exact height_nonneg t.heap fuel t.root x hx
  · intro t d fuel hs hf
    exact height_total t.heap d fuel t.root hs hf

/-- Witness of C13 on the tree `threeNodes`: both children of the root have
height 1, the tree has height 2. -/
theorem C13_height_witness :
    btree_height 3 threeNodes = some (1 + max 1 1) ∧ (0 : Int) ≤ 2 ∧
    ∃ x, btree_height 3 threeNodes = some x :=
  ⟨(C13_height_definition (α := Int)).2.1 threeNodes 2 2 1 1 rfl rfl rfl,
    (C13_height_definition (α := Int)).2.2.1 threeNodes 3 2 rfl,
    (C13_height_definition (α := Int)).2.2.2 threeNodes 2 3
      (by
        intro a ha
        cases ha
        constructor
        · intro b hb
          cases hb
          exact ⟨rfl, rfl⟩
        · intro b hb
          cases hb
          exact ⟨rfl, rfl⟩)
      (by decide)⟩

/-- C14: `btree_diameter` is 0 on a tree without root; on a root whose
leftmost and rightmost subtrees have heights `hl` and `hr` at most 2 apart
it is `hl + hr + 1`, so 5 for `hl = hr = 2`; on a balanced tree of height
`d + 1` it is `2 * (d + 1) - 1`, with `btree_height` equal to `d + 1`. -/
theorem C14_diameter {α : Type} (M lo : Nat) (t : BTree α) (fuel : Nat) :
    (t.root = none → btree_diameter fuel t = some 0) ∧
    (∀ (a : Nat) (hl hr : Int), t.root = some a →
      height t.heap fuel (rd (deref t.heap a).children 0) = some hl →
      height t.heap fuel (rd (deref t.heap a).children (deref t.heap a).size.toNat) = some hr →
      hl ≤ hr + 2 → hr ≤ hl + 2 → btree_diameter (fuel + 1) t = some (hl + hr + 1)) ∧
    (∀ b d, Bal M lo t.heap b (d + 1) t.root → d < fuel →
      btree_diameter (fuel + 1) t = some (2 * ((d + 1 : Nat) : Int) - 1) ∧
      btree_height (fuel + 1) t = some ((d + 1 : Nat) : Int)) := by
  refine ⟨?_, ?_, ?_⟩
  · intro hr
    simp [btree_diameter, hr]
  · intro a hl hr ha h1 h2 b1 b2
    exact btree_diameter_eq t fuel a hl hr ha h1 h2 b1 b2
  · intro b d hb hf
    have hh := height_of_bal hb (by omega : d + 1 < fuel + 1)
    refine ⟨?_, hh⟩
    obtain ⟨a, s, ha, _, hs, _, _, _, _, hk, _⟩ := hb
    have hsn : (deref t.heap a).size.toNat = s := by rw [hs]; exact Int.toNat_natCast s
    have h1 := height_of_bal (hk 0 (by omega)) hf
    have h2 := height_of_bal (hk s (Nat.le_refl _)) hf
    rw [← hsn] at h2
    rw [btree_diameter_eq t fuel a d d ha h1 h2 (by omega) (by omega)]
    congr 1
    push_cast
    omega

/-- Witness of C14: the empty tree has diameter 0, the seven-node tree of
Scenario E (both subtrees of the root of height 2) has diameter 5, the
balanced tree `threeNodes` of height 2 has diameter 3. -/
theorem C14_diameter_witness :
    btree_diameter 3 (btree_create : BTree Int) = some 0 ∧
    btree_diameter 4 sevenNodes = some (2 + 2 + 1) ∧
    (btree_diameter 3 threeNodes = some (2 * ((1 + 1 : Nat) : Int) - 1) ∧
      btree_height 3 threeNodes = some ((1 + 1 : Nat) : Int)) := by
  have hleaf : ∀ a, (a = 0 ∨ a = 1) → Bal 3 1 threeNodes.heap 1 1 (some a) := by
    intro a ha
    have key : ∀ (s : Nat), (deref threeNodes.heap a).size = (s : Int) → 1 ≤ s → s ≤ 3 →
        a < threeNodes.heap.length → (deref threeNodes.heap a).children.length = 3 + 1 →
        (∀ i, rd (deref threeNodes.heap a).children i = none) →
        Bal 3 1 threeNodes.heap 1 1 (some a) :=
      fun s h1 h2 h3 h4 h5 h6 =>
        ⟨a, s, rfl, h4, h1, h2, h2, h3, h5, fun i _ => (Bal.zero_iff ..).2 (h6 i),
          fun i _ => h6 i⟩
    have hnone : ∀ i, rd [(none : Option Nat), none, none, none] i = none := by
      intro i
      by_cases hi : i < 4
      · interval_cases i <;> rfl
      · exact rd_of_length_le _ _ (by simp; omega)
    rcases ha with rfl | rfl
    · exact key 1 rfl (by decide) (by decide) (by decide) rfl hnone
    · exact key 2 rfl (by decide) (by decide) (by decide) rfl hnone
  have hbal : Bal 3 1 threeNodes.heap 1 (1 + 1) threeNodes.root := by
    refine ⟨2, 1, rfl, by decide, rfl, by decide, by decide, by decide, rfl, ?_, ?_⟩
    · intro i hi
      interval_cases i
      · exact hleaf 0 (Or.inl rfl)
      · exact hleaf 1 (Or.inr rfl)
    · intro i hi
      by_cases h4 : i < 4
      · interval_cases i <;> rfl
      · exact rd_of_length_le _ _ (by simp [threeNodes, deref]; omega)
  exact ⟨(C14_diameter 3 1 (btree_create : BTree Int) 3).1 rfl,
    (C14_diameter 3 1 sevenNodes 3).2.1 6 2 2 rfl rfl rfl (by decide) (by decide),
    (C14_diameter 3 1 threeNodes 2).2.2 1 1 hbal (by decide)⟩

/-- C17 (fails on the code): a failed `malloc` does not leave the tree as it
was.  `M = 3`, any `mn`: on the empty tree, `btree_add` of 10 with the `malloc`
of `node_create` failing leaves the root `NULL` and raises the node counter
from 0 to 1.  `M = 3`, `mn = 1`: on the tree whose root (node 0) holds 1, 2, 3,
`btree_add` of 4 with the `malloc` of `node_split` failing raises the node
counter from 1 to 3 and makes a new root that holds 4 over the old root and
no second child; with the `malloc` of `node_create` failing too, the root
becomes `NULL`. -/
theorem C17_failed_allocation_changes_tree (mn : Nat) :
    ((btree_add_alloc intCompare 3 mn zeroed 2 [false] btree_create 10).map
        (fun r => (r.1.root, r.1.size, r.1.heap))
      = some (none, 1, [])) ∧
    ((btree_add_all intCompare 3 1 zeroed 3 btree_create [1, 2, 3]).bind
        (fun t => (btree_add_alloc intCompare 3 1 zeroed 3 [false] t 4).map
          (fun r => (t.root, t.size, node_view t 0,
            r.1.root, r.1.size, node_view r.1 0, node_view r.1 1)))
      = some (some 0, 1, ([none, some 1, some 2, some 3], 3, [none, none, none, none]),
          some 1, 3, ([none, some 1, some 2, some 3], 3, [none, none, none, none]),
          ([none, some 4, none, none], 1, [some 0, none, none, none]))) ∧
    ((btree_add_all intCompare 3 1 zeroed 3 btree_create [1, 2, 3]).bind
        (fun t => (btree_add_alloc intCompare 3 1 zeroed 3 [false, false] t 4).map
          (fun r => (t.root, t.size, r.1.root, r.1.size)))
      = some (some 0, 1, none, 3)) := by
  refine ⟨?_, ?_, ?_⟩ <;> rfl

/-- C18: for `1 ≤ mn < M`, after every sequence of `btree_add` calls from the
empty tree (with more fuel than keys) every key in any slot of a node
reachable from the root is one of the inserted keys, and every inserted key
`k` is present in a slot `1..size` of a reachable node, as `k` itself or as
the stored key that made `k` a duplicate (the comparator returns 0 on them);
when the comparator returns 0 on equal keys only, the stored keys are
exactly the inserted keys. -/
theorem C18_key_set_conserved {α : Type} (cmp : Compare α) (M mn : Nat) (junk : BTreeNode α)
    (h1 : 1 ≤ mn) (h2 : mn < M) (keys : List α) (fuel : Nat) (hf : keys.length < fuel) :
    ∃ t, btree_add_all cmp M mn junk fuel btree_create keys = some t ∧
      (∀ a i k, Reach M t.heap t.root a → rd (deref t.heap a).values i = some k → k ∈ keys) ∧
      (∀ k, k ∈ keys → ∃ k', (k' = k ∨ cmp (some k) (some k') = 0) ∧
        ∃ (a i : Nat), Reach M t.heap t.root a ∧ 1 ≤ i ∧ (i : Int) ≤ (deref t.heap a).size ∧
          rd (deref t.heap a).values i = some k') ∧
      ((∀ x y, cmp (some x) (some y) = 0 → x = y) →
        ∀ k, k ∈ keys → ∃ (a i : Nat), Reach M t.heap t.root a ∧ 1 ≤ i ∧
          (i : Int) ≤ (deref t.heap a).size ∧ rd (deref t.heap a).values i = some k) := by
  obtain ⟨t, d, ht, hb, _, hK, hH⟩ := btree_add_all_keys cmp M mn (min mn (M - mn)) junk h1 h2
    (by omega) (by omega) (by omega) fuel keys (fun _ => False) btree_create 0
    ((Bal.zero_iff ..).2 rfl) (by omega) (fun x hx => by simp [btree_create] at hx)
    (fun x i k hx _ => by simp [btree_create] at hx) (fun x hx => hx.elim)
  have hpres : ∀ k, k ∈ keys → ∃ k', (k' = k ∨ cmp (some k) (some k') = 0) ∧
      ∃ (a i : Nat), Reach M t.heap t.root a ∧ 1 ≤ i ∧ (i : Int) ≤ (deref t.heap a).size ∧
        rd (deref t.heap a).values i = some k' := by
    intro k hk
    obtain ⟨k', hk1, e, hk2⟩ := hH k (Or.inl hk)
    exact ⟨k', hk1, Has.reach hb hk2⟩
  refine ⟨t, ht, ?_, hpres, ?_⟩
  · intro a i k ha hk
    obtain ⟨b', e, hba, _⟩ := reach_bal hb ha
    obtain ⟨a', _, ha', hal, _⟩ := hba
    cases ha'
    rcases hK a i k hal hk with h | h
    · exact h
    · exact h.elim
  · intro hcmp k hk
    obtain ⟨k', hk1, hk2⟩ := hpres k hk
    rcases hk1 with hk1 | hk1
    · rw [← hk1]; exact hk2
    · rw [hcmp k k' hk1]; exact hk2

/-- Witness of C18: `M = 3`, `mn = 1`, the keys 1, 2, 3, 4 under the integer
comparator, which returns 0 on equal keys only. -/
theorem C18_key_set_witness :
    1 ≤ 1 ∧ 1 < 3 ∧ [(1 : Int), 2, 3, 4].length < 5 ∧
    ∃ t, btree_add_all intCompare 3 1 zeroed 5 btree_create [1, 2, 3, 4] = some t ∧
      (∀ a i k, Reach 3 t.heap t.root a → rd (deref t.heap a).values i = some k →
        k ∈ [(1 : Int), 2, 3, 4]) ∧
      (∀ k, k ∈ [(1 : Int), 2, 3, 4] → ∃ (a i : Nat), Reach 3 t.heap t.root a ∧ 1 ≤ i ∧
        (i : Int) ≤ (deref t.heap a).size ∧ rd (deref t.heap a).values i = some k) := by
  obtain ⟨t, ht, hu, _, hl⟩ :=
    C18_key_set_conserved intCompare 3 1 zeroed (by decide) (by decide) [1, 2, 3, 4] 5 (by decide)
  refine ⟨by decide, by decide, by decide, t, ht, hu, hl ?_⟩
  intro x y hxy
  simp only [intCompare] at hxy
  omega

/-- C21 (fails on the code): with `M = 3` and any `mn`, after the single call
`btree_add` of 10 on the empty tree the root (node 0) has `isLeaf = false`
although its four child slots are empty: `node_create` always stores
`isLeaf = false` and `btree_add` recomputes the flag of `child` only. -/
theorem C21_first_root_not_leaf (mn : Nat) :
    (btree_add intCompare 3 mn zeroed 1 btree_create 10).map
        (fun t => (t.root, (deref t.heap 0).isLeaf, (deref t.heap 0).children))
      = some (some 0, false, [none, none, none, none]) := rfl

/-- C24 (fails on the code): the children are not handed over in order.
`M = 3`, node with keys 1, 2, 3 and children 10, 11, 12, 13, `node_split` with
index 3, key 4 and child 14.  For `mn = 1` the left node gets the children 10,
12 and the sibling 11, 13, 14; for `mn = 2` the left node gets 10, 11, 13 and
the sibling 12, 14: the child after the promoted key stays left and the child
before it goes right.  The keys are in order: 1, then 2 promoted, then 3, 4
(`mn = 1`); 1, 2, then 3 promoted, then 4 (`mn = 2`). -/
theorem C24_split_children_out_of_order :
    node_split 3 1 zeroed 3 fullNode (some 14) (some 4) =
      (⟨[none, some 1, none, none], [some 10, some 12, none, none], 1, false⟩,
        ⟨[none, some 3, some 4, none], [some 11, some 13, some 14, none], 2, false⟩, some 2) ∧
    node_split 3 2 zeroed 3 fullNode (some 14) (some 4) =
      (⟨[none, some 1, some 2, none], [some 10, some 11, some 13, none], 2, false⟩,
        ⟨[none, some 4, none, none], [some 12, some 14, none, none], 1, false⟩, some 3) := by
  constructor <;> rfl

/-- C22: for `1 ≤ mn < M`, on the tree `t` built by `btree_add` of `keys`, a
further `btree_add` of `k` succeeds; `btree_height` goes from `d` to `d'` with
`d' = d` or `d' = d + 1`; `d' = d + 1` exactly when `node_set_value` on the
root returned true, and then the root of the new tree is the node allocated
last, otherwise the root is the old one; every node without children lies at
depth `d` before and at depth `d'` after. -/
theorem C22_height_step {α : Type} (cmp : Compare α) (M mn : Nat) (junk : BTreeNode α)
    (h1 : 1 ≤ mn) (h2 : mn < M) (keys : List α) (k : α) (fuel : Nat)
    (hf : keys.length + 1 < fuel) :
    ∃ (t : BTree α) (r : SetResult α) (t' : BTree α) (d d' : Nat),
      btree_add_all cmp M mn junk fuel btree_create keys = some t ∧
      node_set_value cmp M mn junk fuel t t.root none (some k) none = some r ∧
      btree_add cmp M mn junk fuel t k = some t' ∧
      btree_height fuel t = some (d : Int) ∧ btree_height fuel t' = some (d' : Int) ∧
      (d' = d ∨ d' = d + 1) ∧ (d' = d + 1 ↔ r.ret = true) ∧
      (r.ret = true → t'.root = some r.tree.heap.length ∧ t.heap.length ≤ r.tree.heap.length ∧
        t'.heap.length = r.tree.heap.length + 1) ∧
      (r.ret = false → t'.root = t.root) ∧
      (∀ a n, AtDepth M t.heap t.root a n →
        (∀ i, i ≤ M → rd (deref t.heap a).children i = none) → n = d) ∧
      (∀ a n, AtDepth M t'.heap t'.root a n →
        (∀ i, i ≤ M → rd (deref t'.heap a).children i = none) → n = d') := by
  obtain ⟨t, d, ht, hb, hd⟩ := btree_add_all_bal cmp M mn (min mn (M - mn)) junk h1 h2
    (by omega) (by omega) (by omega) fuel keys btree_create 0 ((Bal.zero_iff ..).2 rfl)
    (by omega)
  obtain ⟨r, t', hr, ht', hlen, e1, e2⟩ := btree_add_bal_ret cmp M mn (min mn (M - mn)) junk
    h1 h2 (by omega) (by omega) (by omega) t d fuel hb (by omega) k
  by_cases hrt : r.ret = true
  · obtain ⟨a1, a2, a3⟩ := e1 hrt
    exact ⟨t, r, t', d, d + 1, ht, hr, ht', height_of_bal hb (by omega),
      height_of_bal a3 (by omega), Or.inr rfl, ⟨fun _ => hrt, fun _ => rfl⟩,
      fun _ => ⟨a1, hlen, a2⟩, fun h => absurd hrt (by simp [h]),
      fun a n ha hl => leaf_depth_of_bal hb ha hl,
      fun a n ha hl => leaf_depth_of_bal a3 ha hl⟩
  · have hrf : r.ret = false := by simpa using hrt
    obtain ⟨a1, a2, a3⟩ := e2 hrf
    exact ⟨t, r, t', d, d, ht, hr, ht', height_of_bal hb (by omega),
      height_of_bal a3 (by omega), Or.inl rfl, ⟨fun h => by omega, fun h => absurd h hrt⟩,
      fun h => absurd h hrt, fun _ => a1,
      fun a n ha hl => leaf_depth_of_bal hb ha hl,
      fun a n ha hl => leaf_depth_of_bal a3 ha hl⟩

/-- Witness of C22: `M = 3`, `mn = 1`, the tree of 1, 2, 3 and the key 4. -/
theorem C22_height_step_witness :
    1 ≤ 1 ∧ 1 < 3 ∧ [(1 : Int), 2, 3].length + 1 < 5 ∧
    ∃ (t : BTree Int) (r : SetResult Int) (t' : BTree Int) (d d' : Nat),
      btree_add_all intCompare 3 1 zeroed 5 btree_create [1, 2, 3] = some t ∧
      node_set_value intCompare 3 1 zeroed 5 t t.root none (some 4) none = some r ∧
      btree_add intCompare 3 1 zeroed 5 t 4 = some t' ∧
      btree_height 5 t = some (d : Int) ∧ btree_height 5 t' = some (d' : Int) ∧
      (d' = d ∨ d' = d + 1) ∧ (d' = d + 1 ↔ r.ret = true) ∧
      (r.ret = true → t'.root = some r.tree.heap.length ∧ t.heap.length ≤ r.tree.heap.length ∧
        t'.heap.length = r.tree.heap.length + 1) ∧
      (r.ret = false → t'.root = t.root) ∧
      (∀ a n, AtDepth 3 t.heap t.root a n →
        (∀ i, i ≤ 3 → rd (deref t.heap a).children i = none) → n = d) ∧
      (∀ a n, AtDepth 3 t'.heap t'.root a n →
        (∀ i, i ≤ 3 → rd (deref t'.heap a).children i = none) → n = d') :=
  ⟨by decide, by decide, by decide,
    C22_height_step intCompare 3 1 zeroed (by decide) (by decide) [1, 2, 3] 4 5 (by decide)⟩

/-- C25: on an array of `M + 1` slots and `start ≤ M + 1` (so for `start` 0
and 1), `reorderValues` keeps the length and the slots before `start`; the
slots from `start` on become the non-empty entries of the old slots from
`start` on, in their order, followed by empty slots only; the number of
non-empty entries is the same, and a second call changes nothing. -/
theorem C25_compaction {β : Type} (M : Nat) (a : List (Option β)) (start : Nat)
    (hl : a.length = M + 1) (hs : start ≤ M + 1) :
    (reorderValues M a start).length = M + 1 ∧
    (reorderValues M a start).take start = a.take start ∧
    (reorderValues M a start).drop start =
      (a.drop start).filter Option.isSome ++
        List.replicate (M + 1 - start - ((a.drop start).filter Option.isSome).length)
          none ∧
    (reorderValues M a start).countP Option.isSome = a.countP Option.isSome ∧
    reorderValues M (reorderValues M a start) start = reorderValues M a start := by
  have hT : (a.take start).length = start := by rw [List.length_take]; omega
  have hFa : ∀ x ∈ (a.drop start).filter Option.isSome, x.isSome = true := by
    intro x hx
    exact (List.mem_filter.1 hx).2
  have hle := length_reorderValues M a start
  have e := reorderValues_eq M a start hl hs
  have e1 : (reorderValues M a start).take start = a.take start := by
    rw [e]; exact List.take_left' hT
  have e2 : (reorderValues M a start).drop start =
      (a.drop start).filter Option.isSome ++
        List.replicate (M + 1 - start - ((a.drop start).filter Option.isSome).length)
          none := by
    rw [e]; exact List.drop_left' hT
  have e3 : ((reorderValues M a start).drop start).filter Option.isSome =
      (a.drop start).filter Option.isSome := by
    rw [e2, List.filter_append, List.filter_replicate]
    simp only [Option.isSome_none, Bool.false_eq_true, if_false, List.append_nil]
    exact List.filter_eq_self.2 hFa
  refine ⟨by rw [hle, hl], e1, e2, ?_, ?_⟩
  · conv_rhs => rw [← List.take_append_drop start a]
    conv_lhs => rw [← List.take_append_drop start (reorderValues M a start)]
    rw [List.countP_append, List.countP_append, e1, List.countP_eq_length_filter _ (List.drop _ _),
      e3, ← List.countP_eq_length_filter]
  · rw [reorderValues_eq M (reorderValues M a start) start (by rw [hle, hl]) hs, e1, e3]
    exact e.symm

/-- Witness of C25: `M = 3`, the array with keys in slots 1 and 3, `start = 1`. -/
theorem C25_compaction_witness :
    [none, some (1 : Int), none, some 2].length = 3 + 1 ∧ 1 ≤ 3 + 1 ∧
    (reorderValues 3 [none, some (1 : Int), none, some 2] 1).length = 3 + 1 ∧
    (reorderValues 3 [none, some (1 : Int), none, some 2] 1).take 1 =
      [none, some (1 : Int), none, some 2].take 1 ∧
    (reorderValues 3 [none, some (1 : Int), none, some 2] 1).drop 1 =
      ([none, some (1 : Int), none, some 2].drop 1).filter Option.isSome ++
        List.replicate (3 + 1 - 1 -
          (([none, some (1 : Int), none, some 2].drop 1).filter Option.isSome).length)
          none ∧
    (reorderValues 3 [none, some (1 : Int), none, some 2] 1).countP Option.isSome =
      [none, some (1 : Int), none, some 2].countP Option.isSome ∧
    reorderValues 3 (reorderValues 3 [none, some (1 : Int), none, some 2] 1) 1 =
      reorderValues 3 [none, some (1 : Int), none, some 2] 1 :=
  ⟨rfl, by decide, C25_compaction 3 [none, some (1 : Int), none, some 2] 1 rfl (by decide)⟩

/-- C23: for `1 ≤ mn < M`, after every sequence of `btree_add` calls from the
empty tree (every allocation succeeding) `tree->size` is the number of
allocated nodes, the nodes reachable from the root are exactly the allocated
ones, so `tree->size` is the number of nodes reachable from the root; it is
0 after no call and 1 after one call. -/
theorem C23_node_counter {α : Type} (cmp : Compare α) (M mn : Nat) (junk : BTreeNode α)
    (h1 : 1 ≤ mn) (h2 : mn < M) (keys : List α) (fuel : Nat) (hf : keys.length < fuel) :
    ∃ t, btree_add_all cmp M mn junk fuel btree_create keys = some t ∧
      t.size = (t.heap.length : Int) ∧
      (∀ a, Reach M t.heap t.root a ↔ a < t.heap.length) ∧
      t.size = ((Set.ncard {a | Reach M t.heap t.root a} : Nat) : Int) ∧
      (keys.length = 0 → t.size = 0) ∧ (keys.length = 1 → t.size = 1) := by
  obtain ⟨t, d, ht, hb, hsz, hall⟩ := btree_add_all_nodes cmp M mn (min mn (M - mn)) junk h1 h2
    (by omega) (by omega) (by omega) fuel keys btree_create 0
    ((Bal.zero_iff ..).2 rfl) (by omega) rfl (fun x hx => by simp [btree_create] at hx)
  have hreach : ∀ a, Reach M t.heap t.root a ↔ a < t.heap.length := by
    intro a
    constructor
    · intro ha
      obtain ⟨b', e, hba, _⟩ := reach_bal hb ha
      obtain ⟨a', _, ha', hal, _⟩ := hba
      cases ha'
      exact hal
    · intro ha
      obtain ⟨e, he⟩ := hall a ha
      exact In.reach_node hb he
  have hset : {a | Reach M t.heap t.root a} = ((Finset.range t.heap.length : Finset Nat) : Set Nat) := by
    ext a
    simp [hreach a]
  refine ⟨t, ht, hsz, hreach, ?_, ?_, ?_⟩
  · rw [hset, Set.ncard_coe_Finset, Finset.card_range]
    exact hsz
  · intro h0
    have : keys = [] := List.length_eq_zero.1 h0
    subst this
    simp only [btree_add_all, Option.some.injEq] at ht
    rw [← ht]
    rfl
  · intro h1'
    obtain ⟨k, rfl⟩ := List.length_eq_one.1 h1'
    obtain ⟨f, rfl⟩ : ∃ f, fuel = f + 1 := ⟨fuel - 1, by simp at hf; omega⟩
    have e : btree_add cmp M mn junk (f + 1) btree_create k =
        some ⟨some 0, 1, [⟨wr (List.replicate (M + 1) none) 1 (some k),
          wr (wr (List.replicate (M + 1) none) 0 none) 1 none, 1, false⟩], [], []⟩ := rfl
    simp only [btree_add_all, e, Option.some.injEq] at ht
    rw [← ht]

/-- Witness of C23: `M = 3`, `mn = 1`, the keys 1, 2, 3, 4. -/
theorem C23_node_counter_witness :
    1 ≤ 1 ∧ 1 < 3 ∧ [(1 : Int), 2, 3, 4].length < 5 ∧
    ∃ t, btree_add_all intCompare 3 1 zeroed 5 btree_create [1, 2, 3, 4] = some t ∧
      t.size = (t.heap.length : Int) ∧
      (∀ a, Reach 3 t.heap t.root a ↔ a < t.heap.length) ∧
      t.size = ((Set.ncard {a | Reach 3 t.heap t.root a} : Nat) : Int) ∧
      ([(1 : Int), 2, 3, 4].length = 0 → t.size = 0) ∧
      ([(1 : Int), 2, 3, 4].length = 1 → t.size = 1) :=
  ⟨by decide, by decide, by decide,
    C23_node_counter intCompare 3 1 zeroed (by decide) (by decide) [1, 2, 3, 4] 5 (by decide)⟩

end Claims






end BTreeC
